import Mathlib

/-!
Verification of the resql CLI (src/util/cli/resql_cli.c) and of the
consensus/replication core described by the design document.  Pure C helper
functions are embedded as Lean functions over byte lists; the stateful
consensus engine, which is not part of the visible sources, is modelled from
the specification as an explicit transition system.
-/

namespace CliM

/-- Case fold performed by the CLI strncasecmp: a character is folded only
when it is an upper-case letter compared against a lower-case letter or vice
versa (lines 210-216 of resql_cli.c). -/
def cFoldPair (c1 c2 : Nat) : Nat × Nat :=
  if 65 ≤ c1 ∧ c1 ≤ 90 ∧ 97 ≤ c2 ∧ c2 ≤ 122 then (c1 + 32, c2)
  else if 97 ≤ c1 ∧ c1 ≤ 122 ∧ 65 ≤ c2 ∧ c2 ≤ 90 then (c1, c2 + 32)
  else (c1, c2)

/-- First byte of a C string modelled as a byte list; the empty list reads
as the NUL terminator. -/
def byte0 (s : List Nat) : Nat := s.headD 0

/-- The CLI replacement strncasecmp (lines 200-227 of resql_cli.c).  A C
string is a list of its bytes before the terminating NUL; reading past the
end yields 0, matching the terminator. -/
def strncasecmp : List Nat → List Nat → Nat → Int
  | _, _, 0 => 0
  | s1, s2, n + 1 =>
    let c1 := byte0 s1
    let c2 := byte0 s2
    let p := if c1 = c2 then (c1, c2) else cFoldPair c1 c2
    if p.1 ≠ p.2 then (p.1 : Int) - (p.2 : Int)
    else if c1 = 0 then 0
    else strncasecmp s1.tail s2.tail n

/-- Folding of ASCII letters to the common lower case, the conventional
reading of case-insensitive comparison. -/
def lowFold (c : Nat) : Nat := if 65 ≤ c ∧ c ≤ 90 then c + 32 else c

/-- Folding of ASCII letters to the common upper case, the other possible
reading of folding to a common case. -/
def upFold (c : Nat) : Nat := if 97 ≤ c ∧ c ≤ 122 then c - 32 else c

/-- Equality of the first n characters after case folding, stopping early at
a common NUL terminator: the claim's characterisation of a zero result. -/
def specEqN : List Nat → List Nat → Nat → Bool
  | _, _, 0 => true
  | s1, s2, n + 1 =>
    let c1 := byte0 s1
    let c2 := byte0 s2
    if lowFold c1 = lowFold c2 then
      if c1 = 0 then true else specEqN s1.tail s2.tail n
    else false

/-- The comparison value described by the amended claim: scan for the first
pair of characters that disagree after folding; return their difference,
where folding is applied only in the cross-case situation. -/
def specCmpVal : List Nat → List Nat → Nat → Int
  | _, _, 0 => 0
  | s1, s2, n + 1 =>
    let c1 := byte0 s1
    let c2 := byte0 s2
    if lowFold c1 = lowFold c2 then
      if c1 = 0 then 0 else specCmpVal s1.tail s2.tail n
    else ((cFoldPair c1 c2).1 : Int) - ((cFoldPair c1 c2).2 : Int)

theorem lowFold_eq_iff (c1 c2 : Nat) :
    lowFold c1 = lowFold c2 ↔ (cFoldPair c1 c2).1 = (cFoldPair c1 c2).2 := by
  unfold lowFold cFoldPair
  split_ifs <;> simp_all <;> omega

theorem strncasecmp_eq_specCmpVal (s1 s2 : List Nat) (n : Nat) :
    strncasecmp s1 s2 n = specCmpVal s1 s2 n := by
  induction n generalizing s1 s2 with
  | zero => rfl
  | succ n ih =>
    by_cases heq : byte0 s1 = byte0 s2
    · simp [strncasecmp, specCmpVal, heq, ih]
    · by_cases hl : lowFold (byte0 s1) = lowFold (byte0 s2)
      · have hfe := (lowFold_eq_iff _ _).mp hl
        simp [strncasecmp, specCmpVal, heq, hfe, hl, ih]
      · have hfe : ¬ (cFoldPair (byte0 s1) (byte0 s2)).1 =
            (cFoldPair (byte0 s1) (byte0 s2)).2 :=
          fun h => hl ((lowFold_eq_iff _ _).mpr h)
        simp [strncasecmp, specCmpVal, heq, hfe, hl]

theorem specCmpVal_zero_iff (s1 s2 : List Nat) (n : Nat) :
    specCmpVal s1 s2 n = 0 ↔ specEqN s1 s2 n = true := by
  induction n generalizing s1 s2 with
  | zero => simp [specCmpVal, specEqN]
  | succ n ih =>
    by_cases hl : lowFold (byte0 s1) = lowFold (byte0 s2)
    · simp only [specCmpVal, specEqN, if_pos hl]
      by_cases h0 : byte0 s1 = 0
      · simp [h0]
      · simp only [if_neg h0]
        exact ih _ _
    · have hfe : ¬ (cFoldPair (byte0 s1) (byte0 s2)).1 =
          (cFoldPair (byte0 s1) (byte0 s2)).2 :=
        fun h => hl ((lowFold_eq_iff _ _).mpr h)
      simp only [specCmpVal, specEqN, if_neg hl]
      constructor
      · intro h
        exfalso
        apply hfe
        omega
      · intro h
        simp at h

/-- C9 counterexample: the difference returned on a mismatch is not the
difference of the characters folded to a common case.  Folding to lower
case predicts 6 on the pair (A, left bracket) where the code returns -26;
folding to upper case predicts -58 on the pair (a, left brace) where the
code again returns -26.  So no choice of common case matches the code. -/
theorem strncasecmp_not_folded_diff :
    strncasecmp [65] [91] 1 = -26 ∧
    (lowFold 65 : Int) - (lowFold 91 : Int) = 6 ∧
    strncasecmp [97] [123] 1 = -26 ∧
    (upFold 97 : Int) - (upFold 123 : Int) = -58 := by
  decide

/-- C9 (amended): strncasecmp returns 0 when n = 0; it returns 0 exactly
when the first n characters of the two strings agree after folding letters
to a common case, stopping early at a common NUL terminator; and when they
differ it returns the difference of the first disagreeing pair of
characters, folded only when one is an upper-case letter and the other a
lower-case letter. -/
theorem strncasecmp_correct (s1 s2 : List Nat) (n : Nat) :
    strncasecmp s1 s2 0 = 0 ∧
    (strncasecmp s1 s2 n = 0 ↔ specEqN s1 s2 n = true) ∧
    strncasecmp s1 s2 n = specCmpVal s1 s2 n := by
  refine ⟨rfl, ?_, strncasecmp_eq_specCmpVal s1 s2 n⟩
  rw [strncasecmp_eq_specCmpVal]
  exact specCmpVal_zero_iff s1 s2 n

/-- Outcome of executing one statement through the client library, as
distinguished by the return code of resql_exec in resql_cli_rep:
RESQL_ERROR is a protocol/connection failure, RESQL_SQL_ERROR is an
SQL-level error carried as data, anything else is a result set. -/
inductive ExecOutcome
  | disconnected
  | sqlError
  | okRows (rows : List (List Nat))
deriving DecidableEq, Repr

/-- Result of resql_cli_rep: either the process exits (exit(EXIT_FAILURE)
on a protocol failure) or the function returns an int to its caller. -/
inductive RepResult
  | exitFailure
  | ret (r : Int)
deriving DecidableEq, Repr

/-- Control flow of resql_cli_rep (lines 229-254 of resql_cli.c): a
protocol failure prints and exits the process, an SQL error prints and
returns -1, and a well-formed result set is printed and 0 returned. -/
def resql_cli_rep : ExecOutcome → RepResult
  | .disconnected => .exitFailure
  | .sqlError => .ret (-1)
  | .okRows _ => .ret 0

/-- Terminal state of the modelled main: either the process exited inside
resql_cli_rep, or main returned r after executing the given number of -c
commands, having entered the interactive loop or not. -/
inductive MainEnd
  | exited
  | returned (r : Int) (executed : Nat) (enteredLoop : Bool)
deriving DecidableEq, Repr

/-- The -c command loop of main (lines 651-660 of resql_cli.c): commands
run in list order; a nonzero return from resql_cli_rep makes main return
-1 at once; if all commands succeed main returns 0 without entering the
interactive loop. -/
def runCmds : List ExecOutcome → Nat → MainEnd
  | [], done => .returned 0 done false
  | c :: rest, done =>
    match resql_cli_rep c with
    | .exitFailure => .exited
    | .ret r => if r ≠ 0 then .returned (-1) (done + 1) false else runCmds rest (done + 1)

/-- The interactive loop of main (lines 671-699): each executed line's
outcome is processed by resql_cli_rep; an SQL error does not stop the
loop, only a protocol failure ends the session by exiting. -/
def cliLoop : List ExecOutcome → MainEnd
  | [] => .returned 0 0 true
  | line :: rest =>
    match resql_cli_rep line with
    | .exitFailure => .exited
    | .ret _ => cliLoop rest

/-- main (line 620 onward): with -c commands present the command loop runs
and the interactive loop is never entered; otherwise the interactive loop
runs on the lines typed. -/
def mainModel (cmds : List ExecOutcome) (interactive : List ExecOutcome) : MainEnd :=
  if cmds.isEmpty then cliLoop interactive else runCmds cmds 0

theorem runCmds_ok_front (pre : List ExecOutcome) (done : Nat)
    (hpre : ∀ c ∈ pre, ∃ rows, c = ExecOutcome.okRows rows) :
    ∀ rest, runCmds (pre ++ rest) done = runCmds rest (done + pre.length) := by
  induction pre generalizing done with
  | nil => simp [runCmds]
  | cons c t ih =>
    intro rest
    obtain ⟨rows, hc⟩ := hpre c (by simp)
    subst hc
    have := ih (done + 1) (fun x hx => hpre x (by simp [hx]))
    simp [runCmds, resql_cli_rep, this]
    ring_nf

/-- C10: with -c options, commands run in the order given; the first SQL
error makes resql_cli_rep return -1 and main return -1 with no later
command executed and the interactive loop never entered; if every command
succeeds, main returns 0 without entering the interactive loop. -/
theorem main_cmd_mode (pre post inter : List ExecOutcome)
    (hpre : ∀ c ∈ pre, ∃ rows, c = ExecOutcome.okRows rows) :
    resql_cli_rep .sqlError = .ret (-1) ∧
    mainModel (pre ++ ExecOutcome.sqlError :: post) inter =
      .returned (-1) (pre.length + 1) false ∧
    (pre ≠ [] → mainModel pre inter = .returned 0 pre.length false) := by
  refine ⟨rfl, ?_, ?_⟩
  · have hne : (pre ++ ExecOutcome.sqlError :: post) ≠ [] := by simp
    unfold mainModel
    rw [if_neg (by simp)]
    rw [runCmds_ok_front pre 0 hpre]
    simp [runCmds, resql_cli_rep]
  · intro hne
    unfold mainModel
    rw [if_neg (by simpa using hne)]
    have := runCmds_ok_front pre 0 hpre []
    simpa [runCmds] using this

/-- Witness for C10 at a concrete command list. -/
theorem main_cmd_mode_witness :
    (∀ c ∈ [ExecOutcome.okRows []], ∃ rows, c = ExecOutcome.okRows rows) ∧
    (resql_cli_rep .sqlError = .ret (-1) ∧
      mainModel ([ExecOutcome.okRows []] ++ ExecOutcome.sqlError :: [.okRows [[1]]]) [] =
        .returned (-1) (1 + 1) false ∧
      ([ExecOutcome.okRows []] ≠ [] →
        mainModel [ExecOutcome.okRows []] [] = .returned 0 1 false)) := by
  have h : ∀ c ∈ [ExecOutcome.okRows []], ∃ rows, c = ExecOutcome.okRows rows := by
    intro c hc
    simp at hc
    exact ⟨[], hc⟩
  exact ⟨h, by simpa using main_cmd_mode [ExecOutcome.okRows []] [.okRows [[1]]] [] h⟩

/-- Result of one SQL batch at the replicated state machine: either rows or
an application-level SQL error, both of which are ordinary command
results. -/
inductive SqlRes
  | rows (rs : List (List Nat))
  | sqlErr (code : Nat)
deriving DecidableEq, Repr

/-- Modelled from the spec: the server-side apply step of the replicated
state machine (section 4.4), which is not among the visible sources.  A
committed entry is appended to the applied log and executed against the
embedded engine; the engine's result, error or not, is recorded and
returned as data. -/
structure RsmState (Db : Type) where
  applied : List (List Nat)
  db : Db

/-- Modelled from the spec: apply(entry) of the RSM; the consensus entry is
applied exactly once and its SQL-level outcome is the command's result. -/
def applyCommitted {Db : Type} (engine : Db → List Nat → Db × SqlRes)
    (st : RsmState Db) (entry : List Nat) : RsmState Db × SqlRes :=
  let out := engine st.db entry
  ({ applied := st.applied ++ [entry], db := out.1 }, out.2)

/-- C8: an SQL-level error is a successful consensus outcome: the entry is
still applied (appended to the applied log) and the error comes back to
the caller as data; at the client, resql_cli_rep maps an SQL error to a
reported -1 while the interactive session continues, and only a protocol
failure terminates the connection. -/
theorem sql_error_is_data {Db : Type} (engine : Db → List Nat → Db × SqlRes)
    (st : RsmState Db) (entry : List Nat) (code : Nat) (rest : List ExecOutcome)
    (herr : (engine st.db entry).2 = SqlRes.sqlErr code) :
    (applyCommitted engine st entry).1.applied = st.applied ++ [entry] ∧
    (applyCommitted engine st entry).2 = SqlRes.sqlErr code ∧
    resql_cli_rep .sqlError = .ret (-1) ∧
    cliLoop (ExecOutcome.sqlError :: rest) = cliLoop rest ∧
    cliLoop (ExecOutcome.disconnected :: rest) = .exited := by
  refine ⟨rfl, ?_, rfl, rfl, rfl⟩
  simp [applyCommitted, herr]

/-- Witness for C8 at a concrete engine that always errors. -/
theorem sql_error_is_data_witness :
    ((fun (_ : Unit) (_ : List Nat) => ((), SqlRes.sqlErr 5)) () [3]).2 =
        SqlRes.sqlErr 5 ∧
    ((applyCommitted (fun _ _ => ((), SqlRes.sqlErr 5)) ⟨[], ()⟩ [3]).1.applied =
        [] ++ [[3]] ∧
      (applyCommitted (fun _ _ => ((), SqlRes.sqlErr 5)) ⟨[], ()⟩ [3]).2 =
        SqlRes.sqlErr 5 ∧
      resql_cli_rep .sqlError = .ret (-1) ∧
      cliLoop [ExecOutcome.sqlError] = cliLoop [] ∧
      cliLoop [ExecOutcome.disconnected] = .exited) :=
  ⟨rfl, sql_error_is_data (fun _ _ => ((), SqlRes.sqlErr 5)) ⟨[], ()⟩ [3] 5 [] rfl⟩

end CliM

namespace SessM

/-- Modelled from the spec: per-session bookkeeping of the Session/Request
Tracker (section 4.5), which is not among the visible sources: the last
applied sequence number and the cached result for it. -/
structure Sess (R : Type) where
  lastSeq : Nat
  cached : R
deriving DecidableEq, Repr

/-- Result of submit at the tracker boundary (section 6): a command result,
a distinct session-expired rejection, or a rejected stale/out-of-window
sequence. -/
inductive SubmitRes (R : Type)
  | ok (r : R)
  | sessionExpired
  | badSeq
deriving DecidableEq, Repr

/-- Modelled from the spec: the tracker state: the replicated state
machine image, the session table, and the consensus log of proposed
(session, sequence, payload) entries. -/
structure Tracker (S R : Type) where
  rsm : S
  sessions : List (Nat × Sess R)
  log : List (Nat × Nat × List Nat)

/-- Point update of the session table. -/
def setSess {R : Type} (l : List (Nat × Sess R)) (sid : Nat) (e : Sess R) :
    List (Nat × Sess R) :=
  l.map fun p => if p.1 = sid then (sid, e) else p

/-- Modelled from the spec: submit(sessionId, sequence, payload) of the
Session/Request Tracker (section 4.5).  An unknown session is rejected as
expired; a resend of the last applied sequence returns the cached result
with no log append; the next expected sequence is proposed, applied and
cached; anything else is rejected. -/
def submit {S R : Type} (apply : S → List Nat → S × R) (st : Tracker S R)
    (sid q : Nat) (payload : List Nat) : Tracker S R × SubmitRes R :=
  match st.sessions.lookup sid with
  | none => (st, .sessionExpired)
  | some sess =>
    if q = sess.lastSeq then (st, .ok sess.cached)
    else if q = sess.lastSeq + 1 then
      let a := apply st.rsm payload
      ({ rsm := a.1,
         sessions := setSess st.sessions sid { lastSeq := q, cached := a.2 },
         log := st.log ++ [(sid, q, payload)] }, .ok a.2)
    else (st, .badSeq)

/-- N sequential submissions of the same (session, sequence, payload),
collecting the returned results. -/
def submitIter {S R : Type} (apply : S → List Nat → S × R) (sid q : Nat)
    (payload : List Nat) : Nat → Tracker S R → Tracker S R × List (SubmitRes R)
  | 0, st => (st, [])
  | n + 1, st =>
    let x := submit apply st sid q payload
    let y := submitIter apply sid q payload n x.1
    (y.1, x.2 :: y.2)

theorem lookup_setSess {R : Type} (l : List (Nat × Sess R)) (sid : Nat)
    (e : Sess R) (sess : Sess R) (h : l.lookup sid = some sess) :
    (setSess l sid e).lookup sid = some e := by
  induction l with
  | nil => simp [List.lookup] at h
  | cons p t ih =>
    obtain ⟨k, v⟩ := p
    by_cases hp : k = sid
    · subst hp
      have h1 : setSess ((k, v) :: t) k e = (k, e) :: setSess t k e := by
        simp [setSess]
      rw [h1]
      simp [List.lookup]
    · have h1 : setSess ((k, v) :: t) sid e = (k, v) :: setSess t sid e := by
        simp [setSess, hp]
      rw [h1]
      have hb : (sid == k) = false := by
        simp only [beq_eq_false_iff_ne, ne_eq]
        exact fun hh => hp hh.symm
      simp only [List.lookup, hb] at h ⊢
      exact ih h

theorem submit_cached {S R : Type} (apply : S → List Nat → S × R)
    (st : Tracker S R) (sid q : Nat) (payload : List Nat) (r : R)
    (h : st.sessions.lookup sid = some { lastSeq := q, cached := r }) :
    submit apply st sid q payload = (st, .ok r) := by
  simp [submit, h]

/-- C3: starting from a session whose next expected sequence is q,
submitting (sid, q, payload) N times with N at least 1 mutates the state
machine exactly once (the final tracker equals the tracker after the first
submission, whose image is one application of the payload and whose log
gained exactly one entry), and all N calls return the same result; a
resubmission of an already applied sequence returns the cached result with
no state change and no log append. -/
theorem submit_exactly_once {S R : Type} (apply : S → List Nat → S × R)
    (st : Tracker S R) (sid q : Nat) (payload : List Nat) (sess : Sess R)
    (N : Nat)
    (hs : st.sessions.lookup sid = some sess)
    (hq : q = sess.lastSeq + 1) (hN : 1 ≤ N) :
    (submitIter apply sid q payload N st).1 = (submit apply st sid q payload).1 ∧
    (submitIter apply sid q payload N st).2 =
      List.replicate N (SubmitRes.ok (apply st.rsm payload).2) ∧
    (submit apply st sid q payload).1.rsm = (apply st.rsm payload).1 ∧
    (submit apply st sid q payload).1.log = st.log ++ [(sid, q, payload)] ∧
    (∀ st2 : Tracker S R, ∀ r : R,
      st2.sessions.lookup sid = some { lastSeq := q, cached := r } →
      submit apply st2 sid q payload = (st2, .ok r)) := by
  have hqe : ¬ q = sess.lastSeq := by omega
  have hfirst : submit apply st sid q payload =
      ({ rsm := (apply st.rsm payload).1,
         sessions := setSess st.sessions sid
           { lastSeq := q, cached := (apply st.rsm payload).2 },
         log := st.log ++ [(sid, q, payload)] },
       .ok (apply st.rsm payload).2) := by
    simp [submit, hs, hqe, hq]
  have hlook : (submit apply st sid q payload).1.sessions.lookup sid =
      some { lastSeq := q, cached := (apply st.rsm payload).2 } := by
    rw [hfirst]
    exact lookup_setSess st.sessions sid _ sess hs
  have hrest : ∀ n, submitIter apply sid q payload n (submit apply st sid q payload).1 =
      ((submit apply st sid q payload).1,
        List.replicate n (SubmitRes.ok (apply st.rsm payload).2)) := by
    intro n
    induction n with
    | zero => simp [submitIter]
    | succ n ih =>
      have hc := submit_cached apply (submit apply st sid q payload).1 sid q payload
        (apply st.rsm payload).2 hlook
      simp [submitIter, hc, ih, List.replicate]
  obtain ⟨M, hM⟩ : ∃ M, N = M + 1 := ⟨N - 1, by omega⟩
  subst hM
  constructor
  · simp [submitIter, hrest]
  constructor
  · simp only [submitIter, hrest]
    have : (submit apply st sid q payload).2 = .ok (apply st.rsm payload).2 := by
      rw [hfirst]
    simp [this, List.replicate]
  refine ⟨by rw [hfirst], by rw [hfirst], ?_⟩
  intro st2 r h2
  exact submit_cached apply st2 sid q payload r h2

/-- Witness for C3 at a concrete counting state machine and N = 3. -/
theorem submit_exactly_once_witness :
    ((Tracker.mk 0 [(7, Sess.mk 2 0)] [] : Tracker Nat Nat).sessions.lookup 7 =
        some (Sess.mk 2 0)) ∧
    (3 : Nat) = 2 + 1 ∧ 1 ≤ 3 ∧
    ((submitIter (fun s p => (s + p.length, s + p.length)) 7 3 [9, 9] 3
        (Tracker.mk 0 [(7, Sess.mk 2 0)] [])).1 =
      (submit (fun s p => (s + p.length, s + p.length))
        (Tracker.mk 0 [(7, Sess.mk 2 0)] []) 7 3 [9, 9]).1 ∧
     (submitIter (fun s p => (s + p.length, s + p.length)) 7 3 [9, 9] 3
        (Tracker.mk 0 [(7, Sess.mk 2 0)] [])).2 =
      List.replicate 3 (SubmitRes.ok
        ((fun (s : Nat) (p : List Nat) => (s + p.length, s + p.length)) 0 [9, 9]).2) ∧
     (submit (fun s p => (s + p.length, s + p.length))
        (Tracker.mk 0 [(7, Sess.mk 2 0)] []) 7 3 [9, 9]).1.rsm =
      ((fun (s : Nat) (p : List Nat) => (s + p.length, s + p.length)) 0 [9, 9]).1 ∧
     (submit (fun s p => (s + p.length, s + p.length))
        (Tracker.mk 0 [(7, Sess.mk 2 0)] []) 7 3 [9, 9]).1.log =
      [] ++ [(7, 3, [9, 9])] ∧
     (∀ st2 : Tracker Nat Nat, ∀ r : Nat,
        st2.sessions.lookup 7 = some { lastSeq := 3, cached := r } →
        submit (fun s p => (s + p.length, s + p.length)) st2 7 3 [9, 9] =
          (st2, .ok r))) := by
  refine ⟨by decide, rfl, by omega, ?_⟩
  exact submit_exactly_once (fun s p => (s + p.length, s + p.length))
    (Tracker.mk 0 [(7, Sess.mk 2 0)] []) 7 3 [9, 9] (Sess.mk 2 0) 3
    (by decide) rfl (by omega)

end SessM

namespace SnapM

/-- Applying a list of committed entries in order to a state image, the
deterministic replay of the consensus log. -/
def applyEntries {S E : Type} (apply : S → E → S) (s0 : S) (es : List E) : S :=
  es.foldl apply s0

/-- Modelled from the spec: the Snapshot Manager (section 4.3), not among
the visible sources, captures the state image at index K, which replaces
all log entries up to and including K. -/
def snapshotAt {S E : Type} (apply : S → E → S) (s0 : S) (log : List E)
    (K : Nat) : S :=
  applyEntries apply s0 (log.take K)

/-- Modelled from the spec: installing the snapshot taken at K and then
replaying entries K+1 through the end of the log. -/
def installThenReplay {S E : Type} (apply : S → E → S) (s0 : S) (log : List E)
    (K : Nat) : S :=
  applyEntries apply (snapshotAt apply s0 log K) (log.drop K)

/-- C7: replaying the whole log from the start yields exactly the state
obtained by installing the snapshot at K and replaying the remaining
entries, for every snapshot point K. -/
theorem snapshot_equiv {S E : Type} (apply : S → E → S) (s0 : S)
    (log : List E) (K : Nat) :
    applyEntries apply s0 log = installThenReplay apply s0 log K := by
  unfold installThenReplay snapshotAt applyEntries
  rw [← List.foldl_append, List.take_append_drop]

end SnapM

namespace RaftM

/-- Modelled from the spec: kinds of log entries (section 3, LogEntry). -/
inductive EKind
  | command
  | config
  | noop
deriving DecidableEq, Repr

/-- Modelled from the spec: a consensus log entry (section 3): creation
term, kind, opaque payload bytes, and the client session tag. -/
structure Entry where
  term : Nat
  kind : EKind
  payload : List Nat
  sid : Nat
  seq : Nat
deriving DecidableEq, Repr

/-- Modelled from the spec: node roles (section 3, NodeRole). -/
inductive Role
  | Follower
  | Candidate
  | Leader
deriving DecidableEq, Repr

/-- Modelled from the spec: the per-node consensus state (sections 3 and
9): current term, vote, role, log and commit index.  Log indices are
1-based: index i of a log L is element i-1 of the list. -/
structure Node (N : Nat) where
  currentTerm : Nat
  votedFor : Option (Fin N)
  role : Role
  log : List Entry
  commitIndex : Nat
deriving DecidableEq

/-- Modelled from the spec: the node-to-node RPCs (section 6).  Messages,
once sent, stay available: delivery never consumes them, which models
duplication and reordering; loss is modelled by never delivering. -/
inductive Msg (N : Nat)
  | reqVote (t : Nat) (cand : Fin N) (lastIdx : Nat) (lastTm : Nat)
  | voteGrant (t : Nat) (voter : Fin N) (cand : Fin N)
  | append (t : Nat) (leader : Fin N) (prevIdx prevTm : Nat)
      (entries : List Entry) (leaderCommit : Nat)
  | appendOk (t : Nat) (follower : Fin N) (matchIdx : Nat)
deriving DecidableEq

/-- Modelled from the spec: the global cluster state over a fixed voting
configuration of N nodes.  Besides the nodes and the message history it
carries two history variables used only by the proofs: tlog t is the log
of the term-t leader as of now (empty when no leader of term t was ever
elected), and elected records each election with its vote quorum. -/
structure State (N : Nat) where
  nodes : Fin N → Node N
  msgs : List (Msg N)
  tlog : Nat → List Entry
  elected : List (Nat × Fin N × Finset (Fin N))

/-- Entry of a log at 1-based index i. -/
def entryAt (L : List Entry) : Nat → Option Entry
  | 0 => none
  | j + 1 => L.get? j

/-- Term of the entry at 1-based index i. -/
def termAt (L : List Entry) (i : Nat) : Option Nat :=
  (entryAt L i).map Entry.term

/-- Term of the last entry, 0 for the empty log. -/
def lastTermOf (L : List Entry) : Nat :=
  (termAt L L.length).getD 0

/-- The up-to-date comparison of section 4.2: (t1, i1) at least as
up-to-date as (t2, i2), lexicographically by (last term, last index). -/
def lexGe (t1 i1 t2 i2 : Nat) : Prop :=
  t2 < t1 ∨ (t1 = t2 ∧ i2 ≤ i1)

/-- A strict majority of the N voting members. -/
def isMaj (N : Nat) (Q : Finset (Fin N)) : Prop :=
  N < 2 * Q.card

/-- The NoOp entry a new leader appends for its term (section 4.2). -/
def noopFor (t : Nat) : Entry :=
  { term := t, kind := .noop, payload := [], sid := 0, seq := 0 }

/-- Entries of a log strictly after position pos, up to len of them. -/
def slice (L : List Entry) (pos len : Nat) : List Entry :=
  (L.take (pos + len)).drop pos

/-- The AppendEntries acceptance of section 4.1/4.2: keep existing entries
while they match the incoming ones by term, truncate at the first
conflicting entry and splice the rest in; entries already present are not
re-truncated. -/
def mergeAt (old : List Entry) (pos : Nat) (new : List Entry) : List Entry :=
  match new with
  | [] => old
  | e :: rest =>
    match entryAt old (pos + 1) with
    | some e2 =>
      if e2.term = e.term then mergeAt old (pos + 1) rest
      else old.take pos ++ (e :: rest)
    | none => old.take pos ++ (e :: rest)

/-- The initial cluster state: everyone a follower at term 0 with an empty
log. -/
def initState (N : Nat) : State N where
  nodes := fun _ =>
    { currentTerm := 0, votedFor := none, role := .Follower,
      log := [], commitIndex := 0 }
  msgs := []
  tlog := fun _ => []
  elected := []

/-- Modelled from the spec: the transition relation of the consensus
engine (section 4.2), which is not among the visible sources.  One
constructor per event: election timeout, adopting a higher term, granting
a vote, winning an election, a client proposal, sending and accepting
AppendEntries, and the leader commit rule. -/
inductive Step {N : Nat} : State N → State N → Prop
  | timeout (σ : State N) (c : Fin N) :
      Step σ { σ with
        nodes := Function.update σ.nodes c { σ.nodes c with
          currentTerm := (σ.nodes c).currentTerm + 1,
          votedFor := some c,
          role := .Candidate },
        msgs := σ.msgs ++
          [Msg.reqVote ((σ.nodes c).currentTerm + 1) c
              (σ.nodes c).log.length (lastTermOf (σ.nodes c).log),
           Msg.voteGrant ((σ.nodes c).currentTerm + 1) c c] }
  | stepDown (σ : State N) (v : Fin N) (t : Nat)
      (ht : (σ.nodes v).currentTerm < t) :
      Step σ { σ with
        nodes := Function.update σ.nodes v { σ.nodes v with
          currentTerm := t, votedFor := none, role := .Follower } }
  | grantVote (σ : State N) (v c : Fin N) (t li lt : Nat)
      (hm : Msg.reqVote t c li lt ∈ σ.msgs)
      (ht : (σ.nodes v).currentTerm = t)
      (hv : (σ.nodes v).votedFor = none ∨ (σ.nodes v).votedFor = some c)
      (hup : lexGe lt li (lastTermOf (σ.nodes v).log) (σ.nodes v).log.length) :
      Step σ { σ with
        nodes := Function.update σ.nodes v { σ.nodes v with votedFor := some c },
        msgs := σ.msgs ++ [Msg.voteGrant t v c] }
  | becomeLeader (σ : State N) (c : Fin N) (Q : Finset (Fin N))
      (hrole : (σ.nodes c).role = .Candidate)
      (hQ : isMaj N Q)
      (hv : ∀ v ∈ Q, Msg.voteGrant (σ.nodes c).currentTerm v c ∈ σ.msgs) :
      Step σ { σ with
        nodes := Function.update σ.nodes c { σ.nodes c with
          role := .Leader,
          log := (σ.nodes c).log ++ [noopFor (σ.nodes c).currentTerm] },
        msgs := σ.msgs ++
          [Msg.appendOk (σ.nodes c).currentTerm c ((σ.nodes c).log.length + 1)],
        tlog := fun x => if x = (σ.nodes c).currentTerm
          then (σ.nodes c).log ++ [noopFor (σ.nodes c).currentTerm]
          else σ.tlog x,
        elected := σ.elected ++ [((σ.nodes c).currentTerm, c, Q)] }
  | clientPropose (σ : State N) (l : Fin N) (e : Entry)
      (hrole : (σ.nodes l).role = .Leader)
      (he : e.term = (σ.nodes l).currentTerm) :
      Step σ { σ with
        nodes := Function.update σ.nodes l { σ.nodes l with
          log := (σ.nodes l).log ++ [e] },
        msgs := σ.msgs ++
          [Msg.appendOk (σ.nodes l).currentTerm l ((σ.nodes l).log.length + 1)],
        tlog := fun x => if x = (σ.nodes l).currentTerm
          then (σ.nodes l).log ++ [e]
          else σ.tlog x }
  | sendAppend (σ : State N) (l : Fin N) (pos len : Nat)
      (hrole : (σ.nodes l).role = .Leader)
      (hlen : pos + len ≤ (σ.nodes l).log.length) :
      Step σ { σ with
        msgs := σ.msgs ++
          [Msg.append (σ.nodes l).currentTerm l pos
              ((termAt (σ.nodes l).log pos).getD 0)
              (slice (σ.nodes l).log pos len)
              (σ.nodes l).commitIndex] }
  | handleAppend (σ : State N) (f lid : Fin N) (t pos pt lc : Nat)
      (es : List Entry)
      (hm : Msg.append t lid pos pt es lc ∈ σ.msgs)
      (ht : (σ.nodes f).currentTerm = t)
      (hrole : (σ.nodes f).role ≠ .Leader)
      (hcons : pos = 0 ∨ termAt (σ.nodes f).log pos = some pt) :
      Step σ { σ with
        nodes := Function.update σ.nodes f { σ.nodes f with
          role := .Follower,
          log := mergeAt (σ.nodes f).log pos es,
          commitIndex := max (σ.nodes f).commitIndex
            (min lc (pos + es.length)) },
        msgs := σ.msgs ++ [Msg.appendOk t f (pos + es.length)] }
  | advanceCommit (σ : State N) (l : Fin N) (i : Nat) (Q : Finset (Fin N))
      (hrole : (σ.nodes l).role = .Leader)
      (hterm : termAt (σ.nodes l).log i = some (σ.nodes l).currentTerm)
      (hQ : isMaj N Q)
      (hack : ∀ v ∈ Q, ∃ m, i ≤ m ∧
        Msg.appendOk (σ.nodes l).currentTerm v m ∈ σ.msgs) :
      Step σ { σ with
        nodes := Function.update σ.nodes l ({ σ.nodes l with
          commitIndex := max (σ.nodes l).commitIndex i }) }

theorem entryAt_some_bounds {L : List Entry} {i : Nat} {e : Entry}
    (h : entryAt L i = some e) : 1 ≤ i ∧ i ≤ L.length := by
  match i with
  | 0 => simp [entryAt] at h
  | j + 1 =>
    simp only [entryAt] at h
    obtain ⟨hlt, -⟩ := List.get?_eq_some.mp h
    omega

theorem entryAt_lt_of_some {L : List Entry} {i : Nat} {e : Entry}
    (h : entryAt L i = some e) : i - 1 < L.length := by
  have := entryAt_some_bounds h
  omega

theorem entryAt_exists_of_bounds {L : List Entry} {i : Nat}
    (h1 : 1 ≤ i) (h2 : i ≤ L.length) : ∃ e, entryAt L i = some e := by
  match i with
  | 0 => omega
  | j + 1 =>
    simp only [entryAt]
    exact ⟨L.get ⟨j, by omega⟩, List.get?_eq_get (by omega)⟩

theorem entryAt_take {L : List Entry} {k i : Nat} (h : i ≤ k) :
    entryAt (L.take k) i = entryAt L i := by
  match i with
  | 0 => rfl
  | j + 1 =>
    simp only [entryAt]
    exact List.get?_take (by omega)

theorem entryAt_append_left {A B : List Entry} {i : Nat} (h : i ≤ A.length) :
    entryAt (A ++ B) i = entryAt A i := by
  match i with
  | 0 => rfl
  | j + 1 =>
    simp only [entryAt]
    exact List.get?_append (by omega)

theorem entryAt_append_right {A B : List Entry} {j : Nat} (h : 1 ≤ j) :
    entryAt (A ++ B) (A.length + j) = entryAt B j := by
  match j with
  | 0 => omega
  | j + 1 =>
    simp only [entryAt, Nat.add_eq]
    rw [List.get?_append_right (by omega)]
    congr 1
    omega

theorem entryAt_eq_of_take_eq {L1 L2 : List Entry} {k i : Nat}
    (h : L1.take k = L2.take k) (hi : i ≤ k) :
    entryAt L1 i = entryAt L2 i := by
  rw [← entryAt_take (L := L1) hi, ← entryAt_take (L := L2) hi, h]

theorem termAt_eq_of_take_eq {L1 L2 : List Entry} {k i : Nat}
    (h : L1.take k = L2.take k) (hi : i ≤ k) :
    termAt L1 i = termAt L2 i := by
  unfold termAt
  rw [entryAt_eq_of_take_eq h hi]

theorem termAt_some_bounds {L : List Entry} {i τ : Nat}
    (h : termAt L i = some τ) : 1 ≤ i ∧ i ≤ L.length := by
  unfold termAt at h
  obtain ⟨e, he, _⟩ := Option.map_eq_some'.mp h
  exact entryAt_some_bounds he

theorem termAt_append_left {A B : List Entry} {i : Nat} (h : i ≤ A.length) :
    termAt (A ++ B) i = termAt A i := by
  unfold termAt
  rw [entryAt_append_left h]

theorem lastTermOf_append_single (L : List Entry) (e : Entry) :
    lastTermOf (L ++ [e]) = e.term := by
  unfold lastTermOf termAt
  have h1 : (L ++ [e]).length = L.length + 1 := by simp
  rw [h1, entryAt_append_right (by omega)]
  rfl

theorem lastTermOf_spec {L : List Entry} (h : L ≠ []) :
    termAt L L.length = some (lastTermOf L) := by
  have h1 : 1 ≤ L.length := by
    cases L with
    | nil => simp at h
    | cons a t => simp
  obtain ⟨e, he⟩ := entryAt_exists_of_bounds h1 (le_refl _)
  unfold lastTermOf termAt
  rw [he]
  rfl

theorem take_append_slice (L : List Entry) (pos len : Nat) :
    L.take pos ++ slice L pos len = L.take (pos + len) := by
  unfold slice
  have h1 : (L.take (pos + len)).take pos = L.take pos := by
    rw [List.take_take]
    congr 1
    omega
  conv_rhs => rw [← List.take_append_drop pos (L.take (pos + len))]
  rw [h1]

theorem slice_length {L : List Entry} {pos len : Nat}
    (h : pos + len ≤ L.length) : (slice L pos len).length = len := by
  unfold slice
  simp
  omega

theorem entryAt_slice {L : List Entry} {pos len j : Nat}
    (h1 : 1 ≤ j) (h2 : j ≤ len) :
    entryAt (slice L pos len) j = entryAt (L.take (pos + len)) (pos + j) := by
  match j with
  | 0 => omega
  | j + 1 =>
    unfold slice
    simp only [entryAt, Nat.add_eq]
    rw [List.get?_drop]

theorem entryAt_append_cons (A : List Entry) (x : Entry) (B : List Entry) :
    entryAt (A ++ x :: B) (A.length + 1) = some x := by
  rw [entryAt_append_right (by omega)]
  rfl

theorem take_succ_of_entryAt {old : List Entry} {pos : Nat} {e2 : Entry}
    (hE : entryAt old (pos + 1) = some e2) :
    old.take (pos + 1) = old.take pos ++ [e2] := by
  have hb := entryAt_some_bounds hE
  simp only [entryAt] at hE
  have hg : old[pos]? = some e2 := by
    rw [← List.get?_eq_getElem?]
    exact hE
  rw [List.take_succ, hg]
  rfl

theorem entryAt_cons_shift {old : List Entry} {pos : Nat} (y : Entry)
    (rest : List Entry) (hpos1 : pos + 1 ≤ old.length) :
    ∀ j, pos + 1 < j →
      entryAt (old.take (pos + 1) ++ rest) j =
        entryAt (old.take pos ++ y :: rest) j := by
  intro j hj
  obtain ⟨k, rfl⟩ : ∃ k, j = (pos + 1) + (k + 1) := ⟨j - pos - 2, by omega⟩
  have h1 : (old.take (pos + 1)).length = pos + 1 := by
    simp
    omega
  have h2 : (old.take pos).length = pos := by
    simp
    omega
  rw [show pos + 1 + (k + 1) = (old.take (pos + 1)).length + (k + 1) by omega]
  rw [entryAt_append_right (by omega)]
  rw [show (old.take (pos + 1)).length + (k + 1) =
    (old.take pos).length + (k + 2) by omega]
  rw [entryAt_append_right (by omega)]
  simp only [entryAt, List.get?_cons_succ]

theorem mergeAt_cons (old : List Entry) (pos : Nat) (e : Entry)
    (rest : List Entry) :
    mergeAt old pos (e :: rest) =
      (match entryAt old (pos + 1) with
       | some e2 => if e2.term = e.term then mergeAt old (pos + 1) rest
           else old.take pos ++ (e :: rest)
       | none => old.take pos ++ (e :: rest)) := rfl

theorem mergeAt_cons_some {old : List Entry} {pos : Nat} {e e2 : Entry}
    {rest : List Entry} (hE : entryAt old (pos + 1) = some e2) :
    mergeAt old pos (e :: rest) =
      if e2.term = e.term then mergeAt old (pos + 1) rest
      else old.take pos ++ (e :: rest) := by
  rw [mergeAt_cons, hE]

theorem mergeAt_cons_none {old : List Entry} {pos : Nat} {e : Entry}
    {rest : List Entry} (hE : entryAt old (pos + 1) = none) :
    mergeAt old pos (e :: rest) = old.take pos ++ (e :: rest) := by
  rw [mergeAt_cons, hE]

theorem mergeAt_main (new : List Entry) : ∀ (old : List Entry) (pos : Nat),
    pos ≤ old.length →
    (∀ j e1 e2, pos < j → j ≤ pos + new.length → entryAt old j = some e1 →
      entryAt (old.take pos ++ new) j = some e2 → e1.term = e2.term → e1 = e2) →
    (mergeAt old pos new).take (pos + new.length) = old.take pos ++ new ∧
    pos + new.length ≤ (mergeAt old pos new).length ∧
    (mergeAt old pos new = old.take pos ++ new ∨ mergeAt old pos new = old) := by
  induction new with
  | nil =>
    intro old pos hpos H
    refine ⟨by simp [mergeAt], by simpa [mergeAt] using hpos, Or.inr rfl⟩
  | cons e rest ih =>
    intro old pos hpos H
    have hlen : pos + (e :: rest).length = (pos + 1) + rest.length := by
      simp
      omega
    cases hE : entryAt old (pos + 1) with
    | none =>
      have hb : old.length ≤ pos := by
        by_contra hc
        obtain ⟨x, hx⟩ := entryAt_exists_of_bounds (L := old) (i := pos + 1)
          (by omega) (by omega)
        rw [hE] at hx
        exact Option.noConfusion hx
      have hpe : pos = old.length := by omega
      have hres : mergeAt old pos (e :: rest) = old.take pos ++ e :: rest :=
        mergeAt_cons_none hE
      have hlen2 : (old.take pos ++ e :: rest).length = pos + (e :: rest).length := by
        simp
        omega
      rw [hres]
      refine ⟨List.take_of_length_le (by omega), by omega, Or.inl rfl⟩
    | some e2 =>
      by_cases ht : e2.term = e.term
      · have hres : mergeAt old pos (e :: rest) = mergeAt old (pos + 1) rest := by
          rw [mergeAt_cons_some hE, if_pos ht]
        have hje : entryAt (old.take pos ++ e :: rest) (pos + 1) = some e := by
          have h2 : (old.take pos).length = pos := by
            simp
            omega
          rw [show pos + 1 = (old.take pos).length + 1 by omega]
          exact entryAt_append_cons _ _ _
        have hee : e2 = e :=
          H (pos + 1) e2 e (by omega) (by simp) hE hje ht
        have hkey : old.take (pos + 1) ++ rest = old.take pos ++ e :: rest := by
          rw [take_succ_of_entryAt hE, hee]
          simp
        have hpos2 : pos + 1 ≤ old.length := (entryAt_some_bounds hE).2
        have H2 : ∀ j e1 e2', pos + 1 < j → j ≤ (pos + 1) + rest.length →
            entryAt old j = some e1 →
            entryAt (old.take (pos + 1) ++ rest) j = some e2' →
            e1.term = e2'.term → e1 = e2' := by
          intro j a b hj1 hj2 ha hb hab
          rw [hkey] at hb
          exact H j a b (by omega) (by omega) ha hb hab
        obtain ⟨ih1, ih2, ih3⟩ := ih old (pos + 1) hpos2 H2
        rw [hres, hlen]
        refine ⟨by rw [ih1, hkey], by omega, ?_⟩
        rcases ih3 with h | h
        · left
          rw [h, hkey]
        · right
          exact h
      · have hres : mergeAt old pos (e :: rest) = old.take pos ++ e :: rest := by
          rw [mergeAt_cons_some hE, if_neg ht]
        have hlen2 : (old.take pos ++ e :: rest).length = pos + (e :: rest).length := by
          simp
          omega
        rw [hres]
        refine ⟨List.take_of_length_le (by omega), by omega, Or.inl rfl⟩

theorem mergeAt_keeps (new : List Entry) : ∀ (old : List Entry) (pos : Nat),
    pos ≤ old.length →
    (∀ j e1 e2, pos < j → entryAt old j = some e1 →
      entryAt (old.take pos ++ new) j = some e2 → e1.term = e2.term) →
    ∃ suf, mergeAt old pos new = old ++ suf := by
  induction new with
  | nil =>
    intro old pos hpos H
    exact ⟨[], by simp [mergeAt]⟩
  | cons e rest ih =>
    intro old pos hpos H
    cases hE : entryAt old (pos + 1) with
    | none =>
      have hb : old.length ≤ pos := by
        by_contra hc
        obtain ⟨x, hx⟩ := entryAt_exists_of_bounds (L := old) (i := pos + 1)
          (by omega) (by omega)
        rw [hE] at hx
        exact Option.noConfusion hx
      have hpe : pos = old.length := by omega
      refine ⟨e :: rest, ?_⟩
      rw [mergeAt_cons_none hE, hpe, List.take_length]
    | some e2 =>
      have hje : entryAt (old.take pos ++ e :: rest) (pos + 1) = some e := by
        rw [show pos + 1 = (old.take pos).length + 1 by simp ; omega]
        exact entryAt_append_cons _ _ _
      have ht : e2.term = e.term := H (pos + 1) e2 e (by omega) hE hje
      have hres : mergeAt old pos (e :: rest) = mergeAt old (pos + 1) rest := by
        rw [mergeAt_cons_some hE, if_pos ht]
      have hpos2 : pos + 1 ≤ old.length := (entryAt_some_bounds hE).2
      have H2 : ∀ j e1 e2', pos + 1 < j → entryAt old j = some e1 →
          entryAt (old.take (pos + 1) ++ rest) j = some e2' →
          e1.term = e2'.term := by
        intro j a b hj ha hb
        rw [entryAt_cons_shift e rest hpos2 j hj] at hb
        exact H j a b (by omega) ha hb
      obtain ⟨suf, hsuf⟩ := ih old (pos + 1) hpos2 H2
      rw [hres]
      exact ⟨suf, hsuf⟩

/-- The set of cluster states reachable from the initial state. -/
inductive Reachable {N : Nat} : State N → Prop
  | start : Reachable (initState N)
  | step {σ σ2 : State N} : Reachable σ → Step σ σ2 → Reachable σ2

/-- Finite sequences of steps. -/
inductive Steps {N : Nat} : State N → State N → Prop
  | refl (σ : State N) : Steps σ σ
  | tail {σ1 σ2 σ3 : State N} : Steps σ1 σ2 → Step σ2 σ3 → Steps σ1 σ3

theorem entryAt_nil (i : Nat) : entryAt [] i = none := by
  cases i <;> simp [entryAt]

/-- Node v has acknowledged storing the term-t leader log at least up to
index i. -/
def ackGe {N : Nat} (σ : State N) (t : Nat) (v : Fin N) (i : Nat) : Prop :=
  ∃ m, i ≤ m ∧ Msg.appendOk t v m ∈ σ.msgs

/-- A strict majority has acknowledged index i at term t. -/
def quorumAcked {N : Nat} (σ : State N) (t i : Nat) : Prop :=
  ∃ Q, isMaj N Q ∧ ∀ v ∈ Q, ackGe σ t v i

/-- Index i is committed by the decisive rule at term t: the term-t leader
log holds a term-t entry at i and a majority acknowledged it. -/
def decCommitted {N : Nat} (σ : State N) (t i : Nat) : Prop :=
  termAt (σ.tlog t) i = some t ∧ quorumAcked σ t i

/-- The term-t2 leader log fully covers and agrees with the term-t leader
log up to index i. -/
def fullCompat {N : Nat} (σ : State N) (t i t2 : Nat) : Prop :=
  i ≤ (σ.tlog t2).length ∧ (σ.tlog t2).take i = (σ.tlog t).take i

/-- All elected terms above t and at most bound agree with term t up to
index i. -/
def upCompat {N : Nat} (σ : State N) (t i bound : Nat) : Prop :=
  ∀ t2, t < t2 → t2 ≤ bound → σ.tlog t2 ≠ [] → fullCompat σ t i t2

/-- All elected terms strictly between t and bound agree with term t up to
index i. -/
def interCompat {N : Nat} (σ : State N) (t i bound : Nat) : Prop :=
  ∀ t2, t < t2 → t2 < bound → σ.tlog t2 ≠ [] → fullCompat σ t i t2

/-- The inductive invariant of the consensus model.  The first fields are
local sanity conditions; the middle fields tie messages and the ghost
leader logs together; retention, rg1, rg2 and lcInv carry the leader
completeness induction. -/
structure Inv {N : Nat} (σ : State N) : Prop where
  termBound : ∀ a i τ, termAt (σ.nodes a).log i = some τ →
    τ ≤ (σ.nodes a).currentTerm
  logMono : ∀ a i j τ1 τ2, i ≤ j → termAt (σ.nodes a).log i = some τ1 →
    termAt (σ.nodes a).log j = some τ2 → τ1 ≤ τ2
  commitLe : ∀ a, (σ.nodes a).commitIndex ≤ (σ.nodes a).log.length
  candReq : ∀ a, (σ.nodes a).role = .Candidate →
    Msg.reqVote (σ.nodes a).currentTerm a (σ.nodes a).log.length
      (lastTermOf (σ.nodes a).log) ∈ σ.msgs
  reqBound : ∀ t c li lt, Msg.reqVote t c li lt ∈ σ.msgs →
    1 ≤ t ∧ t ≤ (σ.nodes c).currentTerm
  reqUnique : ∀ t c li lt li2 lt2, Msg.reqVote t c li lt ∈ σ.msgs →
    Msg.reqVote t c li2 lt2 ∈ σ.msgs → li = li2 ∧ lt = lt2
  grantBound : ∀ t v c, Msg.voteGrant t v c ∈ σ.msgs →
    t ≤ (σ.nodes v).currentTerm
  grantReq : ∀ t v c, Msg.voteGrant t v c ∈ σ.msgs →
    ∃ li lt, Msg.reqVote t c li lt ∈ σ.msgs
  grantVotedFor : ∀ t v c, Msg.voteGrant t v c ∈ σ.msgs →
    t = (σ.nodes v).currentTerm → (σ.nodes v).votedFor = some c
  grantUnique : ∀ t v c c2, Msg.voteGrant t v c ∈ σ.msgs →
    Msg.voteGrant t v c2 ∈ σ.msgs → c = c2
  electedGrants : ∀ t c Q, (t, c, Q) ∈ σ.elected →
    isMaj N Q ∧ ∀ v ∈ Q, Msg.voteGrant t v c ∈ σ.msgs
  tlogElected : ∀ t, σ.tlog t ≠ [] → ∃ c Q, (t, c, Q) ∈ σ.elected
  electedNe : ∀ t c Q, (t, c, Q) ∈ σ.elected → σ.tlog t ≠ []
  electedRole : ∀ t c Q, (t, c, Q) ∈ σ.elected →
    t ≤ (σ.nodes c).currentTerm ∧
    ((σ.nodes c).currentTerm = t → (σ.nodes c).role = .Leader)
  leaderTlog : ∀ l, (σ.nodes l).role = .Leader →
    σ.tlog (σ.nodes l).currentTerm = (σ.nodes l).log ∧ (σ.nodes l).log ≠ []
  leaderElected : ∀ l, (σ.nodes l).role = .Leader →
    ∃ Q, ((σ.nodes l).currentTerm, l, Q) ∈ σ.elected
  leaderSelfAck : ∀ l, (σ.nodes l).role = .Leader →
    Msg.appendOk (σ.nodes l).currentTerm l (σ.nodes l).log.length ∈ σ.msgs
  tlogTerms : ∀ t i τ, termAt (σ.tlog t) i = some τ → 1 ≤ τ ∧ τ ≤ t
  tlogMono : ∀ t i j τ1 τ2, i ≤ j → termAt (σ.tlog t) i = some τ1 →
    termAt (σ.tlog t) j = some τ2 → τ1 ≤ τ2
  tlogAnc : ∀ t i τ, termAt (σ.tlog t) i = some τ →
    i ≤ (σ.tlog τ).length ∧ (σ.tlog t).take i = (σ.tlog τ).take i
  nodeAnc : ∀ a i τ, termAt (σ.nodes a).log i = some τ →
    i ≤ (σ.tlog τ).length ∧ (σ.nodes a).log.take i = (σ.tlog τ).take i
  appendMsg : ∀ t lid pos pt es lc, Msg.append t lid pos pt es lc ∈ σ.msgs →
    pos + es.length ≤ (σ.tlog t).length ∧
    es = slice (σ.tlog t) pos es.length ∧
    (pos = 0 ∨ termAt (σ.tlog t) pos = some pt) ∧
    (lc = 0 ∨ ∃ tc ic, decCommitted σ tc ic ∧ lc ≤ ic ∧ tc ≤ t ∧
      (σ.tlog t).take lc = (σ.tlog tc).take lc) ∧
    σ.tlog t ≠ []
  ackBound : ∀ t v m, Msg.appendOk t v m ∈ σ.msgs →
    t ≤ (σ.nodes v).currentTerm ∧ m ≤ (σ.tlog t).length ∧ σ.tlog t ≠ []
  commitCover : ∀ a, (σ.nodes a).commitIndex = 0 ∨
    ∃ tc ic, decCommitted σ tc ic ∧ (σ.nodes a).commitIndex ≤ ic ∧
      tc ≤ (σ.nodes a).currentTerm ∧
      (σ.nodes a).log.take (σ.nodes a).commitIndex =
        (σ.tlog tc).take (σ.nodes a).commitIndex
  retention : ∀ t v m, Msg.appendOk t v m ∈ σ.msgs → ∀ i, i ≤ m →
    upCompat σ t i (σ.nodes v).currentTerm →
    i ≤ (σ.nodes v).log.length ∧
    (σ.nodes v).log.take i = (σ.tlog t).take i
  rg1 : ∀ t1 w c, Msg.voteGrant t1 w c ∈ σ.msgs → ∀ t m,
    Msg.appendOk t w m ∈ σ.msgs → t < t1 → ∀ i, i ≤ m →
    termAt (σ.tlog t) i = some t → interCompat σ t i t1 →
    (σ.nodes c).role = .Candidate → (σ.nodes c).currentTerm = t1 →
    σ.tlog t1 = [] →
    i ≤ (σ.nodes c).log.length ∧
    (σ.nodes c).log.take i = (σ.tlog t).take i
  rg2 : ∀ t1 c Q1, (t1, c, Q1) ∈ σ.elected → ∀ w ∈ Q1, ∀ t m,
    Msg.appendOk t w m ∈ σ.msgs → t < t1 → ∀ i, i ≤ m →
    termAt (σ.tlog t) i = some t → interCompat σ t i t1 →
    i ≤ (σ.tlog t1).length ∧ (σ.tlog t1).take i = (σ.tlog t).take i
  lcInv : ∀ t i, decCommitted σ t i → ∀ t1, t < t1 → σ.tlog t1 ≠ [] →
    i ≤ (σ.tlog t1).length ∧ (σ.tlog t1).take i = (σ.tlog t).take i

theorem decCommitted_mono {N : Nat} {σ σ2 : State N} {t i : Nat}
    (h : decCommitted σ t i)
    (hm : ∀ x ∈ σ.msgs, x ∈ σ2.msgs) (htl : σ2.tlog t = σ.tlog t) :
    decCommitted σ2 t i := by
  obtain ⟨h1, Q, hQ, hack⟩ := h
  refine ⟨htl ▸ h1, Q, hQ, fun v hv => ?_⟩
  obtain ⟨m, him, hmem⟩ := hack v hv
  exact ⟨m, him, hm _ hmem⟩

theorem decCommitted_back {N : Nat} {σ σ2 : State N} {t i : Nat}
    (h : decCommitted σ2 t i)
    (hack : ∀ t2 v m, Msg.appendOk t2 v m ∈ σ2.msgs →
      Msg.appendOk t2 v m ∈ σ.msgs)
    (htl : σ2.tlog t = σ.tlog t) : decCommitted σ t i := by
  obtain ⟨h1, Q, hQ, hA⟩ := h
  refine ⟨htl ▸ h1, Q, hQ, fun v hv => ?_⟩
  obtain ⟨m, him, hmem⟩ := hA v hv
  exact ⟨m, him, hack _ _ _ hmem⟩

theorem maj_inter {N : Nat} {Q1 Q2 : Finset (Fin N)}
    (h1 : isMaj N Q1) (h2 : isMaj N Q2) : ∃ v, v ∈ Q1 ∧ v ∈ Q2 := by
  unfold isMaj at h1 h2
  by_contra hc
  push_neg at hc
  have hdisj : Disjoint Q1 Q2 :=
    Finset.disjoint_left.mpr fun a ha1 ha2 => hc a ha1 ha2
  have hcard := Finset.card_union_of_disjoint hdisj
  have hle : (Q1 ∪ Q2).card ≤ N := by
    have := Finset.card_le_univ (Q1 ∪ Q2)
    simpa [Fintype.card_fin] using this
  omega

theorem inv_init (N : Nat) : Inv (initState N) where
  termBound := by
    intro a i τ h
    simp [initState, termAt, entryAt_nil] at h
  logMono := by
    intro a i j τ1 τ2 hij h1 h2
    simp [initState, termAt, entryAt_nil] at h1
  commitLe := by
    intro a
    simp [initState]
  candReq := by
    intro a h
    simp [initState] at h
  reqBound := by
    intro t c li lt h
    simp [initState] at h
  reqUnique := by
    intro t c li lt li2 lt2 h
    simp [initState] at h
  grantBound := by
    intro t v c h
    simp [initState] at h
  grantReq := by
    intro t v c h
    simp [initState] at h
  grantVotedFor := by
    intro t v c h
    simp [initState] at h
  grantUnique := by
    intro t v c c2 h
    simp [initState] at h
  electedGrants := by
    intro t c Q h
    simp [initState] at h
  tlogElected := by
    intro t h
    simp [initState] at h
  electedNe := by
    intro t c Q h
    simp [initState] at h
  electedRole := by
    intro t c Q h
    simp [initState] at h
  leaderTlog := by
    intro l h
    simp [initState] at h
  leaderElected := by
    intro l h
    simp [initState] at h
  leaderSelfAck := by
    intro l h
    simp [initState] at h
  tlogTerms := by
    intro t i τ h
    simp [initState, termAt, entryAt_nil] at h
  tlogMono := by
    intro t i j τ1 τ2 hij h1 h2
    simp [initState, termAt, entryAt_nil] at h1
  tlogAnc := by
    intro t i τ h
    simp [initState, termAt, entryAt_nil] at h
  nodeAnc := by
    intro a i τ h
    simp [initState, termAt, entryAt_nil] at h
  appendMsg := by
    intro t lid pos pt es lc h
    simp [initState] at h
  ackBound := by
    intro t v m h
    simp [initState] at h
  commitCover := by
    intro a
    left
    simp [initState]
  retention := by
    intro t v m h
    simp [initState] at h
  rg1 := by
    intro t1 w c h
    simp [initState] at h
  rg2 := by
    intro t1 c Q1 h
    simp [initState] at h
  lcInv := by
    intro t i h
    obtain ⟨h1, -⟩ := h
    simp [initState, termAt, entryAt_nil] at h1

end RaftM

namespace RaftM

theorem inv_sendAppend {N : Nat} {σ : State N} (inv : Inv σ) (l : Fin N)
    (pos len : Nat)
    (hrole : (σ.nodes l).role = .Leader)
    (hlen : pos + len ≤ (σ.nodes l).log.length) :
    Inv { σ with msgs := σ.msgs ++
      [Msg.append (σ.nodes l).currentTerm l pos
        ((termAt (σ.nodes l).log pos).getD 0)
        (slice (σ.nodes l).log pos len) (σ.nodes l).commitIndex] } := by
  set M := Msg.append (σ.nodes l).currentTerm l pos
    ((termAt (σ.nodes l).log pos).getD 0)
    (slice (σ.nodes l).log pos len) (σ.nodes l).commitIndex with hM
  have hreq : ∀ t c li lt, Msg.reqVote t c li lt ∈ σ.msgs ++ [M] →
      Msg.reqVote t c li lt ∈ σ.msgs := by
    intro t c li lt h
    rcases List.mem_append.mp h with h | h
    · exact h
    · simp [hM] at h
  have hgr : ∀ t v c, Msg.voteGrant t v c ∈ σ.msgs ++ [M] →
      Msg.voteGrant t v c ∈ σ.msgs := by
    intro t v c h
    rcases List.mem_append.mp h with h | h
    · exact h
    · simp [hM] at h
  have hok : ∀ t v m, Msg.appendOk t v m ∈ σ.msgs ++ [M] →
      Msg.appendOk t v m ∈ σ.msgs := by
    intro t v m h
    rcases List.mem_append.mp h with h | h
    · exact h
    · simp [hM] at h
  have hmono : ∀ x ∈ σ.msgs, x ∈ σ.msgs ++ [M] :=
    fun x hx => List.mem_append_left _ hx
  refine
    { termBound := inv.termBound
      logMono := inv.logMono
      commitLe := inv.commitLe
      tlogTerms := inv.tlogTerms
      tlogMono := inv.tlogMono
      tlogAnc := inv.tlogAnc
      nodeAnc := inv.nodeAnc
      tlogElected := inv.tlogElected
      electedNe := inv.electedNe
      electedRole := inv.electedRole
      leaderTlog := inv.leaderTlog
      leaderElected := inv.leaderElected
      candReq := fun a h => hmono _ (inv.candReq a h)
      leaderSelfAck := fun a h => hmono _ (inv.leaderSelfAck a h)
      reqBound := fun t c li lt h => inv.reqBound t c li lt (hreq _ _ _ _ h)
      reqUnique := fun t c li lt li2 lt2 h h2 =>
        inv.reqUnique t c li lt li2 lt2 (hreq _ _ _ _ h) (hreq _ _ _ _ h2)
      grantBound := fun t v c h => inv.grantBound t v c (hgr _ _ _ h)
      grantReq := fun t v c h => by
        obtain ⟨li, lt, hr⟩ := inv.grantReq t v c (hgr _ _ _ h)
        exact ⟨li, lt, hmono _ hr⟩
      grantVotedFor := fun t v c h => inv.grantVotedFor t v c (hgr _ _ _ h)
      grantUnique := fun t v c c2 h h2 =>
        inv.grantUnique t v c c2 (hgr _ _ _ h) (hgr _ _ _ h2)
      electedGrants := fun t c Q h => by
        obtain ⟨h1, h2⟩ := inv.electedGrants t c Q h
        exact ⟨h1, fun v hv => hmono _ (h2 v hv)⟩
      ackBound := fun t v m h => inv.ackBound t v m (hok _ _ _ h)
      retention := fun t v m h i hi hc =>
        inv.retention t v m (hok _ _ _ h) i hi hc
      rg1 := fun t1 w c hg t m ha => inv.rg1 t1 w c (hgr _ _ _ hg) t m
        (hok _ _ _ ha)
      rg2 := fun t1 c Q1 he w hw t m ha => inv.rg2 t1 c Q1 he w hw t m
        (hok _ _ _ ha)
      lcInv := by
        intro t i hd t1 ht1 hne
        exact inv.lcInv t i (decCommitted_back hd hok rfl) t1 ht1 hne
      appendMsg := ?_
      commitCover := ?_ }
  · intro t lid pos2 pt2 es2 lc2 h
    rcases List.mem_append.mp h with h | h
    · obtain ⟨h1, h2, h3, h4, h5⟩ := inv.appendMsg t lid pos2 pt2 es2 lc2 h
      refine ⟨h1, h2, h3, ?_, h5⟩
      rcases h4 with h4 | ⟨tc, ic, hdc, hlc, htc, htake⟩
      · exact Or.inl h4
      · exact Or.inr ⟨tc, ic, decCommitted_mono hdc hmono rfl, hlc, htc, htake⟩
    · simp only [hM, List.mem_singleton, Msg.append.injEq] at h
      obtain ⟨ht, -, hp, hpt, hes, hlc⟩ := h
      rw [ht, hp, hpt, hes, hlc]
      have htlog := (inv.leaderTlog l hrole).1
      have hes_len : (slice (σ.nodes l).log pos len).length = len :=
        slice_length hlen
      refine ⟨?_, ?_, ?_, ?_, ?_⟩
      · rw [htlog, hes_len]
        exact hlen
      · rw [htlog, hes_len]
      · cases pos with
        | zero => exact Or.inl rfl
        | succ p =>
          right
          obtain ⟨e, he⟩ := entryAt_exists_of_bounds (L := (σ.nodes l).log)
            (i := p + 1) (by omega) (by omega)
          rw [htlog]
          simp [termAt, he]
      · rcases inv.commitCover l with h0 | ⟨tc, ic, hdc, hle2, htc, htake⟩
        · exact Or.inl h0
        · refine Or.inr ⟨tc, ic, decCommitted_mono hdc hmono rfl, hle2, htc, ?_⟩
          rw [htlog]
          exact htake
      · rw [htlog]
        exact (inv.leaderTlog l hrole).2
  · intro a
    rcases inv.commitCover a with h0 | ⟨tc, ic, hdc, hle2, htc, htake⟩
    · exact Or.inl h0
    · exact Or.inr ⟨tc, ic, decCommitted_mono hdc hmono rfl, hle2, htc, htake⟩

end RaftM

namespace RaftM

theorem inv_advanceCommit {N : Nat} {σ : State N} (inv : Inv σ) (l : Fin N)
    (i : Nat) (Q : Finset (Fin N))
    (hrole : (σ.nodes l).role = .Leader)
    (hterm : termAt (σ.nodes l).log i = some (σ.nodes l).currentTerm)
    (hQ : isMaj N Q)
    (hack : ∀ v ∈ Q, ∃ m, i ≤ m ∧
      Msg.appendOk (σ.nodes l).currentTerm v m ∈ σ.msgs) :
    Inv { σ with nodes := Function.update σ.nodes l ({ σ.nodes l with
      commitIndex := max (σ.nodes l).commitIndex i }) } := by
  have hlog : ∀ a, ((Function.update σ.nodes l ({ σ.nodes l with
      commitIndex := max (σ.nodes l).commitIndex i })) a).log =
      (σ.nodes a).log := by
    intro a
    by_cases h : a = l
    · subst h
      simp
    · simp [Function.update_noteq h]
  have htm : ∀ a, ((Function.update σ.nodes l ({ σ.nodes l with
      commitIndex := max (σ.nodes l).commitIndex i })) a).currentTerm =
      (σ.nodes a).currentTerm := by
    intro a
    by_cases h : a = l
    · subst h
      simp
    · simp [Function.update_noteq h]
  have hrl : ∀ a, ((Function.update σ.nodes l ({ σ.nodes l with
      commitIndex := max (σ.nodes l).commitIndex i })) a).role =
      (σ.nodes a).role := by
    intro a
    by_cases h : a = l
    · subst h
      simp
    · simp [Function.update_noteq h]
  have hvf : ∀ a, ((Function.update σ.nodes l ({ σ.nodes l with
      commitIndex := max (σ.nodes l).commitIndex i })) a).votedFor =
      (σ.nodes a).votedFor := by
    intro a
    by_cases h : a = l
    · subst h
      simp
    · simp [Function.update_noteq h]
  have hci : ∀ a, a ≠ l → ((Function.update σ.nodes l ({ σ.nodes l with
      commitIndex := max (σ.nodes l).commitIndex i })) a).commitIndex =
      (σ.nodes a).commitIndex := by
    intro a h
    simp [Function.update_noteq h]
  have hcil : ((Function.update σ.nodes l ({ σ.nodes l with
      commitIndex := max (σ.nodes l).commitIndex i })) l).commitIndex =
      max (σ.nodes l).commitIndex i := by
    simp
  have hib := termAt_some_bounds hterm
  refine
    { reqUnique := inv.reqUnique
      grantReq := inv.grantReq
      grantUnique := inv.grantUnique
      electedGrants := inv.electedGrants
      tlogElected := inv.tlogElected
      electedNe := inv.electedNe
      tlogTerms := inv.tlogTerms
      tlogMono := inv.tlogMono
      tlogAnc := inv.tlogAnc
      appendMsg := inv.appendMsg
      rg2 := inv.rg2
      lcInv := inv.lcInv
      termBound := by
        intro a j τ h
        rw [hlog] at h
        rw [htm]
        exact inv.termBound a j τ h
      logMono := by
        intro a j k τ1 τ2 hjk h1 h2
        rw [hlog] at h1 h2
        exact inv.logMono a j k τ1 τ2 hjk h1 h2
      commitLe := by
        intro a
        rw [hlog]
        by_cases h : a = l
        · rw [h, hcil]
          have h1 := inv.commitLe l
          have h2 := hib
          omega
        · rw [hci a h]
          exact inv.commitLe a
      candReq := by
        intro a h
        rw [hrl] at h
        rw [htm, hlog]
        exact inv.candReq a h
      reqBound := by
        intro t c li lt h
        rw [htm]
        exact inv.reqBound t c li lt h
      grantBound := by
        intro t v c h
        rw [htm]
        exact inv.grantBound t v c h
      grantVotedFor := by
        intro t v c h ht
        rw [htm] at ht
        rw [hvf]
        exact inv.grantVotedFor t v c h ht
      electedRole := by
        intro t c Q2 h
        rw [htm, hrl]
        exact inv.electedRole t c Q2 h
      leaderTlog := by
        intro a h
        rw [hrl] at h
        rw [htm, hlog]
        exact inv.leaderTlog a h
      leaderElected := by
        intro a h
        rw [hrl] at h
        rw [htm]
        exact inv.leaderElected a h
      leaderSelfAck := by
        intro a h
        rw [hrl] at h
        rw [htm, hlog]
        exact inv.leaderSelfAck a h
      nodeAnc := by
        intro a j τ h
        rw [hlog] at h
        rw [hlog]
        exact inv.nodeAnc a j τ h
      ackBound := by
        intro t v m h
        rw [htm]
        exact inv.ackBound t v m h
      retention := by
        intro t v m h j hj hc
        rw [htm] at hc
        rw [hlog]
        exact inv.retention t v m h j hj hc
      rg1 := by
        intro t1 w c hg t m ha ht j hjm hdec hic hcand hct htl1
        rw [hrl] at hcand
        rw [htm] at hct
        rw [hlog]
        exact inv.rg1 t1 w c hg t m ha ht j hjm hdec hic hcand hct htl1
      commitCover := ?_ }
  intro a
  by_cases h : a = l
  · rw [h, hlog, hcil, htm]
    rcases le_or_lt i (σ.nodes l).commitIndex with hle | hlt
    · rw [Nat.max_eq_left hle]
      exact inv.commitCover l
    · rw [Nat.max_eq_right (le_of_lt hlt)]
      right
      refine ⟨(σ.nodes l).currentTerm, i, ?_, le_refl i, le_refl _, ?_⟩
      · refine ⟨?_, Q, hQ, fun v hv => hack v hv⟩
        rw [(inv.leaderTlog l hrole).1]
        exact hterm
      · rw [(inv.leaderTlog l hrole).1]
  · rw [hlog, hci a h, htm]
    exact inv.commitCover a

end RaftM

namespace RaftM

theorem inv_stepDown {N : Nat} {σ : State N} (inv : Inv σ) (v : Fin N) (t : Nat)
    (ht : (σ.nodes v).currentTerm < t) :
    Inv { σ with nodes := Function.update σ.nodes v ({ σ.nodes v with
      currentTerm := t, votedFor := none, role := .Follower }) } := by
  have hlog : ∀ a, ((Function.update σ.nodes v ({ σ.nodes v with
      currentTerm := t, votedFor := none, role := .Follower })) a).log =
      (σ.nodes a).log := by
    intro a
    by_cases h : a = v
    · rw [h]
      simp
    · simp [Function.update_noteq h]
  have hci : ∀ a, ((Function.update σ.nodes v ({ σ.nodes v with
      currentTerm := t, votedFor := none, role := .Follower })) a).commitIndex =
      (σ.nodes a).commitIndex := by
    intro a
    by_cases h : a = v
    · rw [h]
      simp
    · simp [Function.update_noteq h]
  have htm_v : ((Function.update σ.nodes v ({ σ.nodes v with
      currentTerm := t, votedFor := none, role := .Follower })) v).currentTerm = t := by
    simp
  have htm_ne : ∀ a, a ≠ v → ((Function.update σ.nodes v ({ σ.nodes v with
      currentTerm := t, votedFor := none, role := .Follower })) a).currentTerm =
      (σ.nodes a).currentTerm := by
    intro a h
    simp [Function.update_noteq h]
  have hrl_v : ((Function.update σ.nodes v ({ σ.nodes v with
      currentTerm := t, votedFor := none, role := .Follower })) v).role = .Follower := by
    simp
  have hrl_ne : ∀ a, a ≠ v → ((Function.update σ.nodes v ({ σ.nodes v with
      currentTerm := t, votedFor := none, role := .Follower })) a).role =
      (σ.nodes a).role := by
    intro a h
    simp [Function.update_noteq h]
  have hvf_ne : ∀ a, a ≠ v → ((Function.update σ.nodes v ({ σ.nodes v with
      currentTerm := t, votedFor := none, role := .Follower })) a).votedFor =
      (σ.nodes a).votedFor := by
    intro a h
    simp [Function.update_noteq h]
  have htermle : ∀ a, (σ.nodes a).currentTerm ≤
      ((Function.update σ.nodes v ({ σ.nodes v with
        currentTerm := t, votedFor := none, role := .Follower })) a).currentTerm := by
    intro a
    by_cases h : a = v
    · rw [h, htm_v]
      omega
    · rw [htm_ne a h]
  refine
    { reqUnique := inv.reqUnique
      grantReq := inv.grantReq
      grantUnique := inv.grantUnique
      electedGrants := inv.electedGrants
      tlogElected := inv.tlogElected
      electedNe := inv.electedNe
      tlogTerms := inv.tlogTerms
      tlogMono := inv.tlogMono
      tlogAnc := inv.tlogAnc
      appendMsg := inv.appendMsg
      rg2 := inv.rg2
      lcInv := inv.lcInv
      termBound := by
        intro a i τ h
        rw [hlog] at h
        exact le_trans (inv.termBound a i τ h) (htermle a)
      logMono := by
        intro a i j τ1 τ2 hij h1 h2
        rw [hlog] at h1 h2
        exact inv.logMono a i j τ1 τ2 hij h1 h2
      commitLe := by
        intro a
        rw [hlog, hci]
        exact inv.commitLe a
      candReq := by
        intro a h
        by_cases hav : a = v
        · rw [hav, hrl_v] at h
          simp at h
        · rw [hrl_ne a hav] at h
          rw [htm_ne a hav, hlog]
          exact inv.candReq a h
      reqBound := by
        intro t2 c li lt h
        obtain ⟨h1, h2⟩ := inv.reqBound t2 c li lt h
        exact ⟨h1, le_trans h2 (htermle c)⟩
      grantBound := fun t2 v2 c h =>
        le_trans (inv.grantBound t2 v2 c h) (htermle v2)
      grantVotedFor := by
        intro t2 w c h hEq
        by_cases hwv : w = v
        · exfalso
          have hb := inv.grantBound t2 w c h
          rw [hwv] at hb
          rw [hwv, htm_v] at hEq
          omega
        · rw [htm_ne w hwv] at hEq
          rw [hvf_ne w hwv]
          exact inv.grantVotedFor t2 w c h hEq
      electedRole := by
        intro t2 c Q2 h
        obtain ⟨h1, h2⟩ := inv.electedRole t2 c Q2 h
        refine ⟨le_trans h1 (htermle c), ?_⟩
        intro hEq
        by_cases hcv : c = v
        · exfalso
          rw [hcv, htm_v] at hEq
          rw [hcv] at h1
          omega
        · rw [htm_ne c hcv] at hEq
          rw [hrl_ne c hcv]
          exact h2 hEq
      leaderTlog := by
        intro a h
        by_cases hav : a = v
        · rw [hav, hrl_v] at h
          simp at h
        · rw [hrl_ne a hav] at h
          rw [htm_ne a hav, hlog]
          exact inv.leaderTlog a h
      leaderElected := by
        intro a h
        by_cases hav : a = v
        · rw [hav, hrl_v] at h
          simp at h
        · rw [hrl_ne a hav] at h
          rw [htm_ne a hav]
          exact inv.leaderElected a h
      leaderSelfAck := by
        intro a h
        by_cases hav : a = v
        · rw [hav, hrl_v] at h
          simp at h
        · rw [hrl_ne a hav] at h
          rw [htm_ne a hav, hlog]
          exact inv.leaderSelfAck a h
      nodeAnc := by
        intro a i τ h
        rw [hlog] at h
        rw [hlog]
        exact inv.nodeAnc a i τ h
      ackBound := by
        intro t2 v2 m h
        obtain ⟨h1, h2, h3⟩ := inv.ackBound t2 v2 m h
        exact ⟨le_trans h1 (htermle v2), h2, h3⟩
      commitCover := by
        intro a
        rw [hlog, hci]
        rcases inv.commitCover a with h0 | ⟨tc, ic, hdc, hle2, htc, htake⟩
        · exact Or.inl h0
        · exact Or.inr ⟨tc, ic, hdc, hle2, le_trans htc (htermle a), htake⟩
      retention := by
        intro t2 w m h i hi hc
        rw [hlog]
        apply inv.retention t2 w m h i hi
        intro t3 h3 h3b h3ne
        exact hc t3 h3 (le_trans h3b (htermle w)) h3ne
      rg1 := by
        intro t1 w c hg t2 m ha ht12 i him hdec hic hcand hct htl1
        by_cases hcv : c = v
        · rw [hcv, hrl_v] at hcand
          simp at hcand
        · rw [hrl_ne c hcv] at hcand
          rw [htm_ne c hcv] at hct
          rw [hlog]
          exact inv.rg1 t1 w c hg t2 m ha ht12 i him hdec hic hcand hct htl1 }

end RaftM

namespace RaftM

theorem inv_timeout {N : Nat} {σ : State N} (inv : Inv σ) (c : Fin N) :
    Inv { σ with
      nodes := Function.update σ.nodes c ({ σ.nodes c with
        currentTerm := (σ.nodes c).currentTerm + 1,
        votedFor := some c,
        role := .Candidate }),
      msgs := σ.msgs ++
        [Msg.reqVote ((σ.nodes c).currentTerm + 1) c
            (σ.nodes c).log.length (lastTermOf (σ.nodes c).log),
         Msg.voteGrant ((σ.nodes c).currentTerm + 1) c c] } := by
  have hlog : ∀ a, ((Function.update σ.nodes c ({ σ.nodes c with
      currentTerm := (σ.nodes c).currentTerm + 1,
      votedFor := some c, role := .Candidate })) a).log = (σ.nodes a).log := by
    intro a
    by_cases h : a = c
    · rw [h]
      simp
    · simp [Function.update_noteq h]
  have hci : ∀ a, ((Function.update σ.nodes c ({ σ.nodes c with
      currentTerm := (σ.nodes c).currentTerm + 1,
      votedFor := some c, role := .Candidate })) a).commitIndex =
      (σ.nodes a).commitIndex := by
    intro a
    by_cases h : a = c
    · rw [h]
      simp
    · simp [Function.update_noteq h]
  have htm_c : ((Function.update σ.nodes c ({ σ.nodes c with
      currentTerm := (σ.nodes c).currentTerm + 1,
      votedFor := some c, role := .Candidate })) c).currentTerm =
      (σ.nodes c).currentTerm + 1 := by
    simp
  have htm_ne : ∀ a, a ≠ c → ((Function.update σ.nodes c ({ σ.nodes c with
      currentTerm := (σ.nodes c).currentTerm + 1,
      votedFor := some c, role := .Candidate })) a).currentTerm =
      (σ.nodes a).currentTerm := by
    intro a h
    simp [Function.update_noteq h]
  have hrl_c : ((Function.update σ.nodes c ({ σ.nodes c with
      currentTerm := (σ.nodes c).currentTerm + 1,
      votedFor := some c, role := .Candidate })) c).role = .Candidate := by
    simp
  have hrl_ne : ∀ a, a ≠ c → ((Function.update σ.nodes c ({ σ.nodes c with
      currentTerm := (σ.nodes c).currentTerm + 1,
      votedFor := some c, role := .Candidate })) a).role = (σ.nodes a).role := by
    intro a h
    simp [Function.update_noteq h]
  have hvf_c : ((Function.update σ.nodes c ({ σ.nodes c with
      currentTerm := (σ.nodes c).currentTerm + 1,
      votedFor := some c, role := .Candidate })) c).votedFor = some c := by
    simp
  have hvf_ne : ∀ a, a ≠ c → ((Function.update σ.nodes c ({ σ.nodes c with
      currentTerm := (σ.nodes c).currentTerm + 1,
      votedFor := some c, role := .Candidate })) a).votedFor =
      (σ.nodes a).votedFor := by
    intro a h
    simp [Function.update_noteq h]
  have htermle : ∀ a, (σ.nodes a).currentTerm ≤
      ((Function.update σ.nodes c ({ σ.nodes c with
        currentTerm := (σ.nodes c).currentTerm + 1,
        votedFor := some c, role := .Candidate })) a).currentTerm := by
    intro a
    by_cases h : a = c
    · rw [h, htm_c]
      omega
    · rw [htm_ne a h]
  have hmemsplit : ∀ x : Msg N, x ∈ σ.msgs ++
      [Msg.reqVote ((σ.nodes c).currentTerm + 1) c
          (σ.nodes c).log.length (lastTermOf (σ.nodes c).log),
       Msg.voteGrant ((σ.nodes c).currentTerm + 1) c c] →
      x ∈ σ.msgs ∨
      x = Msg.reqVote ((σ.nodes c).currentTerm + 1) c
          (σ.nodes c).log.length (lastTermOf (σ.nodes c).log) ∨
      x = Msg.voteGrant ((σ.nodes c).currentTerm + 1) c c := by
    intro x h
    rcases List.mem_append.mp h with h | h
    · exact Or.inl h
    · rcases List.mem_cons.mp h with h | h
      · exact Or.inr (Or.inl h)
      · rcases List.mem_cons.mp h with h | h
        · exact Or.inr (Or.inr h)
        · simp at h
  have hmono : ∀ x ∈ σ.msgs, x ∈ σ.msgs ++
      [Msg.reqVote ((σ.nodes c).currentTerm + 1) c
          (σ.nodes c).log.length (lastTermOf (σ.nodes c).log),
       Msg.voteGrant ((σ.nodes c).currentTerm + 1) c c] :=
    fun x hx => List.mem_append_left _ hx
  have hreqmem : Msg.reqVote ((σ.nodes c).currentTerm + 1) c
      (σ.nodes c).log.length (lastTermOf (σ.nodes c).log) ∈ σ.msgs ++
      [Msg.reqVote ((σ.nodes c).currentTerm + 1) c
          (σ.nodes c).log.length (lastTermOf (σ.nodes c).log),
       Msg.voteGrant ((σ.nodes c).currentTerm + 1) c c] := by
    apply List.mem_append_right
    simp
  have hokE : ∀ t2 v m, Msg.appendOk t2 v m ∈ σ.msgs ++
      [Msg.reqVote ((σ.nodes c).currentTerm + 1) c
          (σ.nodes c).log.length (lastTermOf (σ.nodes c).log),
       Msg.voteGrant ((σ.nodes c).currentTerm + 1) c c] →
      Msg.appendOk t2 v m ∈ σ.msgs := by
    intro t2 v m h
    rcases hmemsplit _ h with h | h | h
    · exact h
    · simp at h
    · simp at h
  have happE : ∀ t2 lid pos pt es lc, Msg.append t2 lid pos pt es lc ∈ σ.msgs ++
      [Msg.reqVote ((σ.nodes c).currentTerm + 1) c
          (σ.nodes c).log.length (lastTermOf (σ.nodes c).log),
       Msg.voteGrant ((σ.nodes c).currentTerm + 1) c c] →
      Msg.append t2 lid pos pt es lc ∈ σ.msgs := by
    intro t2 lid pos pt es lc h
    rcases hmemsplit _ h with h | h | h
    · exact h
    · simp at h
    · simp at h
  refine
    { tlogElected := inv.tlogElected
      electedNe := inv.electedNe
      tlogTerms := inv.tlogTerms
      tlogMono := inv.tlogMono
      tlogAnc := inv.tlogAnc
      termBound := by
        intro a i τ h
        rw [hlog] at h
        exact le_trans (inv.termBound a i τ h) (htermle a)
      logMono := by
        intro a i j τ1 τ2 hij h1 h2
        rw [hlog] at h1 h2
        exact inv.logMono a i j τ1 τ2 hij h1 h2
      commitLe := by
        intro a
        rw [hlog, hci]
        exact inv.commitLe a
      candReq := by
        intro a h
        by_cases hac : a = c
        · rw [hac] at h ⊢
          rw [htm_c, hlog]
          exact hreqmem
        · rw [hrl_ne a hac] at h
          rw [htm_ne a hac, hlog]
          exact hmono _ (inv.candReq a h)
      reqBound := by
        intro t2 c2 li lt h
        rcases hmemsplit _ h with h | h | h
        · obtain ⟨h1, h2⟩ := inv.reqBound t2 c2 li lt h
          exact ⟨h1, le_trans h2 (htermle c2)⟩
        · simp only [Msg.reqVote.injEq] at h
          obtain ⟨h1, h2, -, -⟩ := h
          rw [h1, h2, htm_c]
          omega
        · simp at h
      reqUnique := by
        intro t2 c2 li lt li2 lt2 h h2
        rcases hmemsplit _ h with h | h | h <;>
          rcases hmemsplit _ h2 with h2 | h2 | h2
        · exact inv.reqUnique t2 c2 li lt li2 lt2 h h2
        · exfalso
          simp only [Msg.reqVote.injEq] at h2
          obtain ⟨h1, hc2, -, -⟩ := h2
          rw [h1, hc2] at h
          have := (inv.reqBound _ _ _ _ h).2
          omega
        · simp at h2
        · exfalso
          simp only [Msg.reqVote.injEq] at h
          obtain ⟨h1, hc2, -, -⟩ := h
          rw [h1, hc2] at h2
          have := (inv.reqBound _ _ _ _ h2).2
          omega
        · simp only [Msg.reqVote.injEq] at h h2
          obtain ⟨-, -, ha, hb⟩ := h
          obtain ⟨-, -, ha2, hb2⟩ := h2
          rw [ha, hb, ha2, hb2]
          exact ⟨rfl, rfl⟩
        · simp at h2
        · simp at h
        · simp at h
        · simp at h
      grantBound := by
        intro t2 v2 c2 h
        rcases hmemsplit _ h with h | h | h
        · exact le_trans (inv.grantBound t2 v2 c2 h) (htermle v2)
        · simp at h
        · simp only [Msg.voteGrant.injEq] at h
          obtain ⟨h1, h2, -⟩ := h
          rw [h1, h2, htm_c]
      grantReq := by
        intro t2 v2 c2 h
        rcases hmemsplit _ h with h | h | h
        · obtain ⟨li, lt, hr⟩ := inv.grantReq t2 v2 c2 h
          exact ⟨li, lt, hmono _ hr⟩
        · simp at h
        · simp only [Msg.voteGrant.injEq] at h
          obtain ⟨h1, -, h3⟩ := h
          rw [h1, h3]
          exact ⟨_, _, hreqmem⟩
      grantVotedFor := by
        intro t2 v2 c2 h hEq
        rcases hmemsplit _ h with h | h | h
        · by_cases hvc : v2 = c
          · exfalso
            have hb := inv.grantBound t2 v2 c2 h
            rw [hvc, htm_c] at hEq
            rw [hvc] at hb
            omega
          · rw [htm_ne v2 hvc] at hEq
            rw [hvf_ne v2 hvc]
            exact inv.grantVotedFor t2 v2 c2 h hEq
        · simp at h
        · simp only [Msg.voteGrant.injEq] at h
          obtain ⟨h1, h2, h3⟩ := h
          rw [h2, h3, hvf_c]
      grantUnique := by
        intro t2 v2 ca cb h h2
        rcases hmemsplit _ h with h | h | h <;>
          rcases hmemsplit _ h2 with h2 | h2 | h2
        · exact inv.grantUnique t2 v2 ca cb h h2
        · simp at h2
        · exfalso
          simp only [Msg.voteGrant.injEq] at h2
          obtain ⟨h1, hv2, -⟩ := h2
          rw [h1, hv2] at h
          have := inv.grantBound _ _ _ h
          omega
        · simp at h
        · simp at h
        · simp at h
        · exfalso
          simp only [Msg.voteGrant.injEq] at h
          obtain ⟨h1, hv2, -⟩ := h
          rw [h1, hv2] at h2
          have := inv.grantBound _ _ _ h2
          omega
        · simp at h2
        · simp only [Msg.voteGrant.injEq] at h h2
          obtain ⟨-, -, ha⟩ := h
          obtain ⟨-, -, hb⟩ := h2
          rw [ha, hb]
      electedGrants := by
        intro t2 c2 Q2 h
        obtain ⟨h1, h2⟩ := inv.electedGrants t2 c2 Q2 h
        exact ⟨h1, fun v hv => hmono _ (h2 v hv)⟩
      electedRole := by
        intro t2 c2 Q2 h
        obtain ⟨h1, h2⟩ := inv.electedRole t2 c2 Q2 h
        refine ⟨le_trans h1 (htermle c2), ?_⟩
        intro hEq
        by_cases hcc : c2 = c
        · exfalso
          rw [hcc, htm_c] at hEq
          rw [hcc] at h1
          omega
        · rw [htm_ne c2 hcc] at hEq
          rw [hrl_ne c2 hcc]
          exact h2 hEq
      leaderTlog := by
        intro a h
        by_cases hac : a = c
        · rw [hac, hrl_c] at h
          simp at h
        · rw [hrl_ne a hac] at h
          rw [htm_ne a hac, hlog]
          exact inv.leaderTlog a h
      leaderElected := by
        intro a h
        by_cases hac : a = c
        · rw [hac, hrl_c] at h
          simp at h
        · rw [hrl_ne a hac] at h
          rw [htm_ne a hac]
          exact inv.leaderElected a h
      leaderSelfAck := by
        intro a h
        by_cases hac : a = c
        · rw [hac, hrl_c] at h
          simp at h
        · rw [hrl_ne a hac] at h
          rw [htm_ne a hac, hlog]
          exact hmono _ (inv.leaderSelfAck a h)
      nodeAnc := by
        intro a i τ h
        rw [hlog] at h
        rw [hlog]
        exact inv.nodeAnc a i τ h
      appendMsg := by
        intro t2 lid pos pt es lc h
        obtain ⟨h1, h2, h3, h4, h5⟩ := inv.appendMsg t2 lid pos pt es lc (happE _ _ _ _ _ _ h)
        refine ⟨h1, h2, h3, ?_, h5⟩
        rcases h4 with h4 | ⟨tc, ic, hdc, hlc, htc, htake⟩
        · exact Or.inl h4
        · exact Or.inr ⟨tc, ic, decCommitted_mono hdc hmono rfl, hlc, htc, htake⟩
      ackBound := by
        intro t2 v2 m h
        obtain ⟨h1, h2, h3⟩ := inv.ackBound t2 v2 m (hokE _ _ _ h)
        exact ⟨le_trans h1 (htermle v2), h2, h3⟩
      commitCover := by
        intro a
        rw [hlog, hci]
        rcases inv.commitCover a with h0 | ⟨tc, ic, hdc, hle2, htc, htake⟩
        · exact Or.inl h0
        · exact Or.inr ⟨tc, ic, decCommitted_mono hdc hmono rfl, hle2,
            le_trans htc (htermle a), htake⟩
      retention := by
        intro t2 w m h i hi hc
        rw [hlog]
        apply inv.retention t2 w m (hokE _ _ _ h) i hi
        intro t3 h3 h3b h3ne
        exact hc t3 h3 (le_trans h3b (htermle w)) h3ne
      rg2 := by
        intro t1 c2 Q1 he w hw t2 m ha
        exact inv.rg2 t1 c2 Q1 he w hw t2 m (hokE _ _ _ ha)
      lcInv := by
        intro t2 i hd t1 ht1 hne
        exact inv.lcInv t2 i (decCommitted_back hd hokE rfl) t1 ht1 hne
      rg1 := ?_ }
  intro t1 w ca hg t2 m ha ht12 i him hdec hic hcand hct htl1
  have haold := hokE _ _ _ ha
  rcases hmemsplit _ hg with hg | hg | hg
  · by_cases hcc : ca = c
    · exfalso
      rw [hcc, htm_c] at hct
      obtain ⟨li, lt, hr⟩ := inv.grantReq t1 w ca hg
      have := (inv.reqBound _ _ _ _ hr).2
      rw [hcc] at this
      omega
    · rw [hrl_ne ca hcc] at hcand
      rw [htm_ne ca hcc] at hct
      rw [hlog]
      exact inv.rg1 t1 w ca hg t2 m haold ht12 i him hdec hic hcand hct htl1
  · simp at hg
  · simp only [Msg.voteGrant.injEq] at hg
    obtain ⟨hgt, hgw, hgc⟩ := hg
    rw [hgc]
    rw [hgw] at haold
    rw [hlog]
    apply inv.retention t2 c m haold i him
    intro t3 h3 h3b h3ne
    refine hic t3 h3 ?_ h3ne
    rw [hgc, htm_c] at hct
    omega
end RaftM

namespace RaftM

theorem inv_grantVote {N : Nat} {σ : State N} (inv : Inv σ) (v c : Fin N)
    (t li lt : Nat)
    (hm : Msg.reqVote t c li lt ∈ σ.msgs)
    (ht : (σ.nodes v).currentTerm = t)
    (hv : (σ.nodes v).votedFor = none ∨ (σ.nodes v).votedFor = some c)
    (hup : lexGe lt li (lastTermOf (σ.nodes v).log) (σ.nodes v).log.length) :
    Inv { σ with
      nodes := Function.update σ.nodes v ({ σ.nodes v with votedFor := some c }),
      msgs := σ.msgs ++ [Msg.voteGrant t v c] } := by
  have hlog : ∀ a, ((Function.update σ.nodes v ({ σ.nodes v with
      votedFor := some c })) a).log = (σ.nodes a).log := by
    intro a
    by_cases h : a = v
    · rw [h]
      simp
    · simp [Function.update_noteq h]
  have hci : ∀ a, ((Function.update σ.nodes v ({ σ.nodes v with
      votedFor := some c })) a).commitIndex = (σ.nodes a).commitIndex := by
    intro a
    by_cases h : a = v
    · rw [h]
      simp
    · simp [Function.update_noteq h]
  have htm : ∀ a, ((Function.update σ.nodes v ({ σ.nodes v with
      votedFor := some c })) a).currentTerm = (σ.nodes a).currentTerm := by
    intro a
    by_cases h : a = v
    · rw [h]
      simp
    · simp [Function.update_noteq h]
  have hrl : ∀ a, ((Function.update σ.nodes v ({ σ.nodes v with
      votedFor := some c })) a).role = (σ.nodes a).role := by
    intro a
    by_cases h : a = v
    · rw [h]
      simp
    · simp [Function.update_noteq h]
  have hvf_v : ((Function.update σ.nodes v ({ σ.nodes v with
      votedFor := some c })) v).votedFor = some c := by
    simp
  have hvf_ne : ∀ a, a ≠ v → ((Function.update σ.nodes v ({ σ.nodes v with
      votedFor := some c })) a).votedFor = (σ.nodes a).votedFor := by
    intro a h
    simp [Function.update_noteq h]
  have hmemsplit : ∀ x : Msg N, x ∈ σ.msgs ++ [Msg.voteGrant t v c] →
      x ∈ σ.msgs ∨ x = Msg.voteGrant t v c := by
    intro x h
    rcases List.mem_append.mp h with h | h
    · exact Or.inl h
    · rcases List.mem_cons.mp h with h | h
      · exact Or.inr h
      · simp at h
  have hmono : ∀ x ∈ σ.msgs, x ∈ σ.msgs ++ [Msg.voteGrant t v c] :=
    fun x hx => List.mem_append_left _ hx
  have hokE : ∀ t2 v2 m, Msg.appendOk t2 v2 m ∈ σ.msgs ++ [Msg.voteGrant t v c] →
      Msg.appendOk t2 v2 m ∈ σ.msgs := by
    intro t2 v2 m h
    rcases hmemsplit _ h with h | h
    · exact h
    · simp at h
  have hreqE : ∀ t2 c2 li2 lt2, Msg.reqVote t2 c2 li2 lt2 ∈ σ.msgs ++
      [Msg.voteGrant t v c] → Msg.reqVote t2 c2 li2 lt2 ∈ σ.msgs := by
    intro t2 c2 li2 lt2 h
    rcases hmemsplit _ h with h | h
    · exact h
    · simp at h
  have happE : ∀ t2 lid pos pt es lc, Msg.append t2 lid pos pt es lc ∈ σ.msgs ++
      [Msg.voteGrant t v c] → Msg.append t2 lid pos pt es lc ∈ σ.msgs := by
    intro t2 lid pos pt es lc h
    rcases hmemsplit _ h with h | h
    · exact h
    · simp at h
  refine
    { tlogElected := inv.tlogElected
      electedNe := inv.electedNe
      tlogTerms := inv.tlogTerms
      tlogMono := inv.tlogMono
      tlogAnc := inv.tlogAnc
      termBound := by
        intro a i τ h
        rw [hlog] at h
        rw [htm]
        exact inv.termBound a i τ h
      logMono := by
        intro a i j τ1 τ2 hij h1 h2
        rw [hlog] at h1 h2
        exact inv.logMono a i j τ1 τ2 hij h1 h2
      commitLe := by
        intro a
        rw [hlog, hci]
        exact inv.commitLe a
      candReq := by
        intro a h
        rw [hrl] at h
        rw [htm, hlog]
        exact hmono _ (inv.candReq a h)
      reqBound := by
        intro t2 c2 li2 lt2 h
        rw [htm]
        exact inv.reqBound t2 c2 li2 lt2 (hreqE _ _ _ _ h)
      reqUnique := by
        intro t2 c2 li2 lt2 li3 lt3 h h2
        exact inv.reqUnique t2 c2 li2 lt2 li3 lt3 (hreqE _ _ _ _ h)
          (hreqE _ _ _ _ h2)
      grantBound := by
        intro t2 v2 c2 h
        rw [htm]
        rcases hmemsplit _ h with h | h
        · exact inv.grantBound t2 v2 c2 h
        · simp only [Msg.voteGrant.injEq] at h
          obtain ⟨h1, h2, -⟩ := h
          rw [h1, h2, ht]
      grantReq := by
        intro t2 v2 c2 h
        rcases hmemsplit _ h with h | h
        · obtain ⟨li2, lt2, hr⟩ := inv.grantReq t2 v2 c2 h
          exact ⟨li2, lt2, hmono _ hr⟩
        · simp only [Msg.voteGrant.injEq] at h
          obtain ⟨h1, -, h3⟩ := h
          rw [h1, h3]
          exact ⟨li, lt, hmono _ hm⟩
      grantVotedFor := by
        intro t2 v2 c2 h hEq
        rw [htm] at hEq
        rcases hmemsplit _ h with h | h
        · by_cases hvv : v2 = v
          · have hold := inv.grantVotedFor t2 v2 c2 h hEq
            rw [hvv] at hold
            rcases hv with hv | hv
            · rw [hv] at hold
              exact Option.noConfusion hold
            · rw [hv] at hold
              rw [hvv, hvf_v]
              rw [← hold]
          · rw [hvf_ne v2 hvv]
            exact inv.grantVotedFor t2 v2 c2 h hEq
        · simp only [Msg.voteGrant.injEq] at h
          obtain ⟨-, h2, h3⟩ := h
          rw [h2, h3, hvf_v]
      grantUnique := by
        intro t2 v2 ca cb h h2
        rcases hmemsplit _ h with h | h <;> rcases hmemsplit _ h2 with h2 | h2
        · exact inv.grantUnique t2 v2 ca cb h h2
        · simp only [Msg.voteGrant.injEq] at h2
          obtain ⟨h21, h22, h23⟩ := h2
          rw [h21, h22] at h
          have hold := inv.grantVotedFor t v ca h ht.symm
          rcases hv with hv | hv
          · rw [hv] at hold
            exact Option.noConfusion hold
          · rw [hv] at hold
            rw [h23]
            exact (Option.some_inj.mp hold).symm
        · simp only [Msg.voteGrant.injEq] at h
          obtain ⟨h11, h12, h13⟩ := h
          rw [h11, h12] at h2
          have hold := inv.grantVotedFor t v cb h2 ht.symm
          rcases hv with hv | hv
          · rw [hv] at hold
            exact Option.noConfusion hold
          · rw [hv] at hold
            rw [h13]
            exact Option.some_inj.mp hold
        · simp only [Msg.voteGrant.injEq] at h h2
          obtain ⟨-, -, h13⟩ := h
          obtain ⟨-, -, h23⟩ := h2
          rw [h13, h23]
      electedGrants := by
        intro t2 c2 Q2 h
        obtain ⟨h1, h2⟩ := inv.electedGrants t2 c2 Q2 h
        exact ⟨h1, fun w hw => hmono _ (h2 w hw)⟩
      electedRole := by
        intro t2 c2 Q2 h
        rw [htm, hrl]
        exact inv.electedRole t2 c2 Q2 h
      leaderTlog := by
        intro a h
        rw [hrl] at h
        rw [htm, hlog]
        exact inv.leaderTlog a h
      leaderElected := by
        intro a h
        rw [hrl] at h
        rw [htm]
        exact inv.leaderElected a h
      leaderSelfAck := by
        intro a h
        rw [hrl] at h
        rw [htm, hlog]
        exact hmono _ (inv.leaderSelfAck a h)
      nodeAnc := by
        intro a i τ h
        rw [hlog] at h
        rw [hlog]
        exact inv.nodeAnc a i τ h
      appendMsg := by
        intro t2 lid pos pt es lc h
        obtain ⟨h1, h2, h3, h4, h5⟩ := inv.appendMsg t2 lid pos pt es lc
          (happE _ _ _ _ _ _ h)
        refine ⟨h1, h2, h3, ?_, h5⟩
        rcases h4 with h4 | ⟨tc, ic, hdc, hlc, htc, htake⟩
        · exact Or.inl h4
        · exact Or.inr ⟨tc, ic, decCommitted_mono hdc hmono rfl, hlc, htc, htake⟩
      ackBound := by
        intro t2 v2 m h
        rw [htm]
        exact inv.ackBound t2 v2 m (hokE _ _ _ h)
      commitCover := by
        intro a
        rw [hlog, hci, htm]
        rcases inv.commitCover a with h0 | ⟨tc, ic, hdc, hle2, htc, htake⟩
        · exact Or.inl h0
        · exact Or.inr ⟨tc, ic, decCommitted_mono hdc hmono rfl, hle2, htc, htake⟩
      retention := by
        intro t2 w m h i hi hc
        rw [hlog]
        rw [htm] at hc
        exact inv.retention t2 w m (hokE _ _ _ h) i hi hc
      rg2 := by
        intro t1 c2 Q1 he w hw t2 m ha
        exact inv.rg2 t1 c2 Q1 he w hw t2 m (hokE _ _ _ ha)
      lcInv := by
        intro t2 i hd t1 ht1 hne
        exact inv.lcInv t2 i (decCommitted_back hd hokE rfl) t1 ht1 hne
      rg1 := ?_ }
  intro t1 w ca hg t2 m ha ht12 i him hdec hic hcand hct htl1
  have haold := hokE _ _ _ ha
  rw [hrl] at hcand
  rw [htm] at hct
  rw [hlog]
  rcases hmemsplit _ hg with hg | hg
  · exact inv.rg1 t1 w ca hg t2 m haold ht12 i him hdec hic hcand hct htl1
  simp only [Msg.voteGrant.injEq] at hg
  obtain ⟨hgt, hgw, hgc⟩ := hg
  subst hgt
  subst hgw
  subst hgc
  -- the new grant: voter w = v at term t1 = t, candidate ca = c
  have hi1 : 1 ≤ i ∧ i ≤ (σ.tlog t2).length := termAt_some_bounds hdec
  have ht2pos : 1 ≤ t2 := (inv.tlogTerms t2 i t2 hdec).1
  -- retention for the voter
  have hret : i ≤ (σ.nodes w).log.length ∧
      (σ.nodes w).log.take i = (σ.tlog t2).take i := by
    apply inv.retention t2 w m haold i him
    intro t3 h3 h3b h3ne
    rw [ht] at h3b
    rcases lt_or_eq_of_le h3b with h3b | h3b
    · exact hic t3 h3 h3b h3ne
    · exfalso
      rw [h3b] at h3ne
      exact h3ne htl1
  -- the voter holds the decisive entry, so its last term is at least t2
  have hvterm : termAt (σ.nodes w).log i = some t2 := by
    rw [termAt_eq_of_take_eq hret.2 (le_refl i)]
    exact hdec
  have hvne : (σ.nodes w).log ≠ [] := by
    intro hnil
    rw [hnil] at hvterm
    rw [termAt, entryAt_nil] at hvterm
    exact Option.noConfusion hvterm
  have hvlast : termAt (σ.nodes w).log (σ.nodes w).log.length =
      some (lastTermOf (σ.nodes w).log) := lastTermOf_spec hvne
  have htw : t2 ≤ lastTermOf (σ.nodes w).log :=
    inv.logMono w i (σ.nodes w).log.length t2 _ hret.1 hvterm hvlast
  -- the candidate log summary in the request
  have hcreq := inv.candReq ca hcand
  rw [hct] at hcreq
  obtain ⟨hli, hlt⟩ := inv.reqUnique t1 ca li lt _ _ hm hcreq
  rcases hup with hup | hup
  · -- strict case: candidate last term above voter last term
    rw [hlt] at hup
    have htcpos : 1 ≤ lastTermOf (σ.nodes ca).log := by omega
    have hcne : (σ.nodes ca).log ≠ [] := by
      intro hnil
      rw [hnil] at htcpos
      simp [lastTermOf, termAt, entryAt_nil] at htcpos
    have hclast : termAt (σ.nodes ca).log (σ.nodes ca).log.length =
        some (lastTermOf (σ.nodes ca).log) := lastTermOf_spec hcne
    obtain ⟨hkanc, hcanc⟩ := inv.nodeAnc ca _ _ hclast
    have hclen1 : 1 ≤ (σ.nodes ca).log.length := by
      cases hh : (σ.nodes ca).log with
      | nil => exact absurd hh hcne
      | cons x xs => simp [hh]
    have hcfull : (σ.nodes ca).log =
        (σ.tlog (lastTermOf (σ.nodes ca).log)).take (σ.nodes ca).log.length := by
      rw [← hcanc, List.take_length]
    have htcne : σ.tlog (lastTermOf (σ.nodes ca).log) ≠ [] := by
      intro hnil
      rw [hnil] at hkanc
      simp only [List.length_nil] at hkanc
      omega
    have htclt : lastTermOf (σ.nodes ca).log < t1 := by
      have hb := inv.termBound ca _ _ hclast
      rw [hct] at hb
      rcases lt_or_eq_of_le hb with hb | hb
      · exact hb
      · exfalso
        rw [hb] at hkanc htcne
        rw [htl1] at hkanc
        simp only [List.length_nil] at hkanc
        omega
    have hcompat := hic (lastTermOf (σ.nodes ca).log) (by omega) htclt htcne
    obtain ⟨hcompat1, hcompat2⟩ := hcompat
    -- the candidate log extends past i
    have hki : i < (σ.nodes ca).log.length := by
      by_contra hc2
      push_neg at hc2
      have h1 : termAt (σ.tlog (lastTermOf (σ.nodes ca).log))
          (σ.nodes ca).log.length = some (lastTermOf (σ.nodes ca).log) := by
        rw [← termAt_eq_of_take_eq hcanc (le_refl _)]
        exact hclast
      have h2 : termAt (σ.tlog t2) (σ.nodes ca).log.length =
          some (lastTermOf (σ.nodes ca).log) := by
        rw [← termAt_eq_of_take_eq hcompat2 hc2]
        exact h1
      have := (inv.tlogTerms t2 _ _ h2).2
      omega
    refine ⟨by omega, ?_⟩
    calc (σ.nodes ca).log.take i
        = ((σ.tlog (lastTermOf (σ.nodes ca).log)).take
            (σ.nodes ca).log.length).take i := by rw [← hcfull]
      _ = (σ.tlog (lastTermOf (σ.nodes ca).log)).take i := by
            rw [List.take_take]
            congr 1
            omega
      _ = ((σ.tlog (lastTermOf (σ.nodes ca).log)).take i).take i := by
            rw [List.take_take]
            simp
      _ = ((σ.tlog t2).take i).take i := by rw [hcompat2]
      _ = (σ.tlog t2).take i := by
            rw [List.take_take]
            simp
  · -- equal last terms, candidate log at least as long
    obtain ⟨hup1, hup2⟩ := hup
    rw [hlt] at hup1
    rw [hli] at hup2
    have htcpos : 1 ≤ lastTermOf (σ.nodes ca).log := by omega
    have hcne : (σ.nodes ca).log ≠ [] := by
      intro hnil
      rw [hnil] at htcpos
      simp [lastTermOf, termAt, entryAt_nil] at htcpos
    have hclast : termAt (σ.nodes ca).log (σ.nodes ca).log.length =
        some (lastTermOf (σ.nodes ca).log) := lastTermOf_spec hcne
    obtain ⟨hkanc, hcanc⟩ := inv.nodeAnc ca _ _ hclast
    obtain ⟨hvanc1, hvanc2⟩ := inv.nodeAnc w _ _ hvlast
    rw [hup1] at hkanc hcanc
    have hcomm : (σ.nodes ca).log.take i =
        (σ.tlog (lastTermOf (σ.nodes w).log)).take i := by
      have h1 : ((σ.nodes ca).log.take (σ.nodes ca).log.length).take i =
          ((σ.tlog (lastTermOf (σ.nodes w).log)).take
            (σ.nodes ca).log.length).take i := by rw [hcanc]
      rw [List.take_length] at h1
      rw [h1, List.take_take]
      congr 1
      omega
    have hvcomm : (σ.nodes w).log.take i =
        (σ.tlog (lastTermOf (σ.nodes w).log)).take i := by
      have h1 : ((σ.nodes w).log.take (σ.nodes w).log.length).take i =
          ((σ.tlog (lastTermOf (σ.nodes w).log)).take
            (σ.nodes w).log.length).take i := by rw [hvanc2]
      rw [List.take_length] at h1
      rw [h1, List.take_take]
      congr 1
      omega
    refine ⟨by omega, ?_⟩
    rw [hcomm, ← hvcomm]
    exact hret.2

end RaftM

namespace RaftM

theorem termAt_snoc_new (L : List Entry) (x : Entry) :
    termAt (L ++ [x]) (L.length + 1) = some x.term := by
  unfold termAt
  rw [entryAt_append_right (by omega)]
  rfl

theorem termAt_snoc_cases {L : List Entry} {x : Entry} {j τ : Nat}
    (h : termAt (L ++ [x]) j = some τ) :
    (j ≤ L.length ∧ termAt L j = some τ) ∨ (j = L.length + 1 ∧ τ = x.term) := by
  have hb := termAt_some_bounds h
  rw [List.length_append] at hb
  by_cases hj : j ≤ L.length
  · rw [termAt_append_left hj] at h
    exact Or.inl ⟨hj, h⟩
  · have hj2 : j = L.length + 1 := by
      simp at hb
      omega
    rw [hj2, termAt_snoc_new] at h
    exact Or.inr ⟨hj2, (Option.some_inj.mp h).symm⟩

theorem take_snoc_le {L : List Entry} (x : Entry) {j : Nat} (h : j ≤ L.length) :
    (L ++ [x]).take j = L.take j := by
  rw [List.take_append_eq_append_take]
  have h0 : j - L.length = 0 := by omega
  rw [h0]
  simp

theorem slice_append_single {L : List Entry} (x : Entry) {pos n : Nat}
    (h : pos + n ≤ L.length) : slice (L ++ [x]) pos n = slice L pos n := by
  unfold slice
  rw [take_snoc_le x h]

theorem elected_unique {N : Nat} {σ : State N} (inv : Inv σ) {t : Nat}
    {c c2 : Fin N} {Q Q2 : Finset (Fin N)}
    (h1 : (t, c, Q) ∈ σ.elected) (h2 : (t, c2, Q2) ∈ σ.elected) : c = c2 := by
  obtain ⟨hm1, hg1⟩ := inv.electedGrants _ _ _ h1
  obtain ⟨hm2, hg2⟩ := inv.electedGrants _ _ _ h2
  obtain ⟨v, hv1, hv2⟩ := maj_inter hm1 hm2
  exact inv.grantUnique t v c c2 (hg1 v hv1) (hg2 v hv2)

theorem leader_eq {N : Nat} {σ : State N} (inv : Inv σ) {a b : Fin N}
    (ha : (σ.nodes a).role = .Leader) (hb : (σ.nodes b).role = .Leader)
    (ht : (σ.nodes a).currentTerm = (σ.nodes b).currentTerm) : a = b := by
  obtain ⟨Qa, hQa⟩ := inv.leaderElected a ha
  obtain ⟨Qb, hQb⟩ := inv.leaderElected b hb
  rw [ht] at hQa
  exact elected_unique inv hQa hQb

theorem leader_term_pos {N : Nat} {σ : State N} (inv : Inv σ) {l : Fin N}
    (h : (σ.nodes l).role = .Leader) : 1 ≤ (σ.nodes l).currentTerm := by
  obtain ⟨Q, hQ⟩ := inv.leaderElected l h
  obtain ⟨hm, hg⟩ := inv.electedGrants _ _ _ hQ
  obtain ⟨v, hv, -⟩ := maj_inter hm hm
  obtain ⟨li, lt, hr⟩ := inv.grantReq _ _ _ (hg v hv)
  exact (inv.reqBound _ _ _ _ hr).1

theorem take_len_eq {A B : List Entry} {j : Nat} (h : A.take j = B.take j)
    (hj : j ≤ A.length) : j ≤ B.length := by
  have := congrArg List.length h
  simp at this
  omega

end RaftM

namespace RaftM

theorem inv_clientPropose {N : Nat} {σ : State N} (inv : Inv σ) (l : Fin N)
    (e : Entry)
    (hrole : (σ.nodes l).role = .Leader)
    (he : e.term = (σ.nodes l).currentTerm) :
    Inv { σ with
      nodes := Function.update σ.nodes l ({ σ.nodes l with
        log := (σ.nodes l).log ++ [e] }),
      msgs := σ.msgs ++
        [Msg.appendOk (σ.nodes l).currentTerm l ((σ.nodes l).log.length + 1)],
      tlog := fun x => if x = (σ.nodes l).currentTerm
        then (σ.nodes l).log ++ [e]
        else σ.tlog x } := by
  obtain ⟨hLT, hLne⟩ := inv.leaderTlog l hrole
  have hTpos : 1 ≤ (σ.nodes l).currentTerm := leader_term_pos inv hrole
  have hLlen : 1 ≤ (σ.nodes l).log.length := by
    cases hh : (σ.nodes l).log with
    | nil => exact absurd hh hLne
    | cons x xs => simp [hh]
  -- tlog of the new state
  have htlogT : ({ σ with
        nodes := Function.update σ.nodes l ({ σ.nodes l with
          log := (σ.nodes l).log ++ [e] }),
        msgs := σ.msgs ++
          [Msg.appendOk (σ.nodes l).currentTerm l ((σ.nodes l).log.length + 1)],
        tlog := fun x => if x = (σ.nodes l).currentTerm
          then (σ.nodes l).log ++ [e]
          else σ.tlog x } : State N).tlog (σ.nodes l).currentTerm =
      (σ.nodes l).log ++ [e] := by simp
  have htlog_ne : ∀ u, u ≠ (σ.nodes l).currentTerm →
      ({ σ with
        nodes := Function.update σ.nodes l ({ σ.nodes l with
          log := (σ.nodes l).log ++ [e] }),
        msgs := σ.msgs ++
          [Msg.appendOk (σ.nodes l).currentTerm l ((σ.nodes l).log.length + 1)],
        tlog := fun x => if x = (σ.nodes l).currentTerm
          then (σ.nodes l).log ++ [e]
          else σ.tlog x } : State N).tlog u = σ.tlog u := by
    intro u hu
    simp [hu]
  have hlenle : ∀ u, (σ.tlog u).length ≤
      (({ σ with
        nodes := Function.update σ.nodes l ({ σ.nodes l with
          log := (σ.nodes l).log ++ [e] }),
        msgs := σ.msgs ++
          [Msg.appendOk (σ.nodes l).currentTerm l ((σ.nodes l).log.length + 1)],
        tlog := fun x => if x = (σ.nodes l).currentTerm
          then (σ.nodes l).log ++ [e]
          else σ.tlog x } : State N).tlog u).length := by
    intro u
    by_cases hu : u = (σ.nodes l).currentTerm
    · rw [hu, htlogT, hLT]
      simp
    · rw [htlog_ne u hu]
  have htakestab : ∀ u j, j ≤ (σ.tlog u).length →
      (({ σ with
        nodes := Function.update σ.nodes l ({ σ.nodes l with
          log := (σ.nodes l).log ++ [e] }),
        msgs := σ.msgs ++
          [Msg.appendOk (σ.nodes l).currentTerm l ((σ.nodes l).log.length + 1)],
        tlog := fun x => if x = (σ.nodes l).currentTerm
          then (σ.nodes l).log ++ [e]
          else σ.tlog x } : State N).tlog u).take j = (σ.tlog u).take j := by
    intro u j hj
    by_cases hu : u = (σ.nodes l).currentTerm
    · rw [hu, htlogT]
      rw [hu, hLT] at hj
      rw [take_snoc_le e hj, hLT]
    · rw [htlog_ne u hu]
  have htermstab : ∀ u j τ, termAt (σ.tlog u) j = some τ →
      termAt (({ σ with
        nodes := Function.update σ.nodes l ({ σ.nodes l with
          log := (σ.nodes l).log ++ [e] }),
        msgs := σ.msgs ++
          [Msg.appendOk (σ.nodes l).currentTerm l ((σ.nodes l).log.length + 1)],
        tlog := fun x => if x = (σ.nodes l).currentTerm
          then (σ.nodes l).log ++ [e]
          else σ.tlog x } : State N).tlog u) j = some τ := by
    intro u j τ h
    have hb := (termAt_some_bounds h).2
    rw [termAt_eq_of_take_eq (htakestab u j hb) (le_refl j)]
    exact h
  have htermback : ∀ u j τ, termAt (({ σ with
        nodes := Function.update σ.nodes l ({ σ.nodes l with
          log := (σ.nodes l).log ++ [e] }),
        msgs := σ.msgs ++
          [Msg.appendOk (σ.nodes l).currentTerm l ((σ.nodes l).log.length + 1)],
        tlog := fun x => if x = (σ.nodes l).currentTerm
          then (σ.nodes l).log ++ [e]
          else σ.tlog x } : State N).tlog u) j = some τ →
      termAt (σ.tlog u) j = some τ ∨
      (u = (σ.nodes l).currentTerm ∧ j = (σ.nodes l).log.length + 1 ∧
        τ = (σ.nodes l).currentTerm) := by
    intro u j τ h
    by_cases hu : u = (σ.nodes l).currentTerm
    · rw [hu, htlogT] at h
      rcases termAt_snoc_cases h with ⟨h1, h2⟩ | ⟨h1, h2⟩
      · left
        rw [hu, hLT]
        exact h2
      · right
        rw [he] at h2
        exact ⟨hu, h1, h2⟩
    · rw [htlog_ne u hu] at h
      exact Or.inl h
  have hne2 : ∀ u, (({ σ with
        nodes := Function.update σ.nodes l ({ σ.nodes l with
          log := (σ.nodes l).log ++ [e] }),
        msgs := σ.msgs ++
          [Msg.appendOk (σ.nodes l).currentTerm l ((σ.nodes l).log.length + 1)],
        tlog := fun x => if x = (σ.nodes l).currentTerm
          then (σ.nodes l).log ++ [e]
          else σ.tlog x } : State N).tlog u) ≠ [] ↔ σ.tlog u ≠ [] := by
    intro u
    by_cases hu : u = (σ.nodes l).currentTerm
    · rw [hu, htlogT, hLT]
      constructor
      · intro h
        exact hLne
      · intro h
        simp
    · rw [htlog_ne u hu]
  -- node frames
  have hlog_ne : ∀ a, a ≠ l → ((Function.update σ.nodes l ({ σ.nodes l with
      log := (σ.nodes l).log ++ [e] })) a).log = (σ.nodes a).log := by
    intro a h
    simp [Function.update_noteq h]
  have hlog_l : ((Function.update σ.nodes l ({ σ.nodes l with
      log := (σ.nodes l).log ++ [e] })) l).log = (σ.nodes l).log ++ [e] := by
    simp
  have htm : ∀ a, ((Function.update σ.nodes l ({ σ.nodes l with
      log := (σ.nodes l).log ++ [e] })) a).currentTerm = (σ.nodes a).currentTerm := by
    intro a
    by_cases h : a = l
    · rw [h]
      simp
    · simp [Function.update_noteq h]
  have hrl : ∀ a, ((Function.update σ.nodes l ({ σ.nodes l with
      log := (σ.nodes l).log ++ [e] })) a).role = (σ.nodes a).role := by
    intro a
    by_cases h : a = l
    · rw [h]
      simp
    · simp [Function.update_noteq h]
  have hvf : ∀ a, ((Function.update σ.nodes l ({ σ.nodes l with
      log := (σ.nodes l).log ++ [e] })) a).votedFor = (σ.nodes a).votedFor := by
    intro a
    by_cases h : a = l
    · rw [h]
      simp
    · simp [Function.update_noteq h]
  have hci : ∀ a, ((Function.update σ.nodes l ({ σ.nodes l with
      log := (σ.nodes l).log ++ [e] })) a).commitIndex = (σ.nodes a).commitIndex := by
    intro a
    by_cases h : a = l
    · rw [h]
      simp
    · simp [Function.update_noteq h]
  -- message frames
  have hmemsplit : ∀ x : Msg N, x ∈ σ.msgs ++
      [Msg.appendOk (σ.nodes l).currentTerm l ((σ.nodes l).log.length + 1)] →
      x ∈ σ.msgs ∨
      x = Msg.appendOk (σ.nodes l).currentTerm l ((σ.nodes l).log.length + 1) := by
    intro x h
    rcases List.mem_append.mp h with h | h
    · exact Or.inl h
    · rcases List.mem_cons.mp h with h | h
      · exact Or.inr h
      · simp at h
  have hmono : ∀ x ∈ σ.msgs, x ∈ σ.msgs ++
      [Msg.appendOk (σ.nodes l).currentTerm l ((σ.nodes l).log.length + 1)] :=
    fun x hx => List.mem_append_left _ hx
  have hreqE : ∀ t2 c2 li2 lt2, Msg.reqVote t2 c2 li2 lt2 ∈ σ.msgs ++
      [Msg.appendOk (σ.nodes l).currentTerm l ((σ.nodes l).log.length + 1)] →
      Msg.reqVote t2 c2 li2 lt2 ∈ σ.msgs := by
    intro t2 c2 li2 lt2 h
    rcases hmemsplit _ h with h | h
    · exact h
    · simp at h
  have hgrE : ∀ t2 v2 c2, Msg.voteGrant t2 v2 c2 ∈ σ.msgs ++
      [Msg.appendOk (σ.nodes l).currentTerm l ((σ.nodes l).log.length + 1)] →
      Msg.voteGrant t2 v2 c2 ∈ σ.msgs := by
    intro t2 v2 c2 h
    rcases hmemsplit _ h with h | h
    · exact h
    · simp at h
  have happE : ∀ t2 lid pos pt es lc, Msg.append t2 lid pos pt es lc ∈ σ.msgs ++
      [Msg.appendOk (σ.nodes l).currentTerm l ((σ.nodes l).log.length + 1)] →
      Msg.append t2 lid pos pt es lc ∈ σ.msgs := by
    intro t2 lid pos pt es lc h
    rcases hmemsplit _ h with h | h
    · exact h
    · simp at h
  refine
    { termBound := by
        intro a i τ h
        rw [htm]
        by_cases hal : a = l
        · rw [hal, hlog_l] at h
          rw [hal]
          rcases termAt_snoc_cases h with ⟨h1, h2⟩ | ⟨h1, h2⟩
          · exact inv.termBound l i τ h2
          · rw [h2, he]
        · rw [hlog_ne a hal] at h
          exact inv.termBound a i τ h
      logMono := by
        intro a i j τ1 τ2 hij h1 h2
        by_cases hal : a = l
        · rw [hal, hlog_l] at h1 h2
          rcases termAt_snoc_cases h1 with ⟨h11, h12⟩ | ⟨h11, h12⟩ <;>
            rcases termAt_snoc_cases h2 with ⟨h21, h22⟩ | ⟨h21, h22⟩
          · exact inv.logMono l i j τ1 τ2 hij h12 h22
          · rw [h22, he]
            exact inv.termBound l i τ1 h12
          · omega
          · omega
        · rw [hlog_ne a hal] at h1 h2
          exact inv.logMono a i j τ1 τ2 hij h1 h2
      commitLe := by
        intro a
        rw [hci]
        by_cases hal : a = l
        · rw [hal, hlog_l]
          have := inv.commitLe l
          simp
          omega
        · rw [hlog_ne a hal]
          exact inv.commitLe a
      candReq := by
        intro a h
        rw [hrl] at h
        have hlc : a ≠ l := by
          intro hal
          rw [hal, hrole] at h
          exact Role.noConfusion h
        rw [htm, hlog_ne a hlc]
        exact hmono _ (inv.candReq a h)
      reqBound := by
        intro t2 c2 li2 lt2 h
        rw [htm]
        exact inv.reqBound t2 c2 li2 lt2 (hreqE _ _ _ _ h)
      reqUnique := fun t2 c2 li2 lt2 li3 lt3 h h2 =>
        inv.reqUnique t2 c2 li2 lt2 li3 lt3 (hreqE _ _ _ _ h) (hreqE _ _ _ _ h2)
      grantBound := by
        intro t2 v2 c2 h
        rw [htm]
        exact inv.grantBound t2 v2 c2 (hgrE _ _ _ h)
      grantReq := by
        intro t2 v2 c2 h
        obtain ⟨li2, lt2, hr⟩ := inv.grantReq t2 v2 c2 (hgrE _ _ _ h)
        exact ⟨li2, lt2, hmono _ hr⟩
      grantVotedFor := by
        intro t2 v2 c2 h hEq
        rw [htm] at hEq
        rw [hvf]
        exact inv.grantVotedFor t2 v2 c2 (hgrE _ _ _ h) hEq
      grantUnique := fun t2 v2 ca cb h h2 =>
        inv.grantUnique t2 v2 ca cb (hgrE _ _ _ h) (hgrE _ _ _ h2)
      electedGrants := by
        intro t2 c2 Q2 h
        obtain ⟨h1, h2⟩ := inv.electedGrants t2 c2 Q2 h
        exact ⟨h1, fun w hw => hmono _ (h2 w hw)⟩
      tlogElected := by
        intro t2 h
        rw [hne2] at h
        exact inv.tlogElected t2 h
      electedNe := by
        intro t2 c2 Q2 h
        rw [hne2]
        exact inv.electedNe t2 c2 Q2 h
      electedRole := by
        intro t2 c2 Q2 h
        rw [htm, hrl]
        exact inv.electedRole t2 c2 Q2 h
      leaderTlog := by
        intro a h
        rw [hrl] at h
        rw [htm]
        by_cases hal : a = l
        · rw [hal, hlog_l, htlogT]
          refine ⟨rfl, by simp⟩
        · have hne : (σ.nodes a).currentTerm ≠ (σ.nodes l).currentTerm := by
            intro hceq
            exact hal (leader_eq inv h hrole hceq)
          rw [hlog_ne a hal, htlog_ne _ hne]
          exact inv.leaderTlog a h
      leaderElected := by
        intro a h
        rw [hrl] at h
        rw [htm]
        exact inv.leaderElected a h
      leaderSelfAck := by
        intro a h
        rw [hrl] at h
        rw [htm]
        by_cases hal : a = l
        · rw [hal, hlog_l]
          apply List.mem_append_right
          simp
        · rw [hlog_ne a hal]
          exact hmono _ (inv.leaderSelfAck a h)
      tlogTerms := by
        intro t2 i τ h
        rcases htermback _ _ _ h with h | ⟨h1, h2, h3⟩
        · exact inv.tlogTerms t2 i τ h
        · rw [h3, h1]
          omega
      tlogMono := by
        intro t2 i j τ1 τ2 hij h1 h2
        rcases htermback _ _ _ h1 with h1 | ⟨h11, h12, h13⟩ <;>
          rcases htermback _ _ _ h2 with h2 | ⟨h21, h22, h23⟩
        · exact inv.tlogMono t2 i j τ1 τ2 hij h1 h2
        · rw [h23, ← h21]
          exact (inv.tlogTerms t2 i τ1 h1).2
        · exfalso
          have := (termAt_some_bounds h2).2
          rw [h11, hLT] at this
          omega
        · omega
      tlogAnc := by
        intro t2 i τ h
        rcases htermback _ _ _ h with h | ⟨h1, h2, h3⟩
        · obtain ⟨ha1, ha2⟩ := inv.tlogAnc t2 i τ h
          have hb := (termAt_some_bounds h).2
          refine ⟨le_trans ha1 (hlenle τ), ?_⟩
          rw [htakestab t2 i hb, htakestab τ i ha1]
          exact ha2
        · rw [h1, h2, h3]
          rw [htlogT]
          refine ⟨by simp, rfl⟩
      nodeAnc := by
        intro a i τ h
        by_cases hal : a = l
        · rw [hal, hlog_l] at h
          rw [hal, hlog_l]
          rcases termAt_snoc_cases h with ⟨h1, h2⟩ | ⟨h1, h2⟩
          · obtain ⟨ha1, ha2⟩ := inv.nodeAnc l i τ h2
            refine ⟨le_trans ha1 (hlenle τ), ?_⟩
            rw [htakestab τ i ha1, take_snoc_le e h1]
            exact ha2
          · rw [h2, he, h1, htlogT]
            refine ⟨by simp, rfl⟩
        · rw [hlog_ne a hal] at h
          rw [hlog_ne a hal]
          obtain ⟨ha1, ha2⟩ := inv.nodeAnc a i τ h
          have hb := (termAt_some_bounds h).2
          refine ⟨le_trans ha1 (hlenle τ), ?_⟩
          rw [htakestab τ i ha1]
          exact ha2
      appendMsg := by
        intro t2 lid pos pt es lc h
        obtain ⟨h1, h2, h3, h4, h5⟩ := inv.appendMsg t2 lid pos pt es lc
          (happE _ _ _ _ _ _ h)
        refine ⟨le_trans h1 (hlenle t2), ?_, ?_, ?_, (hne2 t2).mpr h5⟩
        · have hsl : slice (({ σ with
        nodes := Function.update σ.nodes l ({ σ.nodes l with
          log := (σ.nodes l).log ++ [e] }),
        msgs := σ.msgs ++
          [Msg.appendOk (σ.nodes l).currentTerm l ((σ.nodes l).log.length + 1)],
        tlog := fun x => if x = (σ.nodes l).currentTerm
          then (σ.nodes l).log ++ [e]
          else σ.tlog x } : State N).tlog t2) pos es.length =
              slice (σ.tlog t2) pos es.length := by
            unfold slice
            rw [htakestab t2 (pos + es.length) h1]
          rw [hsl]
          exact h2
        · rcases h3 with h3 | h3
          · exact Or.inl h3
          · exact Or.inr (htermstab _ _ _ h3)
        · rcases h4 with h4 | ⟨tc, ic, hdc, hlc, htc, htake⟩
          · exact Or.inl h4
          · right
            refine ⟨tc, ic, ⟨htermstab _ _ _ hdc.1, ?_⟩, hlc, htc, ?_⟩
            · obtain ⟨Q, hQ, hA⟩ := hdc.2
              refine ⟨Q, hQ, fun w hw => ?_⟩
              obtain ⟨m2, hm2, hmem2⟩ := hA w hw
              exact ⟨m2, hm2, hmono _ hmem2⟩
            · have hic2 : ic ≤ (σ.tlog tc).length := (termAt_some_bounds hdc.1).2
              have hlct : lc ≤ (σ.tlog t2).length := by
                have := take_len_eq htake.symm (by omega)
                omega
              rw [htakestab t2 lc hlct, htakestab tc lc (by omega)]
              exact htake
      ackBound := by
        intro t2 v2 m h
        rw [htm]
        rcases hmemsplit _ h with h | h
        · obtain ⟨h1, h2, h3⟩ := inv.ackBound t2 v2 m h
          exact ⟨h1, le_trans h2 (hlenle t2), (hne2 t2).mpr h3⟩
        · simp only [Msg.appendOk.injEq] at h
          obtain ⟨h1, h2, h3⟩ := h
          rw [h1, h2, h3, htlogT]
          refine ⟨le_refl _, by simp, by simp⟩
      commitCover := by
        intro a
        rw [hci]
        rcases inv.commitCover a with h0 | ⟨tc, ic, hdc, hle2, htc, htake⟩
        · exact Or.inl h0
        · right
          have hic2 : ic ≤ (σ.tlog tc).length := (termAt_some_bounds hdc.1).2
          have hcle := inv.commitLe a
          refine ⟨tc, ic, ⟨htermstab _ _ _ hdc.1, ?_⟩, hle2, by rw [htm]; exact htc, ?_⟩
          · obtain ⟨Q, hQ, hA⟩ := hdc.2
            refine ⟨Q, hQ, fun w hw => ?_⟩
            obtain ⟨m2, hm2, hmem2⟩ := hA w hw
            exact ⟨m2, hm2, hmono _ hmem2⟩
          · rw [htakestab tc _ (by omega)]
            by_cases hal : a = l
            · rw [hal, hlog_l]
              rw [hal] at htake hcle
              rw [take_snoc_le e hcle]
              exact htake
            · rw [hlog_ne a hal]
              exact htake
      retention := ?_
      rg1 := ?_
      rg2 := ?_
      lcInv := ?_ }
  · -- retention
    intro t2 w m h i hi hc
    rw [htm] at hc
    rcases hmemsplit _ h with h | h
    · -- an old acknowledgement
      have hmb : m ≤ (σ.tlog t2).length := (inv.ackBound t2 w m h).2.1
      have hib : i ≤ (σ.tlog t2).length := by omega
      have hpre : i ≤ (σ.nodes w).log.length ∧
          (σ.nodes w).log.take i = (σ.tlog t2).take i := by
        apply inv.retention t2 w m h i hi
        intro t3 h3 h3b h3ne
        have h3ne2 := (hne2 t3).mpr h3ne
        obtain ⟨f1, f2⟩ := hc t3 h3 h3b h3ne2
        rw [htakestab t2 i hib] at f2
        by_cases h3T : t3 = (σ.nodes l).currentTerm
        · rw [h3T, htlogT] at f1 f2
          by_cases hiL : i ≤ (σ.nodes l).log.length
          · rw [take_snoc_le e hiL] at f2
            exact ⟨by rw [h3T, hLT]; exact hiL, by rw [h3T, hLT]; exact f2⟩
          · exfalso
            have hle2 : i ≤ (σ.nodes l).log.length + 1 := by
              simp at f1
              omega
            have hieq : i = (σ.nodes l).log.length + 1 := by omega
            have hTat : termAt ((σ.nodes l).log ++ [e]) i =
                some (σ.nodes l).currentTerm := by
              rw [hieq, termAt_snoc_new, he]
            have := termAt_eq_of_take_eq f2 (le_refl i)
            rw [hTat] at this
            have := (inv.tlogTerms t2 i _ this.symm).2
            omega
        · rw [htlog_ne t3 h3T] at f1 f2
          exact ⟨f1, f2⟩
      by_cases hwl : w = l
      · rw [hwl, hlog_l]
        rw [hwl] at hpre
        refine ⟨by simp; omega, ?_⟩
        rw [take_snoc_le e hpre.1, htakestab t2 i hib]
        exact hpre.2
      · rw [hlog_ne w hwl, htakestab t2 i hib]
        exact hpre
    · -- the new self acknowledgement
      simp only [Msg.appendOk.injEq] at h
      obtain ⟨h1, h2, h3⟩ := h
      rw [h1, htlogT]
      rw [h2, hlog_l]
      rw [h3] at hi
      have hlen2 : ((σ.nodes l).log ++ [e]).length = (σ.nodes l).log.length + 1 := by
        simp
      refine ⟨by omega, rfl⟩
  · -- rg1
    intro t1 w ca hg t2 m ha ht12 i him hdec hic hcand hct htl1
    have hgold := hgrE _ _ _ hg
    rw [hrl] at hcand
    rw [htm] at hct
    have ht1T : t1 ≠ (σ.nodes l).currentTerm := by
      intro hEq
      rw [hEq] at htl1
      rw [htlogT] at htl1
      simp at htl1
    rw [htlog_ne t1 ht1T] at htl1
    rcases hmemsplit _ ha with ha | ha
    · -- old acknowledgement
      have hmb : m ≤ (σ.tlog t2).length := (inv.ackBound t2 w m ha).2.1
      have hib : i ≤ (σ.tlog t2).length := by omega
      have hdec2 : termAt (σ.tlog t2) i = some t2 := by
        rcases htermback _ _ _ hdec with h | ⟨hh1, hh2, hh3⟩
        · exact h
        · exfalso
          rw [hh1, hLT] at hib
          omega
      have hic2 : interCompat σ t2 i t1 := by
        intro t3 h3 h3b h3ne
        have h3ne2 := (hne2 t3).mpr h3ne
        obtain ⟨f1, f2⟩ := hic t3 h3 h3b h3ne2
        rw [htakestab t2 i hib] at f2
        by_cases h3T : t3 = (σ.nodes l).currentTerm
        · rw [h3T, htlogT] at f1 f2
          by_cases hiL : i ≤ (σ.nodes l).log.length
          · rw [take_snoc_le e hiL] at f2
            exact ⟨by rw [h3T, hLT]; exact hiL, by rw [h3T, hLT]; exact f2⟩
          · exfalso
            have hle2 : i ≤ (σ.nodes l).log.length + 1 := by
              simp at f1
              omega
            have hieq : i = (σ.nodes l).log.length + 1 := by omega
            have hTat : termAt ((σ.nodes l).log ++ [e]) i =
                some (σ.nodes l).currentTerm := by
              rw [hieq, termAt_snoc_new, he]
            have := termAt_eq_of_take_eq f2 (le_refl i)
            rw [hTat] at this
            have := (inv.tlogTerms t2 i _ this.symm).2
            omega
        · rw [htlog_ne t3 h3T] at f1 f2
          exact ⟨f1, f2⟩
      by_cases hcl : ca = l
      · exfalso
        rw [hcl, hrole] at hcand
        exact Role.noConfusion hcand
      · rw [hlog_ne ca hcl, htakestab t2 i hib]
        exact inv.rg1 t1 w ca hgold t2 m ha ht12 i him hdec2 hic2 hcand hct htl1
    · -- the new self acknowledgement pairs with no grant above the term
      exfalso
      simp only [Msg.appendOk.injEq] at ha
      obtain ⟨h1, h2, -⟩ := ha
      rw [h2] at hgold
      have := inv.grantBound t1 l ca hgold
      omega
  · -- rg2
    intro t1 c2 Q1 helid w hw t2 m ha ht12 i him hdec hic
    rcases hmemsplit _ ha with ha | ha
    · have hmb : m ≤ (σ.tlog t2).length := (inv.ackBound t2 w m ha).2.1
      have hib : i ≤ (σ.tlog t2).length := by omega
      have hdec2 : termAt (σ.tlog t2) i = some t2 := by
        rcases htermback _ _ _ hdec with h | ⟨hh1, hh2, hh3⟩
        · exact h
        · exfalso
          rw [hh1, hLT] at hib
          omega
      have hic2 : interCompat σ t2 i t1 := by
        intro t3 h3 h3b h3ne
        have h3ne2 := (hne2 t3).mpr h3ne
        obtain ⟨f1, f2⟩ := hic t3 h3 h3b h3ne2
        rw [htakestab t2 i hib] at f2
        by_cases h3T : t3 = (σ.nodes l).currentTerm
        · rw [h3T, htlogT] at f1 f2
          by_cases hiL : i ≤ (σ.nodes l).log.length
          · rw [take_snoc_le e hiL] at f2
            exact ⟨by rw [h3T, hLT]; exact hiL, by rw [h3T, hLT]; exact f2⟩
          · exfalso
            have hle2 : i ≤ (σ.nodes l).log.length + 1 := by
              simp at f1
              omega
            have hieq : i = (σ.nodes l).log.length + 1 := by omega
            have hTat : termAt ((σ.nodes l).log ++ [e]) i =
                some (σ.nodes l).currentTerm := by
              rw [hieq, termAt_snoc_new, he]
            have := termAt_eq_of_take_eq f2 (le_refl i)
            rw [hTat] at this
            have := (inv.tlogTerms t2 i _ this.symm).2
            omega
        · rw [htlog_ne t3 h3T] at f1 f2
          exact ⟨f1, f2⟩
      obtain ⟨g1, g2⟩ := inv.rg2 t1 c2 Q1 helid w hw t2 m ha ht12 i him hdec2 hic2
      have hib1 : i ≤ (σ.tlog t1).length := g1
      refine ⟨le_trans g1 (hlenle t1), ?_⟩
      rw [htakestab t1 i hib1, htakestab t2 i hib]
      exact g2
    · exfalso
      simp only [Msg.appendOk.injEq] at ha
      obtain ⟨h1, h2, -⟩ := ha
      rw [h2] at hw
      have hgr := (inv.electedGrants t1 c2 Q1 helid).2 l hw
      have := inv.grantBound t1 l c2 hgr
      omega
  · -- lcInv
    intro t2 i hd t1 ht1 hne
    have hne0 := (hne2 t1).mp hne
    obtain ⟨hdA, Q, hQ, hAck⟩ := hd
    by_cases ht2T : t2 = (σ.nodes l).currentTerm
    · -- committed at the proposing leader's own term
      rcases htermback _ _ _ hdA with hdold | ⟨hh1, hh2, hh3⟩
      · -- decisive entry below the new one: replace the new self ack by the old one
        have hqold : quorumAcked σ t2 i := by
          refine ⟨Q, hQ, fun w hw => ?_⟩
          obtain ⟨m2, hm2, hmem2⟩ := hAck w hw
          rcases hmemsplit _ hmem2 with hmem2 | hmem2
          · exact ⟨m2, hm2, hmem2⟩
          · simp only [Msg.appendOk.injEq] at hmem2
            obtain ⟨g1, g2, g3⟩ := hmem2
            have hib : i ≤ (σ.nodes l).log.length :=
              (termAt_some_bounds (hLT ▸ ht2T ▸ hdold)).2
            refine ⟨(σ.nodes l).log.length, hib, ?_⟩
            rw [g2, ht2T]
            exact inv.leaderSelfAck l hrole
        have hpre := inv.lcInv t2 i ⟨hdold, hqold⟩ t1 ht1 hne0
        have ht1T : t1 ≠ (σ.nodes l).currentTerm := by
          rw [ht2T] at ht1
          omega
        rw [htlog_ne t1 ht1T]
        refine ⟨hpre.1, ?_⟩
        have hib2 : i ≤ (σ.tlog t2).length := (termAt_some_bounds hdold).2
        rw [htakestab t2 i hib2]
        exact hpre.2
      · -- the decisive entry is the newly proposed one
        exfalso
        -- only the new self ack covers it, so every quorum member is l,
        -- and any later elected term would need a vote from l above its term
        obtain ⟨c2, Q2, hel⟩ := inv.tlogElected t1 hne0
        obtain ⟨hQ2m, hQ2g⟩ := inv.electedGrants t1 c2 Q2 hel
        obtain ⟨w, hwQ, hwQ2⟩ := maj_inter hQ hQ2m
        obtain ⟨m2, hm2, hmem2⟩ := hAck w hwQ
        rcases hmemsplit _ hmem2 with hmem2 | hmem2
        · have := (inv.ackBound _ _ _ hmem2).2.1
          rw [ht2T, hLT] at this
          omega
        · simp only [Msg.appendOk.injEq] at hmem2
          obtain ⟨g1, g2, g3⟩ := hmem2
          rw [g2] at hwQ2
          have hgr := hQ2g l hwQ2
          have := inv.grantBound t1 l c2 hgr
          omega
    · -- committed at another term: everything transfers
      have hdold : termAt (σ.tlog t2) i = some t2 := by
        rcases htermback _ _ _ hdA with h | ⟨hh1, hh2, hh3⟩
        · exact h
        · exact absurd hh1 ht2T
      have hqold : quorumAcked σ t2 i := by
        refine ⟨Q, hQ, fun w hw => ?_⟩
        obtain ⟨m2, hm2, hmem2⟩ := hAck w hw
        rcases hmemsplit _ hmem2 with hmem2 | hmem2
        · exact ⟨m2, hm2, hmem2⟩
        · exfalso
          simp only [Msg.appendOk.injEq] at hmem2
          exact ht2T hmem2.1
      have hpre := inv.lcInv t2 i ⟨hdold, hqold⟩ t1 ht1 hne0
      have hib2 : i ≤ (σ.tlog t2).length := (termAt_some_bounds hdold).2
      refine ⟨le_trans hpre.1 (hlenle t1), ?_⟩
      rw [htakestab t1 i hpre.1, htakestab t2 i hib2]
      exact hpre.2

end RaftM

namespace RaftM

theorem inv_becomeLeader {N : Nat} {σ : State N} (inv : Inv σ) (c : Fin N)
    (Q : Finset (Fin N))
    (hrole : (σ.nodes c).role = .Candidate)
    (hQ : isMaj N Q)
    (hv : ∀ v ∈ Q, Msg.voteGrant (σ.nodes c).currentTerm v c ∈ σ.msgs) :
    Inv { σ with
      nodes := Function.update σ.nodes c ({ σ.nodes c with
        role := .Leader,
        log := (σ.nodes c).log ++ [noopFor (σ.nodes c).currentTerm] }),
      msgs := σ.msgs ++
        [Msg.appendOk (σ.nodes c).currentTerm c ((σ.nodes c).log.length + 1)],
      tlog := fun x => if x = (σ.nodes c).currentTerm
        then (σ.nodes c).log ++ [noopFor (σ.nodes c).currentTerm]
        else σ.tlog x,
      elected := σ.elected ++ [((σ.nodes c).currentTerm, c, Q)] } := by
  have hTpos : 1 ≤ (σ.nodes c).currentTerm := by
    have hr := inv.candReq c hrole
    exact (inv.reqBound _ _ _ _ hr).1
  have hnone : ∀ c2 Q2, ((σ.nodes c).currentTerm, c2, Q2) ∈ σ.elected → False := by
    intro c2 Q2 hel
    obtain ⟨hQ2, hg2⟩ := inv.electedGrants _ _ _ hel
    obtain ⟨w, hw1, hw2⟩ := maj_inter hQ hQ2
    have hceq : c = c2 := inv.grantUnique _ w c c2 (hv w hw1) (hg2 w hw2)
    rw [← hceq] at hel
    have := (inv.electedRole _ _ _ hel).2 rfl
    rw [hrole] at this
    exact Role.noConfusion this
  have hTnil : σ.tlog (σ.nodes c).currentTerm = [] := by
    by_contra hne
    obtain ⟨c2, Q2, hel⟩ := inv.tlogElected _ hne
    exact hnone c2 Q2 hel
  have hstrict : ∀ i τ, termAt (σ.nodes c).log i = some τ →
      τ < (σ.nodes c).currentTerm := by
    intro i τ h
    have hb := inv.termBound c i τ h
    rcases Nat.lt_or_ge τ (σ.nodes c).currentTerm with hlt | hge
    · exact hlt
    · exfalso
      have hτ : τ = (σ.nodes c).currentTerm := by omega
      obtain ⟨ha1, ha2⟩ := inv.nodeAnc c i τ h
      rw [hτ, hTnil] at ha1
      have := (termAt_some_bounds h).1
      simp at ha1
      omega
  -- tlog of the new state
  have htlogT : ({ σ with
        nodes := Function.update σ.nodes c ({ σ.nodes c with
          role := .Leader,
          log := (σ.nodes c).log ++ [noopFor (σ.nodes c).currentTerm] }),
        msgs := σ.msgs ++
          [Msg.appendOk (σ.nodes c).currentTerm c ((σ.nodes c).log.length + 1)],
        tlog := fun x => if x = (σ.nodes c).currentTerm
          then (σ.nodes c).log ++ [noopFor (σ.nodes c).currentTerm]
          else σ.tlog x,
        elected := σ.elected ++ [((σ.nodes c).currentTerm, c, Q)] } : State N).tlog (σ.nodes c).currentTerm =
      (σ.nodes c).log ++ [noopFor (σ.nodes c).currentTerm] := by simp
  have htlog_ne : ∀ u, u ≠ (σ.nodes c).currentTerm →
      ({ σ with
        nodes := Function.update σ.nodes c ({ σ.nodes c with
          role := .Leader,
          log := (σ.nodes c).log ++ [noopFor (σ.nodes c).currentTerm] }),
        msgs := σ.msgs ++
          [Msg.appendOk (σ.nodes c).currentTerm c ((σ.nodes c).log.length + 1)],
        tlog := fun x => if x = (σ.nodes c).currentTerm
          then (σ.nodes c).log ++ [noopFor (σ.nodes c).currentTerm]
          else σ.tlog x,
        elected := σ.elected ++ [((σ.nodes c).currentTerm, c, Q)] } : State N).tlog u = σ.tlog u := by
    intro u hu
    simp [hu]
  have hlenle : ∀ u, (σ.tlog u).length ≤
      (({ σ with
        nodes := Function.update σ.nodes c ({ σ.nodes c with
          role := .Leader,
          log := (σ.nodes c).log ++ [noopFor (σ.nodes c).currentTerm] }),
        msgs := σ.msgs ++
          [Msg.appendOk (σ.nodes c).currentTerm c ((σ.nodes c).log.length + 1)],
        tlog := fun x => if x = (σ.nodes c).currentTerm
          then (σ.nodes c).log ++ [noopFor (σ.nodes c).currentTerm]
          else σ.tlog x,
        elected := σ.elected ++ [((σ.nodes c).currentTerm, c, Q)] } : State N).tlog u).length := by
    intro u
    by_cases hu : u = (σ.nodes c).currentTerm
    · rw [hu, htlogT, hTnil]
      simp
    · rw [htlog_ne u hu]
  have htakestab : ∀ u j, j ≤ (σ.tlog u).length →
      (({ σ with
        nodes := Function.update σ.nodes c ({ σ.nodes c with
          role := .Leader,
          log := (σ.nodes c).log ++ [noopFor (σ.nodes c).currentTerm] }),
        msgs := σ.msgs ++
          [Msg.appendOk (σ.nodes c).currentTerm c ((σ.nodes c).log.length + 1)],
        tlog := fun x => if x = (σ.nodes c).currentTerm
          then (σ.nodes c).log ++ [noopFor (σ.nodes c).currentTerm]
          else σ.tlog x,
        elected := σ.elected ++ [((σ.nodes c).currentTerm, c, Q)] } : State N).tlog u).take j = (σ.tlog u).take j := by
    intro u j hj
    by_cases hu : u = (σ.nodes c).currentTerm
    · rw [hu, htlogT]
      rw [hu, hTnil] at hj
      simp at hj
      rw [hj, hTnil]
      simp
    · rw [htlog_ne u hu]
  have htermstab : ∀ u j τ, termAt (σ.tlog u) j = some τ →
      termAt (({ σ with
        nodes := Function.update σ.nodes c ({ σ.nodes c with
          role := .Leader,
          log := (σ.nodes c).log ++ [noopFor (σ.nodes c).currentTerm] }),
        msgs := σ.msgs ++
          [Msg.appendOk (σ.nodes c).currentTerm c ((σ.nodes c).log.length + 1)],
        tlog := fun x => if x = (σ.nodes c).currentTerm
          then (σ.nodes c).log ++ [noopFor (σ.nodes c).currentTerm]
          else σ.tlog x,
        elected := σ.elected ++ [((σ.nodes c).currentTerm, c, Q)] } : State N).tlog u) j = some τ := by
    intro u j τ h
    have hb := (termAt_some_bounds h).2
    rw [termAt_eq_of_take_eq (htakestab u j hb) (le_refl j)]
    exact h
  have htermback : ∀ u j τ, termAt (({ σ with
        nodes := Function.update σ.nodes c ({ σ.nodes c with
          role := .Leader,
          log := (σ.nodes c).log ++ [noopFor (σ.nodes c).currentTerm] }),
        msgs := σ.msgs ++
          [Msg.appendOk (σ.nodes c).currentTerm c ((σ.nodes c).log.length + 1)],
        tlog := fun x => if x = (σ.nodes c).currentTerm
          then (σ.nodes c).log ++ [noopFor (σ.nodes c).currentTerm]
          else σ.tlog x,
        elected := σ.elected ++ [((σ.nodes c).currentTerm, c, Q)] } : State N).tlog u) j = some τ →
      termAt (σ.tlog u) j = some τ ∨
      (u = (σ.nodes c).currentTerm ∧
        ((j ≤ (σ.nodes c).log.length ∧ termAt (σ.nodes c).log j = some τ) ∨
         (j = (σ.nodes c).log.length + 1 ∧ τ = (σ.nodes c).currentTerm))) := by
    intro u j τ h
    by_cases hu : u = (σ.nodes c).currentTerm
    · rw [hu, htlogT] at h
      rcases termAt_snoc_cases h with ⟨h1, h2⟩ | ⟨h1, h2⟩
      · exact Or.inr ⟨hu, Or.inl ⟨h1, h2⟩⟩
      · exact Or.inr ⟨hu, Or.inr ⟨h1, h2⟩⟩
    · rw [htlog_ne u hu] at h
      exact Or.inl h
  have hne2 : ∀ u, (({ σ with
        nodes := Function.update σ.nodes c ({ σ.nodes c with
          role := .Leader,
          log := (σ.nodes c).log ++ [noopFor (σ.nodes c).currentTerm] }),
        msgs := σ.msgs ++
          [Msg.appendOk (σ.nodes c).currentTerm c ((σ.nodes c).log.length + 1)],
        tlog := fun x => if x = (σ.nodes c).currentTerm
          then (σ.nodes c).log ++ [noopFor (σ.nodes c).currentTerm]
          else σ.tlog x,
        elected := σ.elected ++ [((σ.nodes c).currentTerm, c, Q)] } : State N).tlog u) ≠ [] ↔
      (u = (σ.nodes c).currentTerm ∨ σ.tlog u ≠ []) := by
    intro u
    by_cases hu : u = (σ.nodes c).currentTerm
    · rw [hu, htlogT]
      constructor
      · intro h
        exact Or.inl rfl
      · intro h
        simp
    · rw [htlog_ne u hu]
      constructor
      · intro h
        exact Or.inr h
      · intro h
        rcases h with h | h
        · exact absurd h hu
        · exact h
  -- node frames
  have hlog_ne : ∀ a, a ≠ c → ((Function.update σ.nodes c ({ σ.nodes c with
      role := .Leader,
      log := (σ.nodes c).log ++ [noopFor (σ.nodes c).currentTerm] })) a).log = (σ.nodes a).log := by
    intro a h
    simp [Function.update_noteq h]
  have hlog_c : ((Function.update σ.nodes c ({ σ.nodes c with
      role := .Leader,
      log := (σ.nodes c).log ++ [noopFor (σ.nodes c).currentTerm] })) c).log =
      (σ.nodes c).log ++ [noopFor (σ.nodes c).currentTerm] := by
    simp
  have hrl_ne : ∀ a, a ≠ c → ((Function.update σ.nodes c ({ σ.nodes c with
      role := .Leader,
      log := (σ.nodes c).log ++ [noopFor (σ.nodes c).currentTerm] })) a).role = (σ.nodes a).role := by
    intro a h
    simp [Function.update_noteq h]
  have hrl_c : ((Function.update σ.nodes c ({ σ.nodes c with
      role := .Leader,
      log := (σ.nodes c).log ++ [noopFor (σ.nodes c).currentTerm] })) c).role = Role.Leader := by
    simp
  have htm : ∀ a, ((Function.update σ.nodes c ({ σ.nodes c with
      role := .Leader,
      log := (σ.nodes c).log ++ [noopFor (σ.nodes c).currentTerm] })) a).currentTerm = (σ.nodes a).currentTerm := by
    intro a
    by_cases h : a = c
    · rw [h]
      simp
    · simp [Function.update_noteq h]
  have hvf : ∀ a, ((Function.update σ.nodes c ({ σ.nodes c with
      role := .Leader,
      log := (σ.nodes c).log ++ [noopFor (σ.nodes c).currentTerm] })) a).votedFor = (σ.nodes a).votedFor := by
    intro a
    by_cases h : a = c
    · rw [h]
      simp
    · simp [Function.update_noteq h]
  have hci : ∀ a, ((Function.update σ.nodes c ({ σ.nodes c with
      role := .Leader,
      log := (σ.nodes c).log ++ [noopFor (σ.nodes c).currentTerm] })) a).commitIndex = (σ.nodes a).commitIndex := by
    intro a
    by_cases h : a = c
    · rw [h]
      simp
    · simp [Function.update_noteq h]
  -- message frames
  have hmemsplit : ∀ x : Msg N, x ∈ σ.msgs ++
      [Msg.appendOk (σ.nodes c).currentTerm c ((σ.nodes c).log.length + 1)] →
      x ∈ σ.msgs ∨
      x = Msg.appendOk (σ.nodes c).currentTerm c ((σ.nodes c).log.length + 1) := by
    intro x h
    rcases List.mem_append.mp h with h | h
    · exact Or.inl h
    · rcases List.mem_cons.mp h with h | h
      · exact Or.inr h
      · simp at h
  have hmono : ∀ x ∈ σ.msgs, x ∈ σ.msgs ++
      [Msg.appendOk (σ.nodes c).currentTerm c ((σ.nodes c).log.length + 1)] :=
    fun x hx => List.mem_append_left _ hx
  have hreqE : ∀ t2 c2 li2 lt2, Msg.reqVote t2 c2 li2 lt2 ∈ σ.msgs ++
      [Msg.appendOk (σ.nodes c).currentTerm c ((σ.nodes c).log.length + 1)] →
      Msg.reqVote t2 c2 li2 lt2 ∈ σ.msgs := by
    intro t2 c2 li2 lt2 h
    rcases hmemsplit _ h with h | h
    · exact h
    · simp at h
  have hgrE : ∀ t2 v2 c2, Msg.voteGrant t2 v2 c2 ∈ σ.msgs ++
      [Msg.appendOk (σ.nodes c).currentTerm c ((σ.nodes c).log.length + 1)] →
      Msg.voteGrant t2 v2 c2 ∈ σ.msgs := by
    intro t2 v2 c2 h
    rcases hmemsplit _ h with h | h
    · exact h
    · simp at h
  have happE : ∀ t2 lid pos pt es lc, Msg.append t2 lid pos pt es lc ∈ σ.msgs ++
      [Msg.appendOk (σ.nodes c).currentTerm c ((σ.nodes c).log.length + 1)] →
      Msg.append t2 lid pos pt es lc ∈ σ.msgs := by
    intro t2 lid pos pt es lc h
    rcases hmemsplit _ h with h | h
    · exact h
    · simp at h
  -- elected frames
  have helE : ∀ t2 c2 Q2, (t2, c2, Q2) ∈
      σ.elected ++ [((σ.nodes c).currentTerm, c, Q)] →
      (t2, c2, Q2) ∈ σ.elected ∨
      (t2 = (σ.nodes c).currentTerm ∧ c2 = c ∧ Q2 = Q) := by
    intro t2 c2 Q2 h
    rcases List.mem_append.mp h with h | h
    · exact Or.inl h
    · rcases List.mem_cons.mp h with h | h
      · simp only [Prod.mk.injEq] at h
        exact Or.inr ⟨h.1, h.2.1, h.2.2⟩
      · simp at h
  have hel_new : ((σ.nodes c).currentTerm, c, Q) ∈
      σ.elected ++ [((σ.nodes c).currentTerm, c, Q)] := by
    simp

  refine
    { termBound := by
        intro a i τ h
        rw [htm]
        by_cases hal : a = c
        · rw [hal, hlog_c] at h
          rw [hal]
          rcases termAt_snoc_cases h with ⟨h1, h2⟩ | ⟨h1, h2⟩
          · exact inv.termBound c i τ h2
          · have hτ : τ = (σ.nodes c).currentTerm := h2
            rw [hτ]
        · rw [hlog_ne a hal] at h
          exact inv.termBound a i τ h
      logMono := by
        intro a i j τ1 τ2 hij h1 h2
        by_cases hal : a = c
        · rw [hal, hlog_c] at h1 h2
          rcases termAt_snoc_cases h1 with ⟨h11, h12⟩ | ⟨h11, h12⟩ <;>
            rcases termAt_snoc_cases h2 with ⟨h21, h22⟩ | ⟨h21, h22⟩
          · exact inv.logMono c i j τ1 τ2 hij h12 h22
          · have hτ : τ2 = (σ.nodes c).currentTerm := h22
            rw [hτ]
            exact inv.termBound c i τ1 h12
          · omega
          · have hτ1 : τ1 = (σ.nodes c).currentTerm := h12
            have hτ2 : τ2 = (σ.nodes c).currentTerm := h22
            rw [hτ1, hτ2]
        · rw [hlog_ne a hal] at h1 h2
          exact inv.logMono a i j τ1 τ2 hij h1 h2
      commitLe := by
        intro a
        rw [hci]
        by_cases hal : a = c
        · rw [hal, hlog_c]
          have := inv.commitLe c
          simp
          omega
        · rw [hlog_ne a hal]
          exact inv.commitLe a
      candReq := by
        intro a h
        by_cases hal : a = c
        · rw [hal, hrl_c] at h
          exact Role.noConfusion h
        · rw [hrl_ne a hal] at h
          rw [htm, hlog_ne a hal]
          exact hmono _ (inv.candReq a h)
      reqBound := by
        intro t2 c2 li2 lt2 h
        rw [htm]
        exact inv.reqBound t2 c2 li2 lt2 (hreqE _ _ _ _ h)
      reqUnique := fun t2 c2 li2 lt2 li3 lt3 h h2 =>
        inv.reqUnique t2 c2 li2 lt2 li3 lt3 (hreqE _ _ _ _ h) (hreqE _ _ _ _ h2)
      grantBound := by
        intro t2 v2 c2 h
        rw [htm]
        exact inv.grantBound t2 v2 c2 (hgrE _ _ _ h)
      grantReq := by
        intro t2 v2 c2 h
        obtain ⟨li2, lt2, hr⟩ := inv.grantReq t2 v2 c2 (hgrE _ _ _ h)
        exact ⟨li2, lt2, hmono _ hr⟩
      grantVotedFor := by
        intro t2 v2 c2 h hEq
        rw [htm] at hEq
        rw [hvf]
        exact inv.grantVotedFor t2 v2 c2 (hgrE _ _ _ h) hEq
      grantUnique := fun t2 v2 ca cb h h2 =>
        inv.grantUnique t2 v2 ca cb (hgrE _ _ _ h) (hgrE _ _ _ h2)
      electedGrants := by
        intro t2 c2 Q2 h
        rcases helE _ _ _ h with h | ⟨h1, h2, h3⟩
        · obtain ⟨g1, g2⟩ := inv.electedGrants t2 c2 Q2 h
          exact ⟨g1, fun w hw => hmono _ (g2 w hw)⟩
        · rw [h1, h2, h3]
          exact ⟨hQ, fun w hw => hmono _ (hv w hw)⟩
      tlogElected := by
        intro t2 h
        rcases (hne2 t2).mp h with h | h
        · rw [h]
          exact ⟨c, Q, hel_new⟩
        · obtain ⟨c2, Q2, hel⟩ := inv.tlogElected t2 h
          exact ⟨c2, Q2, List.mem_append_left _ hel⟩
      electedNe := by
        intro t2 c2 Q2 h
        rcases helE _ _ _ h with h | ⟨h1, h2, h3⟩
        · exact (hne2 t2).mpr (Or.inr (inv.electedNe t2 c2 Q2 h))
        · exact (hne2 t2).mpr (Or.inl h1)
      electedRole := by
        intro t2 c2 Q2 h
        rw [htm]
        rcases helE _ _ _ h with h | ⟨h1, h2, h3⟩
        · refine ⟨(inv.electedRole t2 c2 Q2 h).1, ?_⟩
          intro hEq
          by_cases hc2 : c2 = c
          · exfalso
            rw [hc2] at hEq h
            rw [← hEq] at h
            exact hnone c Q2 h
          · rw [hrl_ne c2 hc2]
            exact (inv.electedRole t2 c2 Q2 h).2 hEq
        · rw [h2, h1]
          exact ⟨le_refl _, fun hh => hrl_c⟩
      leaderTlog := by
        intro a h
        by_cases hal : a = c
        · rw [hal, htm, hlog_c, htlogT]
          exact ⟨rfl, by simp⟩
        · rw [hrl_ne a hal] at h
          rw [htm, hlog_ne a hal]
          have hne : (σ.nodes a).currentTerm ≠ (σ.nodes c).currentTerm := by
            intro hEq
            obtain ⟨Qa, hQa⟩ := inv.leaderElected a h
            rw [hEq] at hQa
            exact hnone a Qa hQa
          rw [htlog_ne _ hne]
          exact inv.leaderTlog a h
      leaderElected := by
        intro a h
        rw [htm]
        by_cases hal : a = c
        · rw [hal]
          exact ⟨Q, hel_new⟩
        · rw [hrl_ne a hal] at h
          obtain ⟨Qa, hQa⟩ := inv.leaderElected a h
          exact ⟨Qa, List.mem_append_left _ hQa⟩
      leaderSelfAck := by
        intro a h
        rw [htm]
        by_cases hal : a = c
        · rw [hal, hlog_c]
          apply List.mem_append_right
          simp
        · rw [hrl_ne a hal] at h
          rw [hlog_ne a hal]
          exact hmono _ (inv.leaderSelfAck a h)
      tlogTerms := by
        intro t2 i τ h
        rcases htermback _ _ _ h with h | ⟨h1, h2⟩
        · exact inv.tlogTerms t2 i τ h
        · rcases h2 with ⟨hb, hL⟩ | ⟨hi, hτ⟩
          · obtain ⟨ha1, ha2⟩ := inv.nodeAnc c i τ hL
            have hτT : termAt (σ.tlog τ) i = some τ := by
              rw [← termAt_eq_of_take_eq ha2 (le_refl i)]
              exact hL
            have hτpos := inv.tlogTerms τ i τ hτT
            have hlt := hstrict i τ hL
            omega
          · omega
      tlogMono := by
        intro t2 i j τ1 τ2 hij h1 h2
        rcases htermback _ _ _ h1 with h1 | ⟨h11, h12⟩ <;>
          rcases htermback _ _ _ h2 with h2 | ⟨h21, h22⟩
        · exact inv.tlogMono t2 i j τ1 τ2 hij h1 h2
        · exfalso
          rw [h21, hTnil] at h1
          simp [termAt, entryAt_nil] at h1
        · exfalso
          rw [h11, hTnil] at h2
          simp [termAt, entryAt_nil] at h2
        · rcases h12 with ⟨hb1, hL1⟩ | ⟨hi1, hτ1⟩ <;>
            rcases h22 with ⟨hb2, hL2⟩ | ⟨hi2, hτ2⟩
          · exact inv.logMono c i j τ1 τ2 hij hL1 hL2
          · have := hstrict i τ1 hL1
            omega
          · omega
          · omega
      tlogAnc := by
        intro t2 i τ h
        rcases htermback _ _ _ h with h | ⟨h1, h2⟩
        · obtain ⟨ha1, ha2⟩ := inv.tlogAnc t2 i τ h
          have hb := (termAt_some_bounds h).2
          refine ⟨le_trans ha1 (hlenle τ), ?_⟩
          rw [htakestab t2 i hb, htakestab τ i ha1]
          exact ha2
        · rcases h2 with ⟨hb, hL⟩ | ⟨hi, hτ⟩
          · obtain ⟨ha1, ha2⟩ := inv.nodeAnc c i τ hL
            have hτT : τ ≠ (σ.nodes c).currentTerm := by
              have := hstrict i τ hL
              omega
            refine ⟨?_, ?_⟩
            · rw [htlog_ne τ hτT]
              exact ha1
            · rw [h1, htlogT, take_snoc_le _ hb, htlog_ne τ hτT]
              exact ha2
          · rw [h1, hτ, htlogT]
            refine ⟨by simp [hi], rfl⟩
      nodeAnc := by
        intro a i τ h
        by_cases hal : a = c
        · rw [hal, hlog_c] at h
          rw [hal, hlog_c]
          rcases termAt_snoc_cases h with ⟨h1, h2⟩ | ⟨h1, h2⟩
          · obtain ⟨ha1, ha2⟩ := inv.nodeAnc c i τ h2
            have hτT : τ ≠ (σ.nodes c).currentTerm := by
              have := hstrict i τ h2
              omega
            rw [htlog_ne τ hτT]
            refine ⟨ha1, ?_⟩
            rw [take_snoc_le _ h1]
            exact ha2
          · have hτ : τ = (σ.nodes c).currentTerm := h2
            rw [hτ, h1, htlogT]
            exact ⟨by simp, rfl⟩
        · rw [hlog_ne a hal] at h
          rw [hlog_ne a hal]
          obtain ⟨ha1, ha2⟩ := inv.nodeAnc a i τ h
          have hb := (termAt_some_bounds h).2
          refine ⟨le_trans ha1 (hlenle τ), ?_⟩
          rw [htakestab τ i ha1]
          exact ha2
      appendMsg := by
        intro t2 lid pos pt es lc h
        obtain ⟨h1, h2, h3, h4, h5⟩ := inv.appendMsg t2 lid pos pt es lc
          (happE _ _ _ _ _ _ h)
        refine ⟨le_trans h1 (hlenle t2), ?_, ?_, ?_, (hne2 t2).mpr (Or.inr h5)⟩
        · unfold slice
          unfold slice at h2
          rw [htakestab t2 (pos + es.length) h1]
          exact h2
        · rcases h3 with h3 | h3
          · exact Or.inl h3
          · exact Or.inr (htermstab _ _ _ h3)
        · rcases h4 with h4 | ⟨tc, ic, hdc, hlc, htc, htake⟩
          · exact Or.inl h4
          · right
            refine ⟨tc, ic, ⟨htermstab _ _ _ hdc.1, ?_⟩, hlc, htc, ?_⟩
            · obtain ⟨Q3, hQ3, hA⟩ := hdc.2
              refine ⟨Q3, hQ3, fun w hw => ?_⟩
              obtain ⟨m2, hm2, hmem2⟩ := hA w hw
              exact ⟨m2, hm2, hmono _ hmem2⟩
            · have hic2 : ic ≤ (σ.tlog tc).length := (termAt_some_bounds hdc.1).2
              have hlct : lc ≤ (σ.tlog t2).length := by
                have := take_len_eq htake.symm (by omega)
                omega
              rw [htakestab t2 lc hlct, htakestab tc lc (by omega)]
              exact htake
      ackBound := by
        intro t2 v2 m h
        rw [htm]
        rcases hmemsplit _ h with h | h
        · obtain ⟨h1, h2, h3⟩ := inv.ackBound t2 v2 m h
          exact ⟨h1, le_trans h2 (hlenle t2), (hne2 t2).mpr (Or.inr h3)⟩
        · simp only [Msg.appendOk.injEq] at h
          obtain ⟨h1, h2, h3⟩ := h
          rw [h1, h2, h3, htlogT]
          refine ⟨le_refl _, by simp, by simp⟩
      commitCover := by
        intro a
        rw [hci]
        rcases inv.commitCover a with h0 | ⟨tc, ic, hdc, hle2, htc, htake⟩
        · exact Or.inl h0
        · right
          have hic2 : ic ≤ (σ.tlog tc).length := (termAt_some_bounds hdc.1).2
          have hcle := inv.commitLe a
          refine ⟨tc, ic, ⟨htermstab _ _ _ hdc.1, ?_⟩, hle2, by rw [htm]; exact htc, ?_⟩
          · obtain ⟨Q3, hQ3, hA⟩ := hdc.2
            refine ⟨Q3, hQ3, fun w hw => ?_⟩
            obtain ⟨m2, hm2, hmem2⟩ := hA w hw
            exact ⟨m2, hm2, hmono _ hmem2⟩
          · rw [htakestab tc _ (by omega)]
            by_cases hal : a = c
            · rw [hal, hlog_c]
              rw [hal] at htake hcle
              rw [take_snoc_le _ hcle]
              exact htake
            · rw [hlog_ne a hal]
              exact htake
      retention := ?_
      rg1 := ?_
      rg2 := ?_
      lcInv := ?_ }

  · -- retention
    intro t2 w m h i hi hc
    rw [htm] at hc
    rcases hmemsplit _ h with h | h
    · have hmb : m ≤ (σ.tlog t2).length := (inv.ackBound t2 w m h).2.1
      have hib : i ≤ (σ.tlog t2).length := by omega
      have hpre : i ≤ (σ.nodes w).log.length ∧
          (σ.nodes w).log.take i = (σ.tlog t2).take i := by
        apply inv.retention t2 w m h i hi
        intro t3 h3 h3b h3ne
        have h3T : t3 ≠ (σ.nodes c).currentTerm := by
          intro hEq
          rw [hEq, hTnil] at h3ne
          exact h3ne rfl
        obtain ⟨f1, f2⟩ := hc t3 h3 h3b ((hne2 t3).mpr (Or.inr h3ne))
        rw [htakestab t2 i hib] at f2
        rw [htlog_ne t3 h3T] at f1 f2
        exact ⟨f1, f2⟩
      by_cases hwl : w = c
      · rw [hwl, hlog_c]
        rw [hwl] at hpre
        refine ⟨by simp; omega, ?_⟩
        rw [take_snoc_le _ hpre.1, htakestab t2 i hib]
        exact hpre.2
      · rw [hlog_ne w hwl, htakestab t2 i hib]
        exact hpre
    · -- the new self acknowledgement covers the whole new leader log
      simp only [Msg.appendOk.injEq] at h
      obtain ⟨h1, h2, h3⟩ := h
      rw [h1, htlogT]
      rw [h2, hlog_c]
      rw [h3] at hi
      refine ⟨by simp; omega, rfl⟩
  · -- rg1
    intro t1 w ca hg t2 m ha ht12 i him hdec hic hcand hct htl1
    have hgold := hgrE _ _ _ hg
    rw [htm] at hct
    have hcac : ca ≠ c := by
      intro hEq
      rw [hEq, hrl_c] at hcand
      exact Role.noConfusion hcand
    rw [hrl_ne ca hcac] at hcand
    have ht1T : t1 ≠ (σ.nodes c).currentTerm := by
      intro hEq
      rw [hEq, htlogT] at htl1
      simp at htl1
    rw [htlog_ne t1 ht1T] at htl1
    rcases hmemsplit _ ha with ha | ha
    · have hmb := (inv.ackBound t2 w m ha).2.1
      by_cases ht2T : t2 = (σ.nodes c).currentTerm
      · exfalso
        rw [ht2T, hTnil] at hmb
        simp at hmb
        have hb := (termAt_some_bounds hdec).1
        omega
      · rw [htlog_ne t2 ht2T] at hdec
        have hib : i ≤ (σ.tlog t2).length := by omega
        have hic2 : interCompat σ t2 i t1 := by
          intro t3 h3 h3b h3ne
          have h3T : t3 ≠ (σ.nodes c).currentTerm := by
            intro hEq
            rw [hEq, hTnil] at h3ne
            exact h3ne rfl
          obtain ⟨f1, f2⟩ := hic t3 h3 h3b ((hne2 t3).mpr (Or.inr h3ne))
          rw [htakestab t2 i hib] at f2
          rw [htlog_ne t3 h3T] at f1 f2
          exact ⟨f1, f2⟩
        rw [hlog_ne ca hcac, htakestab t2 i hib]
        exact inv.rg1 t1 w ca hgold t2 m ha ht12 i him hdec hic2 hcand hct htl1
    · exfalso
      simp only [Msg.appendOk.injEq] at ha
      obtain ⟨h1, h2, -⟩ := ha
      rw [h2] at hgold
      have := inv.grantBound t1 c ca hgold
      omega
  · -- rg2
    intro t1 ca Q1 helid w hw t2 m ha ht12 i him hdec hic
    rcases hmemsplit _ ha with ha | ha
    · have hmb := (inv.ackBound t2 w m ha).2.1
      by_cases ht2T : t2 = (σ.nodes c).currentTerm
      · exfalso
        rw [ht2T, hTnil] at hmb
        simp at hmb
        have hb := (termAt_some_bounds hdec).1
        omega
      · rw [htlog_ne t2 ht2T] at hdec
        have hib : i ≤ (σ.tlog t2).length := by omega
        have hic2 : interCompat σ t2 i t1 := by
          intro t3 h3 h3b h3ne
          have h3T : t3 ≠ (σ.nodes c).currentTerm := by
            intro hEq
            rw [hEq, hTnil] at h3ne
            exact h3ne rfl
          obtain ⟨f1, f2⟩ := hic t3 h3 h3b ((hne2 t3).mpr (Or.inr h3ne))
          rw [htakestab t2 i hib] at f2
          rw [htlog_ne t3 h3T] at f1 f2
          exact ⟨f1, f2⟩
        rcases helE _ _ _ helid with helid | ⟨he1, he2, he3⟩
        · have ht1T : t1 ≠ (σ.nodes c).currentTerm := by
            intro hEq
            rw [hEq] at helid
            exact hnone ca Q1 helid
          obtain ⟨g1, g2⟩ := inv.rg2 t1 ca Q1 helid w hw t2 m ha ht12 i him hdec hic2
          rw [htlog_ne t1 ht1T]
          refine ⟨g1, ?_⟩
          rw [htakestab t2 i hib]
          exact g2
        · rw [he1] at ht12 hic2 ⊢
          rw [he3] at hw
          obtain ⟨g1, g2⟩ := inv.rg1 (σ.nodes c).currentTerm w c (hv w hw)
            t2 m ha ht12 i him hdec hic2 hrole rfl hTnil
          rw [htlogT]
          refine ⟨by simp; omega, ?_⟩
          rw [take_snoc_le _ g1, htakestab t2 i hib]
          exact g2
    · exfalso
      simp only [Msg.appendOk.injEq] at ha
      obtain ⟨h1, h2, -⟩ := ha
      rcases helE _ _ _ helid with helid | ⟨he1, he2, he3⟩
      · rw [h2] at hw
        have hgr := (inv.electedGrants t1 ca Q1 helid).2 c hw
        have := inv.grantBound t1 c ca hgr
        omega
      · omega
  · -- lcInv
    intro t2 i hd t1 ht1 hne
    obtain ⟨hdA, Q2, hQ2, hAck⟩ := hd
    by_cases ht2T : t2 = (σ.nodes c).currentTerm
    · exfalso
      have hi1 : 1 ≤ i := (termAt_some_bounds hdA).1
      have hallc : ∀ w ∈ Q2, w = c := by
        intro w hw
        obtain ⟨m2, hm2, hmem2⟩ := hAck w hw
        rcases hmemsplit _ hmem2 with hmem2 | hmem2
        · exfalso
          have hmb := (inv.ackBound t2 w m2 hmem2).2.1
          rw [ht2T, hTnil] at hmb
          simp at hmb
          omega
        · simp only [Msg.appendOk.injEq] at hmem2
          exact hmem2.2.1
      have ht1T : t1 ≠ (σ.nodes c).currentTerm := by omega
      have hne0 : σ.tlog t1 ≠ [] := by
        rcases (hne2 t1).mp hne with h | h
        · exact absurd h ht1T
        · exact h
      obtain ⟨c2, Qe, hel⟩ := inv.tlogElected t1 hne0
      obtain ⟨hQe, hge⟩ := inv.electedGrants t1 c2 Qe hel
      obtain ⟨w, hw1, hw2⟩ := maj_inter hQ2 hQe
      have hwc := hallc w hw1
      rw [hwc] at hw2
      have := inv.grantBound t1 c c2 (hge c hw2)
      omega
    · rw [htlog_ne t2 ht2T] at hdA
      have hqold : quorumAcked σ t2 i := by
        refine ⟨Q2, hQ2, fun w hw => ?_⟩
        obtain ⟨m2, hm2, hmem2⟩ := hAck w hw
        rcases hmemsplit _ hmem2 with hmem2 | hmem2
        · exact ⟨m2, hm2, hmem2⟩
        · exfalso
          simp only [Msg.appendOk.injEq] at hmem2
          exact ht2T hmem2.1
      have hdold : decCommitted σ t2 i := ⟨hdA, hqold⟩
      have hib2 : i ≤ (σ.tlog t2).length := (termAt_some_bounds hdA).2
      by_cases ht1T : t1 = (σ.nodes c).currentTerm
      · rw [ht1T] at ht1 ⊢
        obtain ⟨w, hw1, hw2⟩ := maj_inter hQ2 hQ
        obtain ⟨m2, hm2, hmem2⟩ := hAck w hw1
        have hmold : Msg.appendOk t2 w m2 ∈ σ.msgs := by
          rcases hmemsplit _ hmem2 with hh | hh
          · exact hh
          · exfalso
            simp only [Msg.appendOk.injEq] at hh
            exact ht2T hh.1
        have hic2 : interCompat σ t2 i (σ.nodes c).currentTerm := by
          intro t3 h3 h3b h3ne
          have hlc := inv.lcInv t2 i hdold t3 h3 h3ne
          exact ⟨hlc.1, hlc.2⟩
        obtain ⟨g1, g2⟩ := inv.rg1 (σ.nodes c).currentTerm w c (hv w hw2)
          t2 m2 hmold ht1 i hm2 hdA hic2 hrole rfl hTnil
        rw [htlogT]
        refine ⟨by simp; omega, ?_⟩
        rw [take_snoc_le _ g1, htakestab t2 i hib2]
        exact g2
      · rw [htlog_ne t1 ht1T] at hne ⊢
        have hpre := inv.lcInv t2 i hdold t1 ht1 hne
        refine ⟨hpre.1, ?_⟩
        rw [htakestab t2 i hib2]
        exact hpre.2

end RaftM

namespace RaftM

theorem termAt_take {L : List Entry} {k i : Nat} (h : i ≤ k) :
    termAt (L.take k) i = termAt L i := by
  unfold termAt
  rw [entryAt_take h]

theorem take_app_left {A B : List Entry} {j : Nat} (h : j ≤ A.length) :
    (A ++ B).take j = A.take j := by
  rw [List.take_append_eq_append_take]
  have h0 : j - A.length = 0 := by omega
  rw [h0]
  simp

theorem take_trans_eq {A B : List Entry} {k i : Nat} (h : A.take k = B.take k)
    (hi : i ≤ k) : A.take i = B.take i := by
  have h2 := congrArg (List.take i) h
  rwa [List.take_take, List.take_take, Nat.min_eq_left hi] at h2

theorem inv_handleAppend {N : Nat} {σ : State N} (inv : Inv σ) (f lid : Fin N)
    (t pos pt lc : Nat) (es : List Entry)
    (hm : Msg.append t lid pos pt es lc ∈ σ.msgs)
    (ht : (σ.nodes f).currentTerm = t)
    (hrole : (σ.nodes f).role ≠ .Leader)
    (hcons : pos = 0 ∨ termAt (σ.nodes f).log pos = some pt) :
    Inv { σ with
      nodes := Function.update σ.nodes f ({ σ.nodes f with
        role := .Follower,
        log := mergeAt (σ.nodes f).log pos es,
        commitIndex := max (σ.nodes f).commitIndex
          (min lc (pos + es.length)) }),
      msgs := σ.msgs ++ [Msg.appendOk t f (pos + es.length)] } := by
  obtain ⟨hA1, hA2, hA3, hA4, hA5⟩ := inv.appendMsg t lid pos pt es lc hm
  have hposF : pos ≤ (σ.nodes f).log.length := by
    rcases hcons with h0 | h0
    · omega
    · exact (termAt_some_bounds h0).2
  have hpref : (σ.nodes f).log.take pos = (σ.tlog t).take pos := by
    rcases hcons with h0 | h0
    · rw [h0]
      simp
    · rcases hA3 with h1 | h1
      · exfalso
        have := (termAt_some_bounds h0).1
        omega
      · obtain ⟨hn1, hn2⟩ := inv.nodeAnc f pos pt h0
        obtain ⟨ht1, ht2⟩ := inv.tlogAnc t pos pt h1
        rw [hn2]
        exact ht2.symm
  have hsplice : (σ.nodes f).log.take pos ++ es =
      (σ.tlog t).take (pos + es.length) := by
    rw [hpref]
    conv_lhs => rw [hA2]
    exact take_append_slice (σ.tlog t) pos es.length
  have hagreeK : ∀ j e1 e2, pos < j → j ≤ pos + es.length →
      entryAt (σ.nodes f).log j = some e1 →
      entryAt ((σ.nodes f).log.take pos ++ es) j = some e2 →
      e1.term = e2.term → e1 = e2 := by
    intro j e1 e2 hj1 hj2 he1 he2 hterm
    rw [hsplice] at he2
    rw [entryAt_take hj2] at he2
    have ht1 : termAt (σ.nodes f).log j = some e1.term := by
      simp [termAt, he1]
    have ht2 : termAt (σ.tlog t) j = some e2.term := by
      simp [termAt, he2]
    obtain ⟨hn1, hn2⟩ := inv.nodeAnc f j e1.term ht1
    obtain ⟨hl1, hl2⟩ := inv.tlogAnc t j e2.term ht2
    rw [hterm] at hn2
    have hee : entryAt (σ.nodes f).log j = entryAt (σ.tlog t) j := by
      rw [entryAt_eq_of_take_eq hn2 (le_refl j),
        ← entryAt_eq_of_take_eq hl2 (le_refl j)]
    rw [he1, he2] at hee
    exact Option.some_inj.mp hee
  obtain ⟨hm1, hm2, hm3⟩ :=
    mergeAt_main es (σ.nodes f).log pos hposF hagreeK
  have hMtake : (mergeAt (σ.nodes f).log pos es).take (pos + es.length) =
      (σ.tlog t).take (pos + es.length) := by
    rw [hm1, hsplice]
  have hM : mergeAt (σ.nodes f).log pos es =
      (σ.tlog t).take (pos + es.length) ∨
      mergeAt (σ.nodes f).log pos es = (σ.nodes f).log := by
    rcases hm3 with h | h
    · left
      rw [h, hsplice]
    · exact Or.inr h
  have hMpre : ∀ i, i ≤ (σ.nodes f).log.length →
      (σ.nodes f).log.take i = (σ.tlog t).take i →
      i ≤ (mergeAt (σ.nodes f).log pos es).length ∧
      (mergeAt (σ.nodes f).log pos es).take i = (σ.nodes f).log.take i := by
    intro i hiF hiAg
    by_cases hiK : i ≤ pos + es.length
    · refine ⟨le_trans hiK hm2, ?_⟩
      rw [take_trans_eq hMtake hiK, ← hiAg]
    · have hkeep : ∃ suf, mergeAt (σ.nodes f).log pos es =
          (σ.nodes f).log ++ suf := by
        apply mergeAt_keeps es (σ.nodes f).log pos hposF
        intro j e1 e2 hj he1 he2
        rw [hsplice] at he2
        have hjK : j ≤ pos + es.length := by
          have hb := entryAt_some_bounds he2
          have hlen := List.length_take (pos + es.length) (σ.tlog t)
          omega
        rw [entryAt_take hjK] at he2
        have hji : j ≤ i := by omega
        have hee : entryAt (σ.nodes f).log j = entryAt (σ.tlog t) j :=
          entryAt_eq_of_take_eq hiAg hji
        rw [he1, he2] at hee
        rw [Option.some_inj.mp hee]
      obtain ⟨suf, hsuf⟩ := hkeep
      rw [hsuf]
      constructor
      · rw [List.length_append]
        omega
      · exact take_app_left hiF
  have hciM : (σ.nodes f).commitIndex ≤
      (mergeAt (σ.nodes f).log pos es).length ∧
      (mergeAt (σ.nodes f).log pos es).take (σ.nodes f).commitIndex =
        (σ.nodes f).log.take (σ.nodes f).commitIndex := by
    rcases inv.commitCover f with h0 | ⟨tc, ic, hdc, hcic, htct, htakeF⟩
    · rw [h0]
      simp
    · rw [ht] at htct
      have hFt : (σ.nodes f).log.take (σ.nodes f).commitIndex =
          (σ.tlog t).take (σ.nodes f).commitIndex := by
        rcases Nat.lt_or_ge tc t with hlt | hge
        · have hlc2 := inv.lcInv tc ic hdc t hlt hA5
          rw [htakeF]
          exact (take_trans_eq hlc2.2 hcic).symm
        · have htceq : tc = t := by omega
          rw [← htceq]
          exact htakeF
      exact hMpre _ (inv.commitLe f) hFt
  -- frames
  have htlog_id : ∀ u, ({ σ with
        nodes := Function.update σ.nodes f ({ σ.nodes f with
          role := .Follower,
          log := mergeAt (σ.nodes f).log pos es,
          commitIndex := max (σ.nodes f).commitIndex
            (min lc (pos + es.length)) }),
        msgs := σ.msgs ++ [Msg.appendOk t f (pos + es.length)] } : State N).tlog u = σ.tlog u := fun u => rfl
  have hlog_ne : ∀ a, a ≠ f → ((Function.update σ.nodes f ({ σ.nodes f with
      role := .Follower,
      log := mergeAt (σ.nodes f).log pos es,
      commitIndex := max (σ.nodes f).commitIndex
        (min lc (pos + es.length)) })) a).log = (σ.nodes a).log := by
    intro a h
    simp [Function.update_noteq h]
  have hlog_f : ((Function.update σ.nodes f ({ σ.nodes f with
      role := .Follower,
      log := mergeAt (σ.nodes f).log pos es,
      commitIndex := max (σ.nodes f).commitIndex
        (min lc (pos + es.length)) })) f).log = mergeAt (σ.nodes f).log pos es := by
    simp
  have hrl_ne : ∀ a, a ≠ f → ((Function.update σ.nodes f ({ σ.nodes f with
      role := .Follower,
      log := mergeAt (σ.nodes f).log pos es,
      commitIndex := max (σ.nodes f).commitIndex
        (min lc (pos + es.length)) })) a).role = (σ.nodes a).role := by
    intro a h
    simp [Function.update_noteq h]
  have hrl_f : ((Function.update σ.nodes f ({ σ.nodes f with
      role := .Follower,
      log := mergeAt (σ.nodes f).log pos es,
      commitIndex := max (σ.nodes f).commitIndex
        (min lc (pos + es.length)) })) f).role = Role.Follower := by
    simp
  have hci_ne : ∀ a, a ≠ f → ((Function.update σ.nodes f ({ σ.nodes f with
      role := .Follower,
      log := mergeAt (σ.nodes f).log pos es,
      commitIndex := max (σ.nodes f).commitIndex
        (min lc (pos + es.length)) })) a).commitIndex = (σ.nodes a).commitIndex := by
    intro a h
    simp [Function.update_noteq h]
  have hci_f : ((Function.update σ.nodes f ({ σ.nodes f with
      role := .Follower,
      log := mergeAt (σ.nodes f).log pos es,
      commitIndex := max (σ.nodes f).commitIndex
        (min lc (pos + es.length)) })) f).commitIndex =
      max (σ.nodes f).commitIndex (min lc (pos + es.length)) := by
    simp
  have htm : ∀ a, ((Function.update σ.nodes f ({ σ.nodes f with
      role := .Follower,
      log := mergeAt (σ.nodes f).log pos es,
      commitIndex := max (σ.nodes f).commitIndex
        (min lc (pos + es.length)) })) a).currentTerm = (σ.nodes a).currentTerm := by
    intro a
    by_cases h : a = f
    · rw [h]
      simp
    · simp [Function.update_noteq h]
  have hvf : ∀ a, ((Function.update σ.nodes f ({ σ.nodes f with
      role := .Follower,
      log := mergeAt (σ.nodes f).log pos es,
      commitIndex := max (σ.nodes f).commitIndex
        (min lc (pos + es.length)) })) a).votedFor = (σ.nodes a).votedFor := by
    intro a
    by_cases h : a = f
    · rw [h]
      simp
    · simp [Function.update_noteq h]
  have hmemsplit : ∀ x : Msg N, x ∈ σ.msgs ++
      [Msg.appendOk t f (pos + es.length)] →
      x ∈ σ.msgs ∨ x = Msg.appendOk t f (pos + es.length) := by
    intro x h
    rcases List.mem_append.mp h with h | h
    · exact Or.inl h
    · rcases List.mem_cons.mp h with h | h
      · exact Or.inr h
      · simp at h
  have hmono : ∀ x ∈ σ.msgs, x ∈ σ.msgs ++
      [Msg.appendOk t f (pos + es.length)] :=
    fun x hx => List.mem_append_left _ hx
  have hreqE : ∀ t2 c2 li2 lt2, Msg.reqVote t2 c2 li2 lt2 ∈ σ.msgs ++
      [Msg.appendOk t f (pos + es.length)] →
      Msg.reqVote t2 c2 li2 lt2 ∈ σ.msgs := by
    intro t2 c2 li2 lt2 h
    rcases hmemsplit _ h with h | h
    · exact h
    · simp at h
  have hgrE : ∀ t2 v2 c2, Msg.voteGrant t2 v2 c2 ∈ σ.msgs ++
      [Msg.appendOk t f (pos + es.length)] →
      Msg.voteGrant t2 v2 c2 ∈ σ.msgs := by
    intro t2 v2 c2 h
    rcases hmemsplit _ h with h | h
    · exact h
    · simp at h
  have happE : ∀ t2 lid2 pos2 pt2 es2 lc2,
      Msg.append t2 lid2 pos2 pt2 es2 lc2 ∈ σ.msgs ++
      [Msg.appendOk t f (pos + es.length)] →
      Msg.append t2 lid2 pos2 pt2 es2 lc2 ∈ σ.msgs := by
    intro t2 lid2 pos2 pt2 es2 lc2 h
    rcases hmemsplit _ h with h | h
    · exact h
    · simp at h

  refine
    { termBound := by
        intro a i τ h
        rw [htm]
        by_cases hal : a = f
        · rw [hal, hlog_f] at h
          rw [hal]
          rcases hM with hMc | hMc
          · rw [hMc] at h
            have hb := termAt_some_bounds h
            have hlt := List.length_take (pos + es.length) (σ.tlog t)
            have hiK : i ≤ pos + es.length := by omega
            rw [termAt_take hiK] at h
            rw [ht]
            exact (inv.tlogTerms t i τ h).2
          · rw [hMc] at h
            exact inv.termBound f i τ h
        · rw [hlog_ne a hal] at h
          exact inv.termBound a i τ h
      logMono := by
        intro a i j τ1 τ2 hij h1 h2
        by_cases hal : a = f
        · rw [hal, hlog_f] at h1 h2
          rcases hM with hMc | hMc
          · rw [hMc] at h1 h2
            have hb1 := termAt_some_bounds h1
            have hb2 := termAt_some_bounds h2
            have hlt := List.length_take (pos + es.length) (σ.tlog t)
            have hiK : i ≤ pos + es.length := by omega
            have hjK : j ≤ pos + es.length := by omega
            rw [termAt_take hiK] at h1
            rw [termAt_take hjK] at h2
            exact inv.tlogMono t i j τ1 τ2 hij h1 h2
          · rw [hMc] at h1 h2
            exact inv.logMono f i j τ1 τ2 hij h1 h2
        · rw [hlog_ne a hal] at h1 h2
          exact inv.logMono a i j τ1 τ2 hij h1 h2
      commitLe := by
        intro a
        by_cases hal : a = f
        · rw [hal, hlog_f, hci_f]
          have h1 := hciM.1
          have h2 := hm2
          omega
        · rw [hlog_ne a hal, hci_ne a hal]
          exact inv.commitLe a
      candReq := by
        intro a h
        by_cases hal : a = f
        · rw [hal, hrl_f] at h
          exact Role.noConfusion h
        · rw [hrl_ne a hal] at h
          rw [htm, hlog_ne a hal]
          exact hmono _ (inv.candReq a h)
      reqBound := by
        intro t2 c2 li2 lt2 h
        rw [htm]
        exact inv.reqBound t2 c2 li2 lt2 (hreqE _ _ _ _ h)
      reqUnique := fun t2 c2 li2 lt2 li3 lt3 h h2 =>
        inv.reqUnique t2 c2 li2 lt2 li3 lt3 (hreqE _ _ _ _ h) (hreqE _ _ _ _ h2)
      grantBound := by
        intro t2 v2 c2 h
        rw [htm]
        exact inv.grantBound t2 v2 c2 (hgrE _ _ _ h)
      grantReq := by
        intro t2 v2 c2 h
        obtain ⟨li2, lt2, hr⟩ := inv.grantReq t2 v2 c2 (hgrE _ _ _ h)
        exact ⟨li2, lt2, hmono _ hr⟩
      grantVotedFor := by
        intro t2 v2 c2 h hEq
        rw [htm] at hEq
        rw [hvf]
        exact inv.grantVotedFor t2 v2 c2 (hgrE _ _ _ h) hEq
      grantUnique := fun t2 v2 ca cb h h2 =>
        inv.grantUnique t2 v2 ca cb (hgrE _ _ _ h) (hgrE _ _ _ h2)
      electedGrants := by
        intro t2 c2 Q2 h
        obtain ⟨g1, g2⟩ := inv.electedGrants t2 c2 Q2 h
        exact ⟨g1, fun w hw => hmono _ (g2 w hw)⟩
      tlogElected := fun t2 h => inv.tlogElected t2 h
      electedNe := fun t2 c2 Q2 h => inv.electedNe t2 c2 Q2 h
      electedRole := by
        intro t2 c2 Q2 h
        rw [htm]
        refine ⟨(inv.electedRole t2 c2 Q2 h).1, ?_⟩
        intro hEq
        by_cases hc2 : c2 = f
        · exfalso
          rw [hc2] at hEq h
          exact hrole ((inv.electedRole t2 f Q2 h).2 hEq)
        · rw [hrl_ne c2 hc2]
          exact (inv.electedRole t2 c2 Q2 h).2 hEq
      leaderTlog := by
        intro a h
        by_cases hal : a = f
        · rw [hal, hrl_f] at h
          exact Role.noConfusion h
        · rw [hrl_ne a hal] at h
          rw [htm, hlog_ne a hal, htlog_id]
          exact inv.leaderTlog a h
      leaderElected := by
        intro a h
        by_cases hal : a = f
        · rw [hal, hrl_f] at h
          exact Role.noConfusion h
        · rw [hrl_ne a hal] at h
          rw [htm]
          exact inv.leaderElected a h
      leaderSelfAck := by
        intro a h
        by_cases hal : a = f
        · rw [hal, hrl_f] at h
          exact Role.noConfusion h
        · rw [hrl_ne a hal] at h
          rw [htm, hlog_ne a hal]
          exact hmono _ (inv.leaderSelfAck a h)
      tlogTerms := fun t2 i τ h => inv.tlogTerms t2 i τ h
      tlogMono := fun t2 i j τ1 τ2 hij h1 h2 =>
        inv.tlogMono t2 i j τ1 τ2 hij h1 h2
      tlogAnc := fun t2 i τ h => inv.tlogAnc t2 i τ h
      nodeAnc := by
        intro a i τ h
        by_cases hal : a = f
        · rw [hal, hlog_f] at h
          rw [hal, hlog_f, htlog_id τ]
          rcases hM with hMc | hMc
          · rw [hMc] at h ⊢
            have hb := termAt_some_bounds h
            have hlt := List.length_take (pos + es.length) (σ.tlog t)
            have hiK : i ≤ pos + es.length := by omega
            rw [termAt_take hiK] at h
            obtain ⟨ha1, ha2⟩ := inv.tlogAnc t i τ h
            refine ⟨ha1, ?_⟩
            rw [List.take_take, Nat.min_eq_left hiK]
            exact ha2
          · rw [hMc] at h ⊢
            exact inv.nodeAnc f i τ h
        · rw [hlog_ne a hal] at h
          rw [hlog_ne a hal, htlog_id τ]
          exact inv.nodeAnc a i τ h
      appendMsg := by
        intro t2 lid2 pos2 pt2 es2 lc2 h
        obtain ⟨h1, h2, h3, h4, h5⟩ :=
          inv.appendMsg t2 lid2 pos2 pt2 es2 lc2 (happE _ _ _ _ _ _ h)
        refine ⟨h1, h2, h3, ?_, h5⟩
        rcases h4 with h4 | ⟨tc, ic, hdc, hlc4, htc, htake⟩
        · exact Or.inl h4
        · exact Or.inr ⟨tc, ic, decCommitted_mono hdc hmono rfl, hlc4, htc, htake⟩
      ackBound := by
        intro t2 v2 m h
        rw [htm]
        rcases hmemsplit _ h with h | h
        · exact inv.ackBound t2 v2 m h
        · simp only [Msg.appendOk.injEq] at h
          obtain ⟨h1, h2, h3⟩ := h
          rw [h1, h2, h3, ht]
          exact ⟨le_refl t, hA1, hA5⟩
      commitCover := ?_
      retention := ?_
      rg1 := ?_
      rg2 := ?_
      lcInv := ?_ }

  · -- commitCover
    intro a
    by_cases hal : a = f
    · rw [hal, hci_f, hlog_f]
      by_cases hd : min lc (pos + es.length) ≤ (σ.nodes f).commitIndex
      · rcases inv.commitCover f with h0 | ⟨tc, ic, hdc, hcic, htct, htakeF⟩
        · left
          omega
        · right
          refine ⟨tc, ic, decCommitted_mono hdc hmono rfl, ?_,
            by rw [htm]; exact htct, ?_⟩
          · omega
          · rw [htlog_id tc, Nat.max_eq_left hd, hciM.2, htakeF]
      · push_neg at hd
        have hlcpos : 1 ≤ lc := by omega
        rcases hA4 with h0 | ⟨tcl, icl, hdcl, hlcicl, htcl, hTl⟩
        · omega
        · right
          refine ⟨tcl, icl, decCommitted_mono hdcl hmono rfl, ?_, ?_, ?_⟩
          · have := Nat.min_le_left lc (pos + es.length)
            omega
          · rw [htm, ht]
            exact htcl
          · rw [htlog_id tcl, Nat.max_eq_right (le_of_lt hd)]
            have hdK : min lc (pos + es.length) ≤ pos + es.length :=
              Nat.min_le_right _ _
            rw [take_trans_eq hMtake hdK,
              take_trans_eq hTl (Nat.min_le_left _ _)]
    · rw [hlog_ne a hal, hci_ne a hal]
      rcases inv.commitCover a with h0 | ⟨tc, ic, hdc, hcic, htct, htakeF⟩
      · exact Or.inl h0
      · right
        refine ⟨tc, ic, decCommitted_mono hdc hmono rfl, hcic,
          by rw [htm]; exact htct, ?_⟩
        rw [htlog_id tc]
        exact htakeF
  · -- retention
    intro t2 w m h i hi hc
    rw [htm] at hc
    have hcσ : upCompat σ t2 i (σ.nodes w).currentTerm :=
      fun t3 h3 h3b h3ne => hc t3 h3 h3b h3ne
    rcases hmemsplit _ h with h | h
    · have hpre := inv.retention t2 w m h i hi hcσ
      by_cases hwf : w = f
      · rw [hwf, hlog_f]
        rw [hwf] at hpre hcσ h
        have ht2t : t2 ≤ t := by
          have hab := (inv.ackBound t2 f m h).1
          omega
        have hFt : (σ.nodes f).log.take i = (σ.tlog t).take i := by
          rcases Nat.lt_or_ge t2 t with hlt | hge
          · have hfc := hcσ t hlt (by rw [ht]) hA5
            exact hpre.2.trans hfc.2.symm
          · have ht2eq : t2 = t := by omega
            rw [← ht2eq]
            exact hpre.2
        obtain ⟨hl2, ht2⟩ := hMpre i hpre.1 hFt
        refine ⟨hl2, ?_⟩
        rw [htlog_id t2, ht2]
        exact hpre.2
      · rw [hlog_ne w hwf, htlog_id t2]
        exact hpre
    · simp only [Msg.appendOk.injEq] at h
      obtain ⟨h1, h2, h3⟩ := h
      rw [h2, hlog_f]
      rw [h1, htlog_id t]
      rw [h3] at hi
      refine ⟨le_trans hi hm2, ?_⟩
      exact take_trans_eq hMtake hi
  · -- rg1
    intro t1 w ca hg t2 m ha ht12 i him hdec hic hcand hct htl1
    have hgold := hgrE _ _ _ hg
    rw [htm] at hct
    have hcaf : ca ≠ f := by
      intro hEq
      rw [hEq, hrl_f] at hcand
      exact Role.noConfusion hcand
    rw [hrl_ne ca hcaf] at hcand
    have hdec2 : termAt (σ.tlog t2) i = some t2 := hdec
    have htl2 : σ.tlog t1 = [] := htl1
    have hic2 : interCompat σ t2 i t1 :=
      fun t3 h3 h3b h3ne => hic t3 h3 h3b h3ne
    rcases hmemsplit _ ha with ha | ha
    · rw [hlog_ne ca hcaf, htlog_id t2]
      exact inv.rg1 t1 w ca hgold t2 m ha ht12 i him hdec2 hic2 hcand hct htl2
    · exfalso
      simp only [Msg.appendOk.injEq] at ha
      obtain ⟨h1, h2, -⟩ := ha
      rw [h2] at hgold
      have hgb := inv.grantBound t1 f ca hgold
      omega
  · -- rg2
    intro t1 ca Q1 helid w hw t2 m ha ht12 i him hdec hic
    have hdec2 : termAt (σ.tlog t2) i = some t2 := hdec
    have hic2 : interCompat σ t2 i t1 :=
      fun t3 h3 h3b h3ne => hic t3 h3 h3b h3ne
    have helid2 : (t1, ca, Q1) ∈ σ.elected := helid
    rcases hmemsplit _ ha with ha | ha
    · have hres := inv.rg2 t1 ca Q1 helid2 w hw t2 m ha ht12 i him hdec2 hic2
      rw [htlog_id t1, htlog_id t2]
      exact hres
    · exfalso
      simp only [Msg.appendOk.injEq] at ha
      obtain ⟨h1, h2, -⟩ := ha
      rw [h2] at hw
      have hgr := (inv.electedGrants t1 ca Q1 helid2).2 f hw
      have hgb := inv.grantBound t1 f ca hgr
      omega
  · -- lcInv
    intro t2 i hd t1 ht1 hne
    obtain ⟨hdA, Qa, hQa, hAck⟩ := hd
    have hdA2 : termAt (σ.tlog t2) i = some t2 := hdA
    have hne0 : σ.tlog t1 ≠ [] := hne
    by_cases ht2t : t2 = t
    · rw [ht2t] at hdA2 ht1 hAck ⊢
      have main : ∀ u, t < u → σ.tlog u ≠ [] →
          i ≤ (σ.tlog u).length ∧ (σ.tlog u).take i = (σ.tlog t).take i := by
        intro u
        induction u using Nat.strong_induction_on with
        | _ u IH =>
          intro hu hune
          obtain ⟨c1, Q1, hel⟩ := inv.tlogElected u hune
          obtain ⟨hQ1, hg1⟩ := inv.electedGrants u c1 Q1 hel
          obtain ⟨w, hw1, hw2⟩ := maj_inter hQa hQ1
          obtain ⟨m2, hm2, hmem2⟩ := hAck w hw1
          rcases hmemsplit _ hmem2 with hold | hnew
          · apply inv.rg2 u c1 Q1 hel w hw2 t m2 hold hu i hm2 hdA2
            intro t3 h3 h3b h3ne
            have hres := IH t3 h3b h3 h3ne
            exact ⟨hres.1, hres.2⟩
          · exfalso
            simp only [Msg.appendOk.injEq] at hnew
            obtain ⟨g1, g2, -⟩ := hnew
            rw [g2] at hw2
            have hgr := hg1 f hw2
            have hgb := inv.grantBound u f c1 hgr
            omega
      have hres := main t1 ht1 hne0
      rw [htlog_id t1, htlog_id t]
      exact hres
    · have hq : quorumAcked σ t2 i := by
        refine ⟨Qa, hQa, fun w hw => ?_⟩
        obtain ⟨m2, hm2, hmem2⟩ := hAck w hw
        rcases hmemsplit _ hmem2 with hold | hnew
        · exact ⟨m2, hm2, hold⟩
        · exfalso
          simp only [Msg.appendOk.injEq] at hnew
          exact ht2t hnew.1
      have hres := inv.lcInv t2 i ⟨hdA2, hq⟩ t1 ht1 hne0
      rw [htlog_id t1, htlog_id t2]
      exact hres

end RaftM

namespace RaftM

/-- Every step of the protocol preserves the inductive invariant. -/
theorem step_inv {N : Nat} {σ σ2 : State N} (inv : Inv σ) (h : Step σ σ2) :
    Inv σ2 := by
  cases h with
  | timeout c => exact inv_timeout inv c
  | stepDown v t ht => exact inv_stepDown inv v t ht
  | grantVote v c t li lt hm ht hv hup =>
      exact inv_grantVote inv v c t li lt hm ht hv hup
  | becomeLeader c Q hrole hQ hv => exact inv_becomeLeader inv c Q hrole hQ hv
  | clientPropose l e hrole he => exact inv_clientPropose inv l e hrole he
  | sendAppend l pos len hrole hlen => exact inv_sendAppend inv l pos len hrole hlen
  | handleAppend f lid t pos pt lc es hm ht hrole hcons =>
      exact inv_handleAppend inv f lid t pos pt lc es hm ht hrole hcons
  | advanceCommit l i Q hrole hterm hQ hack =>
      exact inv_advanceCommit inv l i Q hrole hterm hQ hack

/-- The inductive invariant holds in every reachable state. -/
theorem reachable_inv {N : Nat} {σ : State N} (h : Reachable σ) : Inv σ := by
  induction h with
  | start => exact inv_init N
  | step hr hs ih => exact step_inv ih hs

end RaftM

namespace RaftM

/-- C1: election safety.  In every reachable cluster state, two nodes that
both believe themselves Leader of the same term are the same node: at most
one Leader exists per term at any instant. -/
theorem election_safety {N : Nat} {σ : State N} (hr : Reachable σ)
    (a b : Fin N)
    (ha : (σ.nodes a).role = .Leader) (hb : (σ.nodes b).role = .Leader)
    (ht : (σ.nodes a).currentTerm = (σ.nodes b).currentTerm) : a = b :=
  leader_eq (reachable_inv hr) ha hb ht

/-- C2: log matching.  In every reachable state, if two nodes have each
committed an entry at the same (1-based) index — the index is at or below
both commit indexes — the two entries are identical: same term, kind,
payload and session tag. -/
theorem log_matching {N : Nat} {σ : State N} (hr : Reachable σ)
    (a b : Fin N) (i : Nat) (ea eb : Entry)
    (hia : i ≤ (σ.nodes a).commitIndex) (hib : i ≤ (σ.nodes b).commitIndex)
    (hea : entryAt (σ.nodes a).log i = some ea)
    (heb : entryAt (σ.nodes b).log i = some eb) : ea = eb := by
  have inv := reachable_inv hr
  have hi1 : 1 ≤ i := (entryAt_some_bounds hea).1
  rcases inv.commitCover a with h0 | ⟨tc, ic, hdc, hle, htc, htake⟩
  · omega
  rcases inv.commitCover b with h0 | ⟨tc2, ic2, hdc2, hle2, htc2, htake2⟩
  · omega
  have hga : entryAt (σ.tlog tc) i = some ea := by
    rw [← entryAt_eq_of_take_eq htake hia]
    exact hea
  have hgb : entryAt (σ.tlog tc2) i = some eb := by
    rw [← entryAt_eq_of_take_eq htake2 hib]
    exact heb
  have hic1 : i ≤ ic := le_trans hia hle
  have hic2 : i ≤ ic2 := le_trans hib hle2
  rcases Nat.lt_trichotomy tc tc2 with hlt | heqt | hgt
  · have hne : σ.tlog tc2 ≠ [] := by
      intro h0
      rw [h0, entryAt_nil] at hgb
      exact Option.noConfusion hgb
    have hl := inv.lcInv tc ic hdc tc2 hlt hne
    have hee := entryAt_eq_of_take_eq (take_trans_eq hl.2 hic1) (le_refl i)
    rw [hga, hgb] at hee
    exact (Option.some_inj.mp hee).symm
  · rw [heqt] at hga
    rw [hga] at hgb
    exact Option.some_inj.mp hgb
  · have hne : σ.tlog tc ≠ [] := by
      intro h0
      rw [h0, entryAt_nil] at hga
      exact Option.noConfusion hga
    have hl := inv.lcInv tc2 ic2 hdc2 tc hgt hne
    have hee := entryAt_eq_of_take_eq (take_trans_eq hl.2 hic2) (le_refl i)
    rw [hga, hgb] at hee
    exact Option.some_inj.mp hee

theorem advanceCommit_spec {N : Nat} {σ : State N} (inv : Inv σ) (l : Fin N)
    (i : Nat) (Q : Finset (Fin N))
    (hrole : (σ.nodes l).role = .Leader)
    (hterm : termAt (σ.nodes l).log i = some (σ.nodes l).currentTerm)
    (hQ : isMaj N Q)
    (hack : ∀ v ∈ Q, ∃ m, i ≤ m ∧
      Msg.appendOk (σ.nodes l).currentTerm v m ∈ σ.msgs)
    (hgt : (σ.nodes l).commitIndex < i) :
    termAt ((({ σ with nodes := Function.update σ.nodes l ({ σ.nodes l with
      commitIndex := max (σ.nodes l).commitIndex i }) } : State N)).nodes l).log ((({ σ with nodes := Function.update σ.nodes l ({ σ.nodes l with
      commitIndex := max (σ.nodes l).commitIndex i }) } : State N)).nodes l).commitIndex =
      some ((({ σ with nodes := Function.update σ.nodes l ({ σ.nodes l with
      commitIndex := max (σ.nodes l).commitIndex i }) } : State N)).nodes l).currentTerm ∧
    ∃ Q2, isMaj N Q2 ∧ ∀ v ∈ Q2,
      ((({ σ with nodes := Function.update σ.nodes l ({ σ.nodes l with
      commitIndex := max (σ.nodes l).commitIndex i }) } : State N)).nodes l).commitIndex ≤ ((({ σ with nodes := Function.update σ.nodes l ({ σ.nodes l with
      commitIndex := max (σ.nodes l).commitIndex i }) } : State N)).nodes v).log.length ∧
      ((({ σ with nodes := Function.update σ.nodes l ({ σ.nodes l with
      commitIndex := max (σ.nodes l).commitIndex i }) } : State N)).nodes v).log.take ((({ σ with nodes := Function.update σ.nodes l ({ σ.nodes l with
      commitIndex := max (σ.nodes l).commitIndex i }) } : State N)).nodes l).commitIndex =
        ((({ σ with nodes := Function.update σ.nodes l ({ σ.nodes l with
      commitIndex := max (σ.nodes l).commitIndex i }) } : State N)).nodes l).log.take ((({ σ with nodes := Function.update σ.nodes l ({ σ.nodes l with
      commitIndex := max (σ.nodes l).commitIndex i }) } : State N)).nodes l).commitIndex := by
  have hlogA : ∀ a : Fin N, ((({ σ with nodes := Function.update σ.nodes l ({ σ.nodes l with
      commitIndex := max (σ.nodes l).commitIndex i }) } : State N)).nodes a).log = (σ.nodes a).log := by
    intro a
    by_cases h : a = l
    · rw [h]
      simp
    · simp [Function.update_noteq h]
  have htmA : ∀ a : Fin N, ((({ σ with nodes := Function.update σ.nodes l ({ σ.nodes l with
      commitIndex := max (σ.nodes l).commitIndex i }) } : State N)).nodes a).currentTerm = (σ.nodes a).currentTerm := by
    intro a
    by_cases h : a = l
    · rw [h]
      simp
    · simp [Function.update_noteq h]
  have hciA : ((({ σ with nodes := Function.update σ.nodes l ({ σ.nodes l with
      commitIndex := max (σ.nodes l).commitIndex i }) } : State N)).nodes l).commitIndex = i := by
    simp
    omega
  have hdc : decCommitted σ (σ.nodes l).currentTerm i := by
    refine ⟨?_, Q, hQ, hack⟩
    rw [(inv.leaderTlog l hrole).1]
    exact hterm
  constructor
  · rw [hlogA, hciA, htmA]
    exact hterm
  · refine ⟨Q, hQ, fun v hv => ?_⟩
    obtain ⟨m, him, hmem⟩ := hack v hv
    have hupc : upCompat σ (σ.nodes l).currentTerm i (σ.nodes v).currentTerm := by
      intro t3 h3 h3b h3ne
      have h := inv.lcInv (σ.nodes l).currentTerm i hdc t3 h3 h3ne
      exact ⟨h.1, h.2⟩
    have hret := inv.retention (σ.nodes l).currentTerm v m hmem i him hupc
    rw [hlogA, hciA]
    refine ⟨hret.1, ?_⟩
    rw [hlogA, hret.2, (inv.leaderTlog l hrole).1]

/-- C4: the commit rule.  Whenever a step of the protocol makes a leader
advance its commit index, in the resulting state the entry at the new
commit index carries the leader's current term — an entry of a prior term
is never committed by replication count alone — and a strict majority of
the members store a log that contains the leader's log up to that index. -/
theorem commit_rule {N : Nat} {σ σ2 : State N} (hr : Reachable σ)
    (hs : Step σ σ2) (l : Fin N)
    (hlead : (σ.nodes l).role = .Leader)
    (hadv : (σ.nodes l).commitIndex < (σ2.nodes l).commitIndex) :
    termAt (σ2.nodes l).log (σ2.nodes l).commitIndex =
      some (σ2.nodes l).currentTerm ∧
    ∃ Q, isMaj N Q ∧ ∀ v ∈ Q,
      (σ2.nodes l).commitIndex ≤ (σ2.nodes v).log.length ∧
      (σ2.nodes v).log.take (σ2.nodes l).commitIndex =
        (σ2.nodes l).log.take (σ2.nodes l).commitIndex := by
  have inv := reachable_inv hr
  cases hs with
  | timeout c =>
      exfalso
      by_cases h : l = c
      · subst h
        simp at hadv
      · simp [Function.update_noteq h] at hadv
  | stepDown v t ht2 =>
      exfalso
      by_cases h : l = v
      · subst h
        simp at hadv
      · simp [Function.update_noteq h] at hadv
  | grantVote v c t li lt hm2 ht2 hv2 hup2 =>
      exfalso
      by_cases h : l = v
      · subst h
        simp at hadv
      · simp [Function.update_noteq h] at hadv
  | becomeLeader c Q hrole2 hQ2 hv2 =>
      exfalso
      by_cases h : l = c
      · subst h
        simp at hadv
      · simp [Function.update_noteq h] at hadv
  | clientPropose l2 e hrole2 he2 =>
      exfalso
      by_cases h : l = l2
      · subst h
        simp at hadv
      · simp [Function.update_noteq h] at hadv
  | sendAppend l2 pos len hrole2 hlen2 =>
      exact absurd hadv (lt_irrefl _)
  | handleAppend f lid t pos pt lc es hm2 ht2 hrole2 hcons2 =>
      exfalso
      by_cases h : l = f
      · rw [h] at hlead
        exact hrole2 hlead
      · simp [Function.update_noteq h] at hadv
  | advanceCommit l2 i Q hrole2 hterm2 hQ2 hack2 =>
      by_cases hll : l = l2
      · rw [hll] at hadv ⊢
        have hgt : (σ.nodes l2).commitIndex < i := by
          simp at hadv
          omega
        exact advanceCommit_spec inv l2 i Q hrole2 hterm2 hQ2 hack2 hgt
      · exfalso
        simp [Function.update_noteq hll] at hadv

/-- C5: vote safety.  In any state reached by a step from a reachable
state, a node's vote grants for a term name at most one candidate; and any
grant newly emitted by the step answers a RequestVote whose (lastTerm,
lastIndex) pair is lexicographically at least as up-to-date as the
voter's own log at the instant of granting. -/
theorem vote_safety {N : Nat} {σ σ2 : State N} (hr : Reachable σ)
    (hs : Step σ σ2) :
    (∀ t v c c2, Msg.voteGrant t v c ∈ σ2.msgs →
      Msg.voteGrant t v c2 ∈ σ2.msgs → c = c2) ∧
    (∀ t v c, Msg.voteGrant t v c ∈ σ2.msgs →
      Msg.voteGrant t v c ∉ σ.msgs →
      ∃ li lt, Msg.reqVote t c li lt ∈ σ2.msgs ∧
        lexGe lt li (lastTermOf (σ.nodes v).log) (σ.nodes v).log.length) := by
  have inv2 := step_inv (reachable_inv hr) hs
  refine ⟨inv2.grantUnique, ?_⟩
  intro t v c hmem hnew
  cases hs with
  | timeout c0 =>
      rcases List.mem_append.mp hmem with h | h
      · exact absurd h hnew
      · rcases List.mem_cons.mp h with h | h
        · simp at h
        · rcases List.mem_cons.mp h with h | h
          · simp only [Msg.voteGrant.injEq] at h
            obtain ⟨h1, h2, h3⟩ := h
            refine ⟨(σ.nodes c0).log.length, lastTermOf (σ.nodes c0).log, ?_, ?_⟩
            · rw [h1, h3]
              apply List.mem_append_right
              exact List.mem_cons_self _ _
            · rw [h2]
              exact Or.inr ⟨rfl, le_refl _⟩
          · simp at h
  | stepDown v2 t2 ht2 =>
      exact absurd hmem hnew
  | grantVote v0 c0 t0 li0 lt0 hm0 ht0 hv0 hup0 =>
      rcases List.mem_append.mp hmem with h | h
      · exact absurd h hnew
      · rcases List.mem_cons.mp h with h | h
        · simp only [Msg.voteGrant.injEq] at h
          obtain ⟨h1, h2, h3⟩ := h
          refine ⟨li0, lt0, ?_, ?_⟩
          · rw [h1, h3]
            exact List.mem_append_left _ hm0
          · rw [h2]
            exact hup0
        · simp at h
  | becomeLeader c0 Q hrole2 hQ2 hv2 =>
      rcases List.mem_append.mp hmem with h | h
      · exact absurd h hnew
      · simp at h
  | clientPropose l2 e hrole2 he2 =>
      rcases List.mem_append.mp hmem with h | h
      · exact absurd h hnew
      · simp at h
  | sendAppend l2 pos len hrole2 hlen2 =>
      rcases List.mem_append.mp hmem with h | h
      · exact absurd h hnew
      · simp at h
  | handleAppend f lid t2 pos pt lc es hm2 ht2 hrole2 hcons2 =>
      rcases List.mem_append.mp hmem with h | h
      · exact absurd h hnew
      · simp at h
  | advanceCommit l2 i Q hrole2 hterm2 hQ2 hack2 =>
      exact absurd hmem hnew

theorem step_ci_mono {N : Nat} {σ σ2 : State N} (h : Step σ σ2) (a : Fin N) :
    (σ.nodes a).commitIndex ≤ (σ2.nodes a).commitIndex := by
  cases h with
  | timeout c =>
      by_cases hac : a = c
      · subst hac
        simp
      · simp [Function.update_noteq hac]
  | stepDown v t ht =>
      by_cases hac : a = v
      · subst hac
        simp
      · simp [Function.update_noteq hac]
  | grantVote v c t li lt hm2 ht2 hv2 hup2 =>
      by_cases hac : a = v
      · subst hac
        simp
      · simp [Function.update_noteq hac]
  | becomeLeader c Q hrole2 hQ2 hv2 =>
      by_cases hac : a = c
      · subst hac
        simp
      · simp [Function.update_noteq hac]
  | clientPropose l e hrole2 he2 =>
      by_cases hac : a = l
      · subst hac
        simp
      · simp [Function.update_noteq hac]
  | sendAppend l pos len hrole2 hlen2 =>
      exact le_refl _
  | handleAppend f lid t pos pt lc es hm2 ht2 hrole2 hcons2 =>
      by_cases hac : a = f
      · subst hac
        simp
      · simp [Function.update_noteq hac]
  | advanceCommit l i Q hrole2 hterm2 hQ2 hack2 =>
      by_cases hac : a = l
      · subst hac
        simp
      · simp [Function.update_noteq hac]

/-- C6: commit monotonicity.  Across any finite sequence of protocol
steps — leadership changes included — a node's commit index never
decreases. -/
theorem commit_monotone {N : Nat} {σ σ2 : State N} (h : Steps σ σ2)
    (a : Fin N) : (σ.nodes a).commitIndex ≤ (σ2.nodes a).commitIndex := by
  induction h with
  | refl => exact le_refl _
  | tail hs hstep ih => exact le_trans ih (step_ci_mono hstep a)

end RaftM

namespace RaftM

/-- A single-node cluster after an election timeout of node 0. -/
def wσ1 : State 1 := { initState 1 with
  nodes := Function.update (initState 1).nodes 0 ({ (initState 1).nodes 0 with
    currentTerm := ((initState 1).nodes 0).currentTerm + 1,
    votedFor := some 0,
    role := .Candidate }),
  msgs := (initState 1).msgs ++
    [Msg.reqVote (((initState 1).nodes 0).currentTerm + 1) 0
        ((initState 1).nodes 0).log.length (lastTermOf ((initState 1).nodes 0).log),
     Msg.voteGrant (((initState 1).nodes 0).currentTerm + 1) 0 0] }

/-- The same cluster after node 0 wins the term-1 election. -/
def wσ2 : State 1 := { wσ1 with
  nodes := Function.update wσ1.nodes 0 ({ wσ1.nodes 0 with
    role := .Leader,
    log := (wσ1.nodes 0).log ++ [noopFor (wσ1.nodes 0).currentTerm] }),
  msgs := wσ1.msgs ++
    [Msg.appendOk (wσ1.nodes 0).currentTerm 0 ((wσ1.nodes 0).log.length + 1)],
  tlog := fun x => if x = (wσ1.nodes 0).currentTerm
    then (wσ1.nodes 0).log ++ [noopFor (wσ1.nodes 0).currentTerm]
    else wσ1.tlog x,
  elected := wσ1.elected ++ [((wσ1.nodes 0).currentTerm, 0, {0})] }

/-- The same cluster after the leader commits index 1. -/
def wσ3 : State 1 := { wσ2 with
  nodes := Function.update wσ2.nodes 0 ({ wσ2.nodes 0 with
    commitIndex := max (wσ2.nodes 0).commitIndex 1 }) }

theorem wstep1 : Step (initState 1) wσ1 := Step.timeout (initState 1) 0

theorem wstep2 : Step wσ1 wσ2 :=
  Step.becomeLeader wσ1 0 {0} (by decide) (by unfold isMaj; decide) (by decide)

theorem wstep3 : Step wσ2 wσ3 :=
  Step.advanceCommit wσ2 0 1 {0} (by decide) (by decide) (by unfold isMaj; decide)
    (fun v hv => ⟨1, le_refl 1, by
      have hv0 : v = 0 := Subsingleton.elim v 0
      rw [hv0]
      decide⟩)

theorem wreach1 : Reachable wσ1 := Reachable.step Reachable.start wstep1

theorem wreach2 : Reachable wσ2 := Reachable.step wreach1 wstep2

theorem wreach3 : Reachable wσ3 := Reachable.step wreach2 wstep3

theorem wsteps3 : Steps (initState 1) wσ3 :=
  Steps.tail (Steps.tail (Steps.tail (Steps.refl _) wstep1) wstep2) wstep3

theorem election_safety_witness :
    (wσ2.nodes 0).role = .Leader ∧ (0 : Fin 1) = 0 :=
  ⟨by decide, election_safety wreach2 0 0 (by decide) (by decide) rfl⟩

theorem log_matching_witness :
    1 ≤ (wσ3.nodes 0).commitIndex ∧
    entryAt (wσ3.nodes 0).log 1 = some (noopFor 1) ∧
    noopFor 1 = noopFor 1 :=
  ⟨by decide, by decide, log_matching wreach3 0 0 1 (noopFor 1) (noopFor 1)
    (by decide) (by decide) (by decide) (by decide)⟩

theorem commit_rule_witness :
    ((wσ2.nodes 0).role = .Leader ∧
      (wσ2.nodes 0).commitIndex < (wσ3.nodes 0).commitIndex) ∧
    (termAt (wσ3.nodes 0).log (wσ3.nodes 0).commitIndex =
        some (wσ3.nodes 0).currentTerm ∧
      ∃ Q, isMaj 1 Q ∧ ∀ v ∈ Q,
        (wσ3.nodes 0).commitIndex ≤ (wσ3.nodes v).log.length ∧
        (wσ3.nodes v).log.take (wσ3.nodes 0).commitIndex =
          (wσ3.nodes 0).log.take (wσ3.nodes 0).commitIndex) :=
  ⟨⟨by decide, by decide⟩, commit_rule wreach2 wstep3 0 (by decide) (by decide)⟩

theorem vote_safety_witness :
    ∃ li lt, Msg.reqVote 1 0 li lt ∈ wσ1.msgs ∧
      lexGe lt li (lastTermOf ((initState 1).nodes 0).log)
        ((initState 1).nodes 0).log.length :=
  (vote_safety Reachable.start wstep1).2 1 0 0 (by decide) (by decide)

theorem commit_monotone_witness :
    ((initState 1).nodes 0).commitIndex ≤ (wσ3.nodes 0).commitIndex :=
  commit_monotone wsteps3 0

end RaftM
